import Mathlib

/-!
# The mixing extruder of `Marlin/src/feature/mixing.h`

A shallow embedding of the `Mixer` class: the pulse distributor
(`get_next_stepper`), the block snapshot (`populate_block`), tool selection
(`T`) and the two height-driven modes (gradient mix and random mix), followed
by the properties proved about them.

Conventions of the embedding.

* C arrays are total functions from the index; a loop over
  `MIXER_STEPPER_LOOP` touches the indices below `MIXING_STEPPERS` only.
* `mixer_comp_t` and `mixer_accu_t` (the non-AVR branch, `uint_fast16_t`) are
  naturals, reduced modulo `2 ^ fast16_bits` where the source adds.
* `int8_t` and `int_fast8_t` values are integers; a store into an `int8_t`
  goes through `int8_t`, a conversion to `uint8_t` through `uint8_t`.
* `float` members that are only stored and compared (heights, the
  collector) are rationals: comparisons are exact and there is no NaN.
* `float` arithmetic whose result is converted to an integer (the two colour
  conversions) is carried out in `binary32`: every operation rounds to the
  nearest value with a 24-bit significand, ties to even; the exponent is not
  bounded, so there is no overflow, underflow or NaN.
* `GRADIENT_MIX`, `RANDOM_MIX` and `USE_PRECENT_MIXVALUE` are enabled; the
  remaining compile-time switches are fields of `Build`.
-/

namespace Mixing

/-- Compile-time configuration read by `mixing.h` and set outside of it. -/
structure Build where
  /-- Number of mixing steppers, the bound of `MIXER_STEPPER_LOOP`. -/
  MIXING_STEPPERS : Nat
  /-- Number of user virtual tools. -/
  MIXING_VIRTUAL_TOOLS : Nat
  /-- Whether the enum `MixTool` has `MIXER_AUTORETRACT_TOOL`. -/
  HAS_MIXER_SYNC_CHANNEL : Bool
  /-- Whether the gradient keeps a tool slot (`gradient.vtool_index`). -/
  GRADIENT_VTOOL : Bool
  /-- Width in bits of `uint_fast16_t` on the target (16 or more). -/
  fast16_bits : Nat

/-- The `COLOR_A_MASK` of the non-AVR branch: the weight of a full component. -/
def COLOR_A_MASK : Nat := 0x8000

/-- The `COLOR_MASK` of the non-AVR branch. -/
def COLOR_MASK : Nat := 0x7FFF

/-- The enumerator `NR_MIXING_VIRTUAL_TOOLS` of `MixTool`. -/
def NR_MIXING_VIRTUAL_TOOLS (B : Build) : Nat :=
  if B.HAS_MIXER_SYNC_CHANNEL then B.MIXING_VIRTUAL_TOOLS + 2 else B.MIXING_VIRTUAL_TOOLS + 1

/-- The macro `MAX_VTOOLS`. -/
def MAX_VTOOLS (B : Build) : Nat :=
  if B.HAS_MIXER_SYNC_CHANNEL then 254 else 255

/-- Conversion of an integer value to `int8_t` (two's complement wrap). -/
def int8_t (x : Int) : Int := (x + 128) % 256 - 128

/-- Conversion of an integer value to `uint8_t`. -/
def uint8_t (x : Int) : Nat := (x % 256).toNat

/-- The struct `gradient_t`. -/
structure gradient_t where
  enabled : Bool
  color : Nat → Nat
  start_z : ℚ
  end_z : ℚ
  start_vtool : Int
  end_vtool : Int
  start_mix : Nat → Int
  end_mix : Nat → Int
  vtool_index : Int

/-- The struct `randommix_t`. -/
structure randommix_t where
  enabled : Bool
  start_z : ℚ
  end_z : ℚ
  height : ℚ
  extruders : Nat

/-- The static members of class `Mixer`. The palette `color` is indexed by the
row first; a row index is an integer because the source indexes it with the
`int8_t` `selected_vtool`. -/
structure Mixer where
  mixing_enabled : Bool
  percentmix : Nat → Int
  collector : Nat → ℚ
  selected_vtool : Int
  color : Int → Nat → Nat
  mix_prev_z : ℚ
  gradient : gradient_t
  random_mix : randommix_t
  runner : Int
  s_color : Nat → Nat
  accu : Nat → Nat

/-- The member functions that `mixing.h` declares and `mixing.cpp` defines.
Only the values they compute are left open here; which members each of them
writes is fixed by the definitions that use these fields. -/
structure Ext where
  /-- The array `normalize_mixer_percent` leaves in place of its argument. -/
  normalize_mixer_percent : (Nat → Int) → Nat → Int
  /-- The collector `copy_percentmix_to_collector` computes. -/
  copy_percentmix_to_collector : Mixer → Nat → ℚ
  /-- The values `update_gradient_for_z (z, force)` computes. -/
  update_gradient_for_z : ℚ → Bool → Mixer → Mixer
  /-- The values `update_gradient_for_planner_z (force)` computes. -/
  update_gradient_for_planner_z : Bool → Mixer → Mixer
  /-- The values `update_randommix_for_z (z, force)` computes. -/
  update_randommix_for_z : ℚ → Bool → Mixer → Mixer
  /-- The values `update_randommix_for_planner_z (force)` computes. -/
  update_randommix_for_planner_z : Bool → Mixer → Mixer

/-- The loop `MIXER_STEPPER_LOOP(i) dst[i] = src[i]`, also the macro `COPY` on
arrays of `MIXING_STEPPERS` elements. -/
def copy_steppers {α : Type} (B : Build) (src dst : Nat → α) : Nat → α :=
  fun i => if i < B.MIXING_STEPPERS then src i else dst i

/-- `Mixer::get_current_vtool`. -/
def get_current_vtool (m : Mixer) : Nat := uint8_t m.selected_vtool

/-- Modelled from the spec: `normalize_mixer_percent` is defined in
`mixing.cpp`, which is absent. It rewrites the percentage array it is given
and nothing else (spec 4.1, `normalize`). -/
def normalize_mixer_percent (X : Ext) (mix : Nat → Int) : Nat → Int :=
  X.normalize_mixer_percent mix

/-- Modelled from the spec: `copy_percentmix_to_collector` is defined in
`mixing.cpp`, which is absent. It writes the collector, from the percentage
vector. -/
def copy_percentmix_to_collector (X : Ext) (m : Mixer) : Mixer :=
  { m with collector := X.copy_percentmix_to_collector m }

/-- Modelled from the spec: `update_gradient_for_z` is defined in
`mixing.cpp`, which is absent. Spec 4.4: it writes the interpolated result as
the active percentage vector, reconverts it to the gradient's colour and
records the height of the evaluation; it writes nothing else. -/
def update_gradient_for_z (X : Ext) (z : ℚ) (force : Bool) (m : Mixer) : Mixer :=
  let u := X.update_gradient_for_z z force m
  { m with
    percentmix := u.percentmix
    collector := u.collector
    mix_prev_z := u.mix_prev_z
    gradient := { m.gradient with color := u.gradient.color } }

/-- Modelled from the spec: `update_gradient_for_planner_z` is defined in
`mixing.cpp`, which is absent. It is `update_gradient_for_z` at the planner's
height, and writes the same members. -/
def update_gradient_for_planner_z (X : Ext) (force : Bool) (m : Mixer) : Mixer :=
  let u := X.update_gradient_for_planner_z force m
  { m with
    percentmix := u.percentmix
    collector := u.collector
    mix_prev_z := u.mix_prev_z
    gradient := { m.gradient with color := u.gradient.color } }

/-- Modelled from the spec: `update_randommix_for_z` is defined in
`mixing.cpp`, which is absent. Spec 4.5 and 2: it recomputes a percentage
vector per band and updates the palette's active colour, recording the height;
it writes nothing else. -/
def update_randommix_for_z (X : Ext) (z : ℚ) (force : Bool) (m : Mixer) : Mixer :=
  let u := X.update_randommix_for_z z force m
  { m with
    percentmix := u.percentmix
    collector := u.collector
    mix_prev_z := u.mix_prev_z
    color := u.color }

/-- Modelled from the spec: `update_randommix_for_planner_z` is defined in
`mixing.cpp`, which is absent. It is `update_randommix_for_z` at the planner's
height, and writes the same members. -/
def update_randommix_for_planner_z (X : Ext) (force : Bool) (m : Mixer) : Mixer :=
  let u := X.update_randommix_for_planner_z force m
  { m with
    percentmix := u.percentmix
    collector := u.collector
    mix_prev_z := u.mix_prev_z
    color := u.color }

/-- The position of the leading bit of `n`, for `n ≤ f`: the largest `k` with
`2 ^ k ≤ n`. -/
def ilog2 : Nat → Nat → Nat
  | 0, _ => 0
  | f + 1, n => if n < 2 then 0 else ilog2 f (n / 2) + 1

/-- A finite value of the C type `float` inside a computation, held as the
fraction `num / den`; the values that arise are results of `binary32.round`. -/
structure binary32 where
  num : Int
  den : Nat

/-- The exponent of the last significand bit of the fraction `a / d`: with
`E` the largest integer such that `2 ^ E ≤ a / d`, this is `E - 23`. -/
def binary32.exponent (a d : Nat) : Int :=
  let l : Int := (ilog2 a a : Int) - (ilog2 d d : Int)
  let big : Bool :=
    if 0 ≤ l then decide (d * 2 ^ l.toNat ≤ a) else decide (d ≤ a * 2 ^ (-l).toNat)
  (if big then l else l - 1) - 23

/-- The integer nearest to `p / q`, ties to the even one. -/
def binary32.nearest (p q : Nat) : Nat :=
  if q < 2 * (p % q) ∨ (2 * (p % q) = q ∧ p / q % 2 = 1) then p / q + 1 else p / q

/-- The fraction `n / d` rounded to the nearest value with a 24-bit
significand, ties to even (`d = 0`, a division by zero, is outside the model
and gives zero). With `e` the exponent of the last significand bit, the
result is `k * 2 ^ e` for the integer `k` nearest to `n / (d * 2 ^ e)`. -/
def binary32.round (n : Int) (d : Nat) : binary32 :=
  if n = 0 ∨ d = 0 then ⟨0, 1⟩
  else if binary32.exponent n.natAbs d ≤ 0 then
    ⟨(if 0 ≤ n then 1 else -1)
        * (binary32.nearest (n.natAbs * 2 ^ (-binary32.exponent n.natAbs d).toNat) d : Nat),
      2 ^ (-binary32.exponent n.natAbs d).toNat⟩
  else
    ⟨(if 0 ≤ n then 1 else -1)
        * (binary32.nearest n.natAbs (d * 2 ^ (binary32.exponent n.natAbs d).toNat) : Nat)
        * 2 ^ (binary32.exponent n.natAbs d).toNat,
      1⟩

/-- Conversion of an integer to `float`. -/
def binary32.of_int (n : Int) : binary32 := binary32.round n 1

/-- The `float` product. -/
def binary32.mul (a b : binary32) : binary32 :=
  binary32.round (a.num * b.num) (a.den * b.den)

/-- The `float` quotient. -/
def binary32.div (a b : binary32) : binary32 :=
  binary32.round (if 0 ≤ b.num then a.num * b.den else -(a.num * b.den))
    (a.den * b.num.natAbs)

/-- The `float` sum. -/
def binary32.add (a b : binary32) : binary32 :=
  binary32.round (a.num * b.den + b.num * a.den) (a.den * b.den)

/-- Conversion of a `float` to an integer type: the fraction is discarded. -/
def binary32.trunc (a : binary32) : Int :=
  if 0 ≤ a.num then ((a.num.toNat / a.den : Nat) : Int)
  else -((a.num.natAbs / a.den : Nat) : Int)

/-- Conversion of a `float` to `mixer_comp_t` (the conversion of a negative
value is undefined in C; it gives zero here). -/
def to_mixer_comp_t (B : Build) (x : binary32) : Nat :=
  (binary32.trunc x).toNat % 2 ^ B.fast16_bits

/-- The `float` `ctot` of `update_mix_from_vtool`: the components of a palette
row added up one after the other. -/
def color_total (B : Build) (row : Nat → Nat) : binary32 :=
  (List.range B.MIXING_STEPPERS).foldl
    (fun acc i => binary32.add acc (binary32.of_int (row i))) (binary32.of_int 0)

/-- The percentages `update_mix_from_vtool` stores for a palette row, before
it normalises them: `(mixer_perc_t)(100.0f * color[j][i] / ctot)`. -/
def vtool_percent (B : Build) (row : Nat → Nat) (i : Nat) : Int :=
  int8_t (binary32.trunc
    (binary32.div (binary32.mul (binary32.of_int 100) (binary32.of_int (row i)))
      (color_total B row)))

/-- `Mixer::update_mix_from_vtool (j)`: the percentages of palette row `j`. -/
def update_mix_from_vtool (B : Build) (X : Ext) (j : Nat) (m : Mixer) : Mixer :=
  let m1 : Mixer :=
    { m with percentmix := copy_steppers B (vtool_percent B (m.color (j : Int))) m.percentmix }
  let m2 : Mixer := { m1 with percentmix := normalize_mixer_percent X m1.percentmix }
  copy_percentmix_to_collector X m2

/-- The macro call `_MAX (LIST_N (MIXING_STEPPERS, percentmix[0], ...))`: the
largest of the first `MIXING_STEPPERS` percentages. -/
def percent_max (B : Build) (mix : Nat → Int) : Int :=
  (List.range B.MIXING_STEPPERS).foldl (fun a i => max a (mix i)) (mix 0)

/-- Modelled from the spec: the macro `RECIPROCAL` of `macros.h`, which is
absent: the reciprocal `1 / x` as a `float` (spec 4.1 scales by
`FULL_SCALE / max`), and zero for zero. -/
def RECIPROCAL (x : Int) : binary32 :=
  if x = 0 then binary32.of_int 0
  else binary32.div (binary32.of_int 1) (binary32.of_int x)

/-- The `float` `scale` of `copy_percentmix_to_color` when the largest
percentage is `x`: `(COLOR_A_MASK) * RECIPROCAL (x)`. -/
def scale_of (x : Int) : binary32 :=
  binary32.mul (binary32.of_int COLOR_A_MASK) (RECIPROCAL x)

/-- The `float` `scale` of `copy_percentmix_to_color`. -/
def color_scale (B : Build) (mix : Nat → Int) : binary32 :=
  scale_of (percent_max B mix)

/-- `Mixer::copy_percentmix_to_color (tcolor)`: the mixer, with the
percentages normalised in place, and the array left in `tcolor`. -/
def copy_percentmix_to_color (B : Build) (X : Ext) (m : Mixer) (tcolor : Nat → Nat) :
    Mixer × (Nat → Nat) :=
  let m1 : Mixer := { m with percentmix := normalize_mixer_percent X m.percentmix }
  let scale : binary32 := color_scale B m1.percentmix
  (m1, copy_steppers B
    (fun i => to_mixer_comp_t B (binary32.mul (binary32.of_int (m1.percentmix i)) scale))
    tcolor)

/-- The value `refresh_gradient` stores in `gradient.enabled`: `is_grd`, the
two tools differ and the height range is not empty. -/
def refresh_gradient_enabled (B : Build) (m : Mixer) : Bool :=
  let is_grd : Bool :=
    if B.GRADIENT_VTOOL then
      (m.gradient.vtool_index == -1
        || m.selected_vtool == (uint8_t m.gradient.vtool_index : Int))
    else true
  is_grd && (m.gradient.start_vtool != m.gradient.end_vtool)
    && decide (m.gradient.start_z < m.gradient.end_z)

/-- `Mixer::refresh_gradient`. -/
def refresh_gradient (B : Build) (X : Ext) (m : Mixer) : Mixer :=
  let en : Bool := refresh_gradient_enabled B m
  let m0 : Mixer := { m with gradient := { m.gradient with enabled := en } }
  if m0.gradient.enabled then
    let m1 : Mixer :=
      { m0 with random_mix := { m0.random_mix with start_z := 0, end_z := 0, enabled := false } }
    let m2 := update_mix_from_vtool B X (uint8_t m1.gradient.start_vtool) m1
    let m3 : Mixer :=
      { m2 with gradient :=
          { m2.gradient with start_mix := copy_steppers B m2.percentmix m2.gradient.start_mix } }
    let m4 := update_mix_from_vtool B X (uint8_t m3.gradient.end_vtool) m3
    let m5 : Mixer :=
      { m4 with gradient :=
          { m4.gradient with end_mix := copy_steppers B m4.percentmix m4.gradient.end_mix } }
    let m6 := update_gradient_for_planner_z X true m5
    { m6 with mix_prev_z := -9999 / 10 }
  else m0

/-- `Mixer::T (c)`; `c` is the value of the `uint_fast8_t` argument. -/
def T (B : Build) (X : Ext) (c : Nat) (m : Mixer) : Mixer :=
  let m1 : Mixer := { m with selected_vtool := int8_t c }
  let m2 := if B.GRADIENT_VTOOL then refresh_gradient B X m1 else m1
  update_mix_from_vtool B X (uint8_t m2.selected_vtool) m2

/-- `Mixer::populate_block (b_color)`: the array left in `b_color`. -/
def populate_block (B : Build) (m : Mixer) (b_color : Nat → Nat) : Nat → Nat :=
  if m.gradient.enabled then copy_steppers B m.gradient.color b_color
  else copy_steppers B (m.color m.selected_vtool) b_color

/-- `Mixer::stepper_setup (b_color)`. -/
def stepper_setup (B : Build) (b_color : Nat → Nat) (m : Mixer) : Mixer :=
  { m with s_color := copy_steppers B b_color m.s_color }

/-- `Mixer::gradient_control (z)`; `did_pause_print` is the global of
`pause.h`. The `int8_t` `gradient.end_vtool` reaches `T` converted to
`uint_fast8_t`, taken here at eight bits (a wider type gives the same
`int8_t` once `T` has stored it). -/
def gradient_control (B : Build) (X : Ext) (did_pause_print : Nat) (z : ℚ) (m : Mixer) :
    Mixer :=
  if m.gradient.enabled && did_pause_print == 0 then
    if z ≥ m.gradient.end_z then
      let m1 := T B X (uint8_t m.gradient.end_vtool) m
      if B.GRADIENT_VTOOL then m1
      else
        { m1 with gradient :=
            { m1.gradient with
              start_vtool := 0, end_vtool := 0, end_z := 0, start_z := 0, enabled := false } }
    else update_gradient_for_z X z false m
  else m

/-- `Mixer::randommix_control (z)`. -/
def randommix_control (B : Build) (X : Ext) (did_pause_print : Nat) (z : ℚ) (m : Mixer) :
    Mixer :=
  if m.random_mix.enabled && did_pause_print == 0 then
    if z ≤ m.random_mix.end_z then update_randommix_for_z X z false m
    else
      { m with random_mix :=
          { m.random_mix with
            enabled := false, end_z := 0, start_z := 0, height := 2 / 10,
            extruders := B.MIXING_STEPPERS } }
  else m

/-- `Mixer::refresh_random_mix`. -/
def refresh_random_mix (X : Ext) (m : Mixer) : Mixer :=
  let m0 : Mixer :=
    { m with random_mix :=
        { m.random_mix with enabled := decide (m.random_mix.start_z < m.random_mix.end_z) } }
  if m0.random_mix.enabled then
    let m1 : Mixer := { m0 with selected_vtool := 0 }
    let m2 : Mixer :=
      { m1 with gradient :=
          { m1.gradient with
            start_vtool := 0, end_vtool := 1, start_z := 0, end_z := 0, enabled := false } }
    let m3 := update_randommix_for_planner_z X true m2
    { m3 with mix_prev_z := -9999 / 10 }
  else m0

/-- `Mixer::get_stepper`. -/
def get_stepper (m : Mixer) : Nat := uint8_t m.runner

/-- One pass through the body of the `for (;;)` of `get_next_stepper`: the
state it leaves, and whether it took the `return`. -/
def scan_step (B : Build) (m : Mixer) : Mixer × Bool :=
  let r1 : Int := m.runner - 1
  let r : Int := if r1 < 0 then (B.MIXING_STEPPERS : Int) - 1 else r1
  let a : Nat := (m.accu r.toNat + m.s_color r.toNat) % 2 ^ B.fast16_bits
  if a &&& COLOR_A_MASK ≠ 0 then
    ({ m with runner := r, accu := Function.update m.accu r.toNat (a &&& COLOR_MASK) }, true)
  else
    ({ m with runner := r, accu := Function.update m.accu r.toNat a }, false)

/-- `Mixer::get_next_stepper`, the loop cut off after `fuel` passes: the
index returned and the state left, or `none` when the loop has not returned
within `fuel` passes. -/
def get_next_stepper (B : Build) : Nat → Mixer → Option (Nat × Mixer)
  | 0, _ => none
  | fuel + 1, m =>
    if (scan_step B m).2 then some (uint8_t (scan_step B m).1.runner, (scan_step B m).1)
    else get_next_stepper B fuel (scan_step B m).1

/-- The indices returned by `n` consecutive calls of `get_next_stepper`, each
allowed `fuel` passes of its loop, and the state after the last call. -/
def pulses (B : Build) (fuel : Nat) : Nat → Mixer → Option (List Nat × Mixer)
  | 0, m => some ([], m)
  | n + 1, m =>
    match get_next_stepper B fuel m with
    | none => none
    | some (i, m1) =>
      match pulses B fuel n m1 with
      | none => none
      | some (is, m2) => some (i :: is, m2)

/-- The configurations the embedding is faithful for: the cursor `runner`, an
`int_fast8_t`, can hold every stepper index, and `uint_fast16_t` has its
sixteen bits. -/
def build_ok (B : Build) : Prop :=
  B.MIXING_STEPPERS ≤ 128 ∧ 16 ≤ B.fast16_bits

/-- A valid distributor state: the cursor is a stepper index and every
accumulator is below a full component. -/
def distributor_ok (B : Build) (m : Mixer) : Prop :=
  0 ≤ m.runner ∧ m.runner < B.MIXING_STEPPERS ∧
    ∀ i, i < B.MIXING_STEPPERS → m.accu i < COLOR_A_MASK

/-- The weights in `s_color` are at most a full component. -/
def weights_ok (B : Build) (m : Mixer) : Prop :=
  ∀ i, i < B.MIXING_STEPPERS → m.s_color i ≤ COLOR_A_MASK

/-- The stepper the loop of `get_next_stepper` visits after cursor `r`. -/
def prev_stepper (N r : Nat) : Nat := if r = 0 then N - 1 else r - 1

/-- The cursor after `k` passes of the loop from cursor `r`. -/
def cursor_after (N : Nat) : Nat → Nat → Nat
  | 0, r => r
  | k + 1, r => cursor_after N k (prev_stepper N r)

/-- How often stepper `i` is visited in `k` passes of the loop from cursor `r`. -/
def visits (N i : Nat) : Nat → Nat → Nat
  | 0, _ => 0
  | k + 1, r => (if prev_stepper N r = i then 1 else 0) + visits N i k (prev_stepper N r)

/-- The loop body of `get_next_stepper` run `k` times on end, whatever the
calls it is split over: the indices returned on the way, and the state left. -/
def passes (B : Build) : Nat → Mixer → List Nat × Mixer
  | 0, m => ([], m)
  | k + 1, m =>
    (if (scan_step B m).2 then
        uint8_t (scan_step B m).1.runner :: (passes B k (scan_step B m).1).1
      else (passes B k (scan_step B m).1).1,
     (passes B k (scan_step B m).1).2)

/-- The sum of the weights in `s_color`. -/
def weight_sum (B : Build) (m : Mixer) : Nat :=
  ((List.range B.MIXING_STEPPERS).map m.s_color).sum

/-- A build with three steppers, one user tool and a 16-bit `uint_fast16_t`. -/
def build3 : Build := ⟨3, 1, false, false, 16⟩

/-- A mixer at rest: everything zero, both modes off. -/
def mixer_idle : Mixer :=
  ⟨true, fun _ => 0, fun _ => 0, 0, fun _ _ => 0, 0,
    ⟨false, fun _ => 0, 0, 0, 0, 0, fun _ => 0, fun _ => 0, -1⟩, ⟨false, 0, 0, 2 / 10, 3⟩,
    0, fun _ => 0, fun _ => 0⟩

/-- The initial distributor state with every weight a full component. -/
def mixer_full3 : Mixer := { mixer_idle with s_color := fun _ => 0x8000 }

/-- The initial distributor state with the weights `[0x8000, 0x4000, 0]`. -/
def mixer_half3 : Mixer := { mixer_idle with s_color := fun i => [0x8000, 0x4000, 0].getD i 0 }

/-- A distributor state in mid-run with the weights `[0x8000, 0x4000, 0]`. -/
def mixer_busy3 : Mixer :=
  { mixer_idle with
    s_color := fun i => [0x8000, 0x4000, 0].getD i 0
    runner := 1
    accu := fun i => [7, 0x7FFF, 0x1234].getD i 0 }

/-- A build with two steppers and a 16-bit `uint_fast16_t`. -/
def build2 : Build := ⟨2, 1, false, false, 16⟩

/-- Two steppers with the weights `[0x8000, 0x6000]`, the cursor on stepper 1
and the accumulators empty. -/
def mixer_uneven2 : Mixer :=
  { mixer_idle with
    s_color := fun i => [0x8000, 0x6000].getD i 0
    runner := 1 }

/-- Modelled from the spec: the colour the random controller currently
produces. The struct `randommix_t` has no colour of its own and
`update_randommix_for_z` is absent; by spec 2 the controllers update the
palette's active colour, which is the row of the selected tool. -/
def random_mix_color (m : Mixer) : Nat → Nat := m.color m.selected_vtool

/-- The producer-side operations on the mixer: the member functions named,
and the plain stores into `color[j][i]` and `gradient.color[i]`. -/
inductive producer_op where
  | T (c : Nat)
  | refresh_gradient
  | refresh_random_mix
  | gradient_control (did_pause_print : Nat) (z : ℚ)
  | randommix_control (did_pause_print : Nat) (z : ℚ)
  | set_color (j : Int) (i : Nat) (v : Nat)
  | set_gradient_color (i : Nat) (v : Nat)

/-- The effect of one producer-side operation on the mixer. -/
def producer_op.run (B : Build) (X : Ext) : producer_op → Mixer → Mixer
  | .T c, m => Mixing.T B X c m
  | .refresh_gradient, m => Mixing.refresh_gradient B X m
  | .refresh_random_mix, m => Mixing.refresh_random_mix X m
  | .gradient_control p z, m => Mixing.gradient_control B X p z m
  | .randommix_control p z, m => Mixing.randommix_control B X p z m
  | .set_color j i v, m =>
    { m with color := Function.update m.color j (Function.update (m.color j) i v) }
  | .set_gradient_color i v, m =>
    { m with gradient := { m.gradient with color := Function.update m.gradient.color i v } }

/-- A sequence of producer-side operations, each with the values the absent
functions compute at that moment. -/
def run_ops (B : Build) : List (Ext × producer_op) → Mixer → Mixer
  | [], m => m
  | (X, op) :: rest, m => run_ops B rest (op.run B X m)

/-- The member `b_color` of a planner block (`block_t`), the array the
planner hands to `populate_block`. -/
structure block_t where
  b_color : Nat → Nat

/-- The planner finalising a block: `mixer.populate_block (block->b_color)`,
on the mixer and the block together. -/
def capture (B : Build) (w : Mixer × block_t) : Mixer × block_t :=
  (w.1, ⟨populate_block B w.1 w.2.b_color⟩)

/-- Producer-side operations on the mixer while a block is queued: none of
them is handed the block. -/
def produce (B : Build) (ops : List (Ext × producer_op)) (w : Mixer × block_t) :
    Mixer × block_t :=
  (run_ops B ops w.1, w.2)

/-- At most one of the two height-driven modes is enabled. -/
def modes_exclusive (m : Mixer) : Prop :=
  ¬ (m.gradient.enabled = true ∧ m.random_mix.enabled = true)

/-- The invariant of `gradient_t`: enabled only between two different tools
and over a non-empty height range. -/
def gradient_inv (m : Mixer) : Prop :=
  m.gradient.enabled = true →
    m.gradient.start_vtool ≠ m.gradient.end_vtool ∧ m.gradient.start_z < m.gradient.end_z

/-- Absent functions that compute nothing new: every value stays. -/
def ext_keep : Ext :=
  ⟨fun mix => mix, fun m => m.collector, fun _ _ m => m, fun _ m => m, fun _ _ m => m,
    fun _ m => m⟩

/-- A mixer whose gradient is active from tool 0 to tool 1 over the heights 0
to 10, tool `i` of the palette weighted entirely toward stepper `i`. -/
def mixer_gradient : Mixer :=
  { mixer_idle with
    color := fun j i => if j = (i : Int) then 0x8000 else 0
    gradient := ⟨true, fun _ => 0x8000, 0, 10, 0, 1, fun _ => 0, fun _ => 0, -1⟩ }

/-- Modelled from the spec: the values `normalize_mixer_percent` computes; the
function is defined in `mixing.cpp`, which is absent. Spec 4.1: negative
components are clamped to zero, an all-zero vector falls back to equal
weights, and the vector is rescaled so that its sum is exactly 100, the
rounding remainder added to the first component. -/
def normalize_percent (B : Build) (mix : Nat → Int) : Nat → Int :=
  let clamped : Nat → Nat := fun i => (mix i).toNat
  let total : Nat := ((List.range B.MIXING_STEPPERS).map clamped).sum
  let base : Nat → Nat := if total = 0 then fun _ => 100 / B.MIXING_STEPPERS else clamped
  let btotal : Nat := ((List.range B.MIXING_STEPPERS).map base).sum
  let scaled : Nat → Nat := fun i => base i * 100 / btotal
  let rest : Nat := 100 - ((List.range B.MIXING_STEPPERS).map scaled).sum
  fun i =>
    if i < B.MIXING_STEPPERS then ((if i = 0 then scaled 0 + rest else scaled i : Nat) : Int)
    else mix i

/-- The absent functions with the normalisation of the spec and nothing else
computed anew. -/
def ext_spec (B : Build) : Ext :=
  ⟨normalize_percent B, fun m => m.collector, fun _ _ m => m, fun _ m => m, fun _ _ m => m,
    fun _ m => m⟩

/-- A conversion there and back: `copy_percentmix_to_color (color[j])`
followed by `update_mix_from_vtool (j)`. -/
def percent_round_trip (B : Build) (X : Ext) (j : Nat) (m : Mixer) : Mixer :=
  update_mix_from_vtool B X j
    { (copy_percentmix_to_color B X m (m.color (j : Int))).1 with
      color := Function.update m.color (j : Int)
        (copy_percentmix_to_color B X m (m.color (j : Int))).2 }

/-- The `COLOR_A_MASK` of the AVR branch. -/
def COLOR_A_MASK_AVR : Nat := 0x80

/-- The `COLOR_MASK` of the AVR branch. -/
def COLOR_MASK_AVR : Nat := 0x7F

/-- The accumulator step of `get_next_stepper` in the AVR branch
(`MIXER_ACCU_SIGNED`): the `int8_t` accumulator takes the `uint8_t` weight,
the test is `accu < 0`, and `accu &= COLOR_MASK` keeps the low seven bits of
the two's complement value. The result is the accumulator left and whether
the loop returns. -/
def accu_step_avr (a : Int) (w : Nat) : Int × Bool :=
  if int8_t (a + w) < 0 then (((uint8_t (int8_t (a + w)) &&& COLOR_MASK_AVR : Nat) : Int), true)
  else (int8_t (a + w), false)

/-- The accumulator step of `get_next_stepper` in the non-AVR branch, with the
two masks as parameters: the test is `accu & COLOR_A_MASK`. -/
def accu_step_wide (bits a_mask mask : Nat) (a w : Nat) : Nat × Bool :=
  if ((a + w) % 2 ^ bits) &&& a_mask ≠ 0 then (((a + w) % 2 ^ bits) &&& mask, true)
  else ((a + w) % 2 ^ bits, false)

/-- The accumulator step in the words of the spec (4.3): arithmetic modulo
`FULL_SCALE`, the step fires when the sum reaches `FULL_SCALE`. -/
def accu_step_modulo (full_scale a w : Nat) : Nat × Bool :=
  ((a + w) % full_scale, decide (full_scale ≤ a + w))

/-- A build with two hundred user tools, which the `static_assert` admits. -/
def build200 : Build := ⟨3, 200, false, false, 16⟩

/-- A build with four steppers. -/
def build4 : Build := ⟨4, 1, false, false, 16⟩

/-- A build with six steppers. -/
def build6 : Build := ⟨6, 1, false, false, 16⟩

/-- A mixer at rest with the percentages `[55, 45]`. -/
def mixer_55_45 : Mixer := { mixer_idle with percentmix := fun i => [55, 45].getD i 0 }

/-- A mixer at rest with the percentages `[50, 50, 0, 0]`. -/
def mixer_50_50 : Mixer := { mixer_idle with percentmix := fun i => [50, 50, 0, 0].getD i 0 }

/-- A mixer at rest with the percentages `[95, 1, 1, 1, 1, 1]`. -/
def mixer_95 : Mixer :=
  { mixer_idle with percentmix := fun i => [95, 1, 1, 1, 1, 1].getD i 0 }

/-- A mixer whose random mix is enabled over the heights 0 to 5. -/
def mixer_random : Mixer :=
  { mixer_idle with random_mix := ⟨true, 0, 5, 2 / 10, 3⟩ }

/-- A palette of the two-hundred-tool build in which only row 200 is not
empty. -/
def mixer_palette200 : Mixer :=
  { mixer_idle with color := fun j _ => if j = 200 then 0x8000 else 0 }

/-- A distributor in mid-run whose producer-side members differ from those
of `mixer_busy3`. -/
def mixer_busy3_other : Mixer :=
  { mixer_busy3 with
    selected_vtool := 1
    percentmix := fun _ => 50
    color := fun _ _ => 0x8000
    gradient := ⟨true, fun _ => 0x8000, 0, 10, 0, 1, fun _ => 0, fun _ => 0, -1⟩ }

/-- A build with three steppers and `GRADIENT_VTOOL`. -/
def build3_pinned : Build := ⟨3, 1, false, true, 16⟩

/-- The active gradient from tool 0 to tool 1 over the heights 0 to 10, pinned
to tool 1, which is selected. -/
def mixer_pinned : Mixer :=
  { mixer_gradient with
    selected_vtool := 1
    gradient := { mixer_gradient.gradient with vtool_index := 1 } }

/-- The component as the specification words it: the integer nearest to
`100 * row i / total`, computed exactly. -/
def vtool_percent_rounded (B : Build) (row : Nat → Nat) (i : Nat) : Int :=
  (((2 * (100 * row i) + ((List.range B.MIXING_STEPPERS).map row).sum)
      / (2 * ((List.range B.MIXING_STEPPERS).map row).sum) : Nat) : Int)

/-- A mixer at rest whose palette rows are all `[0x8000, 0x4000, 0]`. -/
def mixer_two_to_one : Mixer :=
  { mixer_idle with color := fun _ i => [0x8000, 0x4000, 0].getD i 0 }

/-- A build with two hundred user tools and `GRADIENT_VTOOL`, which the
`static_assert` admits. -/
def build200_pinned : Build := ⟨3, 200, false, true, 16⟩

/-- The gradient from tool 0 to tool 1 over the heights 0 to 10, pinned to
tool 200: the `int8_t` member `vtool_index` holds 200 as -56. -/
def mixer_pinned200 : Mixer :=
  { mixer_gradient with
    gradient := { mixer_gradient.gradient with vtool_index := int8_t 200 } }

/-! ## The pulse distributor -/

theorem mask_test (a : Nat) (h : a < 0x10000) : (a &&& COLOR_A_MASK ≠ 0) ↔ COLOR_A_MASK ≤ a := by
  have e : COLOR_A_MASK = 2 ^ 15 := by norm_num [COLOR_A_MASK]
  rw [e, Nat.and_two_pow, Nat.testBit_to_div_mod]
  by_cases hc : a / 2 ^ 15 % 2 = 1
  · simp [hc]; omega
  · simp [hc]; omega

theorem mask_rem (a : Nat) : a &&& COLOR_MASK = a % 0x8000 := by
  have := Nat.and_pow_two_sub_one_eq_mod a 15
  simpa [COLOR_MASK] using this

theorem two_pow_bits {b : Nat} (h : 16 ≤ b) : 0x10000 ≤ 2 ^ b := by
  calc (0x10000 : Nat) = 2 ^ 16 := by norm_num
    _ ≤ 2 ^ b := Nat.pow_le_pow_right (by norm_num) h

/-- The loop body on a valid state, in plain arithmetic. -/
theorem scan_step_ok {B : Build} {m : Mixer} (hB : build_ok B) (hm : distributor_ok B m)
    (hw : weights_ok B m) :
    scan_step B m =
      if COLOR_A_MASK ≤ m.accu (prev_stepper B.MIXING_STEPPERS m.runner.toNat)
            + m.s_color (prev_stepper B.MIXING_STEPPERS m.runner.toNat) then
        ({ m with
            runner := (prev_stepper B.MIXING_STEPPERS m.runner.toNat : Nat)
            accu := Function.update m.accu (prev_stepper B.MIXING_STEPPERS m.runner.toNat)
              (m.accu (prev_stepper B.MIXING_STEPPERS m.runner.toNat)
                + m.s_color (prev_stepper B.MIXING_STEPPERS m.runner.toNat) - COLOR_A_MASK) },
          true)
      else
        ({ m with
            runner := (prev_stepper B.MIXING_STEPPERS m.runner.toNat : Nat)
            accu := Function.update m.accu (prev_stepper B.MIXING_STEPPERS m.runner.toNat)
              (m.accu (prev_stepper B.MIXING_STEPPERS m.runner.toNat)
                + m.s_color (prev_stepper B.MIXING_STEPPERS m.runner.toNat)) },
          false) := by
  obtain ⟨h0, hN, hacc⟩ := hm
  have hr : (if m.runner - 1 < 0 then (B.MIXING_STEPPERS : Int) - 1 else m.runner - 1)
      = (prev_stepper B.MIXING_STEPPERS m.runner.toNat : Nat) := by
    unfold prev_stepper
    split_ifs <;> omega
  have hp : prev_stepper B.MIXING_STEPPERS m.runner.toNat < B.MIXING_STEPPERS := by
    unfold prev_stepper
    split_ifs <;> omega
  have ha := hacc _ hp
  have hs := hw _ hp
  have hpow := two_pow_bits hB.2
  unfold COLOR_A_MASK at ha hs
  have hlt : m.accu (prev_stepper B.MIXING_STEPPERS m.runner.toNat)
      + m.s_color (prev_stepper B.MIXING_STEPPERS m.runner.toNat) < 2 ^ B.fast16_bits := by omega
  unfold scan_step
  simp only [hr, Int.toNat_ofNat, Nat.mod_eq_of_lt hlt]
  have ht := mask_test (m.accu (prev_stepper B.MIXING_STEPPERS m.runner.toNat)
      + m.s_color (prev_stepper B.MIXING_STEPPERS m.runner.toNat)) (by omega)
  by_cases hc : COLOR_A_MASK ≤ m.accu (prev_stepper B.MIXING_STEPPERS m.runner.toNat)
      + m.s_color (prev_stepper B.MIXING_STEPPERS m.runner.toNat)
  · have hv : (m.accu (prev_stepper B.MIXING_STEPPERS m.runner.toNat)
        + m.s_color (prev_stepper B.MIXING_STEPPERS m.runner.toNat)) % 0x8000
        = m.accu (prev_stepper B.MIXING_STEPPERS m.runner.toNat)
          + m.s_color (prev_stepper B.MIXING_STEPPERS m.runner.toNat) - COLOR_A_MASK := by
      unfold COLOR_A_MASK at hc ⊢
      omega
    rw [if_pos (ht.mpr hc), if_pos hc, mask_rem, hv]
  · rw [if_neg (fun h => hc (ht.mp h)), if_neg hc]

theorem prev_stepper_lt {N r : Nat} (h : r < N) : prev_stepper N r < N := by
  unfold prev_stepper
  split_ifs <;> omega

theorem uint8_t_index {N p : Nat} (hN : N ≤ 128) (hp : p < N) : uint8_t (p : Int) = p := by
  unfold uint8_t
  omega

/-- What one pass of the loop does to a valid state: the cursor moves to the
previous stepper `p`, whose accumulator takes the weight and gives up a full
component exactly when the pass returns. -/
theorem scan_step_facts {B : Build} {m : Mixer} (hB : build_ok B) (hm : distributor_ok B m)
    (hw : weights_ok B m) :
    (scan_step B m).1.runner = (prev_stepper B.MIXING_STEPPERS m.runner.toNat : Nat) ∧
    (scan_step B m).1.s_color = m.s_color ∧
    ((scan_step B m).2 = true ↔
      COLOR_A_MASK ≤ m.accu (prev_stepper B.MIXING_STEPPERS m.runner.toNat)
        + m.s_color (prev_stepper B.MIXING_STEPPERS m.runner.toNat)) ∧
    (∀ i, i ≠ prev_stepper B.MIXING_STEPPERS m.runner.toNat →
      (scan_step B m).1.accu i = m.accu i) ∧
    ((scan_step B m).1.accu (prev_stepper B.MIXING_STEPPERS m.runner.toNat)
        + (if (scan_step B m).2 then COLOR_A_MASK else 0)
      = m.accu (prev_stepper B.MIXING_STEPPERS m.runner.toNat)
        + m.s_color (prev_stepper B.MIXING_STEPPERS m.runner.toNat)) ∧
    distributor_ok B (scan_step B m).1 := by
  have hp : prev_stepper B.MIXING_STEPPERS m.runner.toNat < B.MIXING_STEPPERS :=
    prev_stepper_lt (by have := hm.1; have := hm.2.1; omega)
  have ha := hm.2.2 _ hp
  have hs := hw _ hp
  have e := scan_step_ok hB hm hw
  by_cases hc : COLOR_A_MASK ≤ m.accu (prev_stepper B.MIXING_STEPPERS m.runner.toNat)
      + m.s_color (prev_stepper B.MIXING_STEPPERS m.runner.toNat)
  · rw [if_pos hc] at e
    rw [e]
    refine ⟨rfl, rfl, by simp [hc], ?_, ?_, ?_, ?_, ?_⟩
    · intro i hi
      simp [Function.update, hi]
    · simp
      omega
    · simp
    · simp; omega
    · intro i hi
      by_cases hip : i = prev_stepper B.MIXING_STEPPERS m.runner.toNat
      · subst hip
        simp
        omega
      · simp [Function.update, hip]
        exact hm.2.2 i hi
  · rw [if_neg hc] at e
    rw [e]
    refine ⟨rfl, rfl, by simp [hc], ?_, ?_, ?_, ?_, ?_⟩
    · intro i hi
      simp [Function.update, hi]
    · simp
    · simp
    · simp; omega
    · intro i hi
      by_cases hip : i = prev_stepper B.MIXING_STEPPERS m.runner.toNat
      · subst hip
        simp
        omega
      · simp [Function.update, hip]
        exact hm.2.2 i hi

theorem passes_succ (B : Build) (k : Nat) (m : Mixer) :
    passes B (k + 1) m =
      (if (scan_step B m).2 then
          uint8_t (scan_step B m).1.runner :: (passes B k (scan_step B m).1).1
        else (passes B k (scan_step B m).1).1,
       (passes B k (scan_step B m).1).2) := rfl

/-- Conservation over any number of passes: what an accumulator holds, plus a
full component per return of its stepper, is what it held plus its weight per
visit. -/
theorem passes_conserve {B : Build} (hB : build_ok B) :
    ∀ (k : Nat) (m : Mixer), distributor_ok B m → weights_ok B m →
      distributor_ok B (passes B k m).2 ∧ (passes B k m).2.s_color = m.s_color ∧
      (passes B k m).2.runner = (cursor_after B.MIXING_STEPPERS k m.runner.toNat : Nat) ∧
      (∀ x ∈ (passes B k m).1, x < B.MIXING_STEPPERS) ∧
      ∀ i, i < B.MIXING_STEPPERS →
        (passes B k m).2.accu i + COLOR_A_MASK * (passes B k m).1.count i
          = m.accu i + m.s_color i * visits B.MIXING_STEPPERS i k m.runner.toNat := by
  intro k
  induction k with
  | zero =>
    intro m hm _
    refine ⟨hm, rfl, ?_, ?_, ?_⟩
    · simp [passes, cursor_after]
      have := hm.1
      omega
    · simp [passes]
    · intro i _
      simp [passes, visits]
  | succ k ih =>
    intro m hm hw
    obtain ⟨hr, hs, hf, hoth, hacc, hok⟩ := scan_step_facts hB hm hw
    have hw1 : weights_ok B (scan_step B m).1 := by
      intro i hi
      rw [hs]
      exact hw i hi
    obtain ⟨i1, i2, i3, i4, i5⟩ := ih (scan_step B m).1 hok hw1
    have hp : prev_stepper B.MIXING_STEPPERS m.runner.toNat < B.MIXING_STEPPERS :=
      prev_stepper_lt (by have := hm.1; have := hm.2.1; omega)
    have hu : uint8_t (scan_step B m).1.runner = prev_stepper B.MIXING_STEPPERS m.runner.toNat := by
      rw [hr]
      exact uint8_t_index hB.1 hp
    rw [passes_succ]
    rw [hr, Int.toNat_ofNat] at i3 i5
    refine ⟨i1, by rw [i2, hs], ?_, ?_, ?_⟩
    · simpa [cursor_after] using i3
    · intro x hx
      by_cases hc : (scan_step B m).2 = true
      · simp only [hc, if_true, List.mem_cons] at hx
        rcases hx with hx | hx
        · rw [hx, hu]
          exact hp
        · exact i4 x hx
      · simp only [hc] at hx
        exact i4 x hx
    · intro i hi
      have h5 := i5 i hi
      rw [hs] at h5
      simp only [visits]
      rw [hu]
      unfold COLOR_A_MASK at h5 hacc ⊢
      by_cases hip : prev_stepper B.MIXING_STEPPERS m.runner.toNat = i
      · subst hip
        rw [if_pos rfl, Nat.mul_add, Nat.mul_one]
        rcases Bool.eq_false_or_eq_true (scan_step B m).2 with hc | hc
        · rw [hc] at hacc ⊢
          rw [if_pos rfl] at hacc ⊢
          rw [List.count_cons_self]
          omega
        · rw [hc] at hacc ⊢
          rw [if_neg Bool.false_ne_true] at hacc ⊢
          omega
      · have ho := hoth i (fun h => hip h.symm)
        rw [if_neg hip, Nat.zero_add]
        rcases Bool.eq_false_or_eq_true (scan_step B m).2 with hc | hc
        · rw [hc, if_pos rfl, List.count_cons_of_ne (fun h => hip h.symm)]
          omega
        · rw [hc, if_neg Bool.false_ne_true]
          omega

theorem get_next_stepper_succ (B : Build) (fuel : Nat) (m : Mixer) :
    get_next_stepper B (fuel + 1) m =
      if (scan_step B m).2 then some (uint8_t (scan_step B m).1.runner, (scan_step B m).1)
      else get_next_stepper B fuel (scan_step B m).1 := rfl

theorem pulses_succ (B : Build) (fuel n : Nat) (m : Mixer) :
    pulses B fuel (n + 1) m =
      match get_next_stepper B fuel m with
      | none => none
      | some (i, m1) =>
        match pulses B fuel n m1 with
        | none => none
        | some (is, m2) => some (i :: is, m2) := rfl

/-- A call that returns within `fuel` passes returns the same with more. -/
theorem get_next_stepper_mono (B : Build) :
    ∀ (fuel : Nat) (m : Mixer) (r : Nat × Mixer),
      get_next_stepper B fuel m = some r → get_next_stepper B (fuel + 1) m = some r := by
  intro fuel
  induction fuel with
  | zero =>
    intro m r h
    simp [get_next_stepper] at h
  | succ f ih =>
    intro m r h
    rw [get_next_stepper_succ] at h ⊢
    by_cases hc : (scan_step B m).2 = true
    · rw [if_pos hc] at h ⊢
      exact h
    · rw [if_neg hc] at h ⊢
      exact ih _ _ h

theorem get_next_stepper_mono_le (B : Build) {f g : Nat} (hfg : f ≤ g) (m : Mixer)
    (r : Nat × Mixer) (h : get_next_stepper B f m = some r) :
    get_next_stepper B g m = some r := by
  induction hfg with
  | refl => exact h
  | step _ ih => exact get_next_stepper_mono B _ m r ih

theorem pulses_mono_le (B : Build) {f g : Nat} (hfg : f ≤ g) :
    ∀ (n : Nat) (m : Mixer) (r : List Nat × Mixer),
      pulses B f n m = some r → pulses B g n m = some r := by
  intro n
  induction n with
  | zero =>
    intro m r h
    simpa [pulses] using h
  | succ n ih =>
    intro m r h
    rw [pulses_succ] at h ⊢
    cases h1 : get_next_stepper B f m with
    | none => simp [h1] at h
    | some x =>
      obtain ⟨i, m1⟩ := x
      rw [get_next_stepper_mono_le B hfg m _ h1]
      simp only [h1] at h
      cases h2 : pulses B f n m1 with
      | none => simp [h2] at h
      | some y =>
        obtain ⟨is, m2⟩ := y
        simp only [ih m1 _ h2]
        simp only [h2] at h
        exact h

/-- The calls read off the passes: the indices `k` passes of the loop return
on the way are the indices of as many consecutive calls. -/
theorem pulses_of_passes (B : Build) :
    ∀ (k : Nat) (m : Mixer),
      ∃ m1, pulses B k (passes B k m).1.length m = some ((passes B k m).1, m1) := by
  intro k
  induction k with
  | zero =>
    intro m
    exact ⟨m, rfl⟩
  | succ k ih =>
    intro m
    obtain ⟨m1, h1⟩ := ih (scan_step B m).1
    have h1s := pulses_mono_le B (Nat.le_succ k) _ _ _ h1
    rw [passes_succ]
    by_cases hc : (scan_step B m).2 = true
    · rw [if_pos hc]
      simp only [List.length_cons]
      refine ⟨m1, ?_⟩
      rw [pulses_succ, get_next_stepper_succ, if_pos hc]
      simp only [h1s]
    · rw [if_neg hc]
      cases hl : (passes B k (scan_step B m).1).1 with
      | nil => exact ⟨m, rfl⟩
      | cons x l =>
        rw [hl] at h1 h1s
        simp only [List.length_cons] at h1 h1s ⊢
        rw [pulses_succ] at h1
        cases h2 : get_next_stepper B k (scan_step B m).1 with
        | none => simp [h2] at h1
        | some y =>
          obtain ⟨i, m2⟩ := y
          simp only [h2] at h1
          cases h3 : pulses B k l.length m2 with
          | none => simp [h3] at h1
          | some w =>
            obtain ⟨is, m3⟩ := w
            simp only [h3, Option.some.injEq, Prod.mk.injEq, List.cons.injEq] at h1
            obtain ⟨⟨hx, hl2⟩, hm3⟩ := h1
            subst hx hl2 hm3
            refine ⟨m3, ?_⟩
            rw [pulses_succ, get_next_stepper_succ, if_neg hc, h2]
            simp only [pulses_mono_le B (Nat.le_succ k) _ _ _ h3]

theorem cursor_after_add (N : Nat) :
    ∀ (a b r : Nat), cursor_after N (a + b) r = cursor_after N b (cursor_after N a r) := by
  intro a
  induction a with
  | zero =>
    intro b r
    simp [cursor_after]
  | succ a ih =>
    intro b r
    rw [Nat.add_right_comm]
    simp only [cursor_after]
    exact ih b _

theorem visits_add (N i : Nat) :
    ∀ (a b r : Nat), visits N i (a + b) r = visits N i a r + visits N i b (cursor_after N a r) := by
  intro a
  induction a with
  | zero =>
    intro b r
    simp [visits, cursor_after]
  | succ a ih =>
    intro b r
    rw [Nat.add_right_comm]
    simp only [visits, cursor_after]
    rw [ih b _]
    omega

/-- Walking down from cursor `r` for `j ≤ r` passes visits `r - 1, ..., r - j`. -/
theorem visits_down (N i : Nat) :
    ∀ (j r : Nat), j ≤ r →
      cursor_after N j r = r - j ∧ visits N i j r = if r - j ≤ i ∧ i < r then 1 else 0 := by
  intro j
  induction j with
  | zero =>
    intro r _
    refine ⟨rfl, ?_⟩
    simp only [visits]
    rw [if_neg]
    omega
  | succ j ih =>
    intro r hr
    have hp : prev_stepper N r = r - 1 := by
      unfold prev_stepper
      rw [if_neg (by omega)]
    obtain ⟨h1, h2⟩ := ih (r - 1) (by omega)
    simp only [visits, cursor_after]
    rw [hp, h1, h2]
    refine ⟨by omega, ?_⟩
    by_cases ha : r - 1 = i
    · rw [if_pos ha, if_neg (by omega), if_pos (by omega)]
    · rw [if_neg ha]
      by_cases hb : r - 1 - j ≤ i ∧ i < r - 1
      · rw [if_pos hb, if_pos (by omega)]
      · rw [if_neg hb, if_neg (by omega)]

/-- A full round of `N` passes visits every stepper once and returns the
cursor to where it was. -/
theorem visits_round {N i r : Nat} (hr : r < N) (hi : i < N) :
    cursor_after N N r = r ∧ visits N i N r = 1 := by
  have hN : N = r + (1 + (N - 1 - r)) := by omega
  obtain ⟨a1, a2⟩ := visits_down N i r r (Nat.le_refl r)
  obtain ⟨b1, b2⟩ := visits_down N i (N - 1 - r) (N - 1) (by omega)
  have hp : prev_stepper N 0 = N - 1 := by simp [prev_stepper]
  have c1 : cursor_after N (1 + (N - 1 - r)) 0 = r := by
    rw [Nat.add_comm 1, cursor_after]
    rw [hp, b1]
    omega
  have c2 : visits N i (1 + (N - 1 - r)) 0
      = (if N - 1 = i then 1 else 0) + (if r ≤ i ∧ i < N - 1 then 1 else 0) := by
    rw [Nat.add_comm 1, visits]
    rw [hp, b2]
    have : N - 1 - (N - 1 - r) = r := by omega
    rw [this]
  have key : ∀ k, k = r + (1 + (N - 1 - r)) →
      cursor_after N k r = r ∧ visits N i k r = 1 := by
    intro k hk
    subst hk
    constructor
    · rw [cursor_after_add, a1, Nat.sub_self, c1]
    · rw [visits_add, a1, a2, Nat.sub_self, c2]
      by_cases h1 : i < r
      · rw [if_pos ⟨Nat.zero_le _, h1⟩, if_neg (by omega), if_neg (by omega)]
      · rw [if_neg (by omega)]
        by_cases h2 : N - 1 = i
        · rw [if_pos h2, if_neg (by omega)]
        · rw [if_neg h2, if_pos (by omega)]
  exact key N hN

theorem visits_rounds {N i r : Nat} (hr : r < N) (hi : i < N) :
    ∀ q : Nat, cursor_after N (N * q) r = r ∧ visits N i (N * q) r = q := by
  intro q
  induction q with
  | zero => exact ⟨rfl, rfl⟩
  | succ q ih =>
    obtain ⟨h1, h2⟩ := ih
    obtain ⟨g1, g2⟩ := visits_round hr hi
    rw [Nat.mul_succ, cursor_after_add, visits_add, h1, h2, g1, g2]
    exact ⟨rfl, rfl⟩

/-- Among `k` passes on end a stepper is visited at least `k / N` times. -/
theorem visits_ge {N i r : Nat} (hr : r < N) (hi : i < N) (k : Nat) :
    k / N ≤ visits N i k r := by
  obtain ⟨_, h2⟩ := visits_rounds hr hi (k / N)
  have hk : k = N * (k / N) + k % N := (Nat.div_add_mod k N).symm
  have := visits_add N i (N * (k / N)) (k % N) r
  rw [← hk, h2] at this
  omega

theorem list_sum_range (f : Nat → Nat) :
    ∀ n : Nat, ((List.range n).map f).sum = ∑ i ∈ Finset.range n, f i := by
  intro n
  induction n with
  | zero => simp
  | succ n ih =>
    rw [List.range_succ, List.map_append, List.sum_append, ih, Finset.sum_range_succ]
    simp

/-- A list of stepper indices is as long as its counts add up to. -/
theorem sum_count_eq_length (N : Nat) :
    ∀ l : List Nat, (∀ x ∈ l, x < N) → ∑ i ∈ Finset.range N, l.count i = l.length := by
  intro l
  induction l with
  | nil =>
    intro _
    simp
  | cons x l ih =>
    intro h
    have hx : x < N := h x (List.mem_cons_self x l)
    have hl := ih (fun y hy => h y (List.mem_cons_of_mem x hy))
    have e : ∀ i, (x :: l).count i = l.count i + if x = i then 1 else 0 := by
      intro i
      rw [List.count_cons]
      simp
    simp only [e, Finset.sum_add_distrib, hl, Finset.sum_ite_eq, Finset.mem_range, hx, if_true,
      List.length_cons]

/-- Over `COLOR_A_MASK` full rounds of the loop every stepper is returned as
often as its weight says, and these returns are the next `weight_sum` calls. -/
theorem period_passes {B : Build} {m : Mixer} (hB : build_ok B) (hm : distributor_ok B m)
    (hw : weights_ok B m) :
    (∀ i, i < B.MIXING_STEPPERS →
      (passes B (B.MIXING_STEPPERS * COLOR_A_MASK) m).1.count i = m.s_color i) ∧
    (passes B (B.MIXING_STEPPERS * COLOR_A_MASK) m).1.length = weight_sum B m := by
  obtain ⟨h1, _, _, h4, h5⟩ := passes_conserve hB (B.MIXING_STEPPERS * COLOR_A_MASK) m hm hw
  have hr : m.runner.toNat < B.MIXING_STEPPERS := by
    have := hm.1
    have := hm.2.1
    omega
  have hc : ∀ i, i < B.MIXING_STEPPERS →
      (passes B (B.MIXING_STEPPERS * COLOR_A_MASK) m).1.count i = m.s_color i := by
    intro i hi
    have h := h5 i hi
    rw [(visits_rounds hr hi COLOR_A_MASK).2] at h
    have a1 := h1.2.2 i hi
    have a2 := hm.2.2 i hi
    generalize (passes B (B.MIXING_STEPPERS * COLOR_A_MASK) m).1.count i = c at h ⊢
    generalize (passes B (B.MIXING_STEPPERS * COLOR_A_MASK) m).2.accu i = a at h a1
    unfold COLOR_A_MASK at h a1 a2
    omega
  refine ⟨hc, ?_⟩
  rw [← sum_count_eq_length B.MIXING_STEPPERS _ h4, weight_sum, list_sum_range]
  exact Finset.sum_congr rfl (fun i hi => hc i (Finset.mem_range.mp hi))

/-- A returning call leaves a valid state, the weights as they were, and
returns the stepper index the cursor is left at. -/
theorem get_next_stepper_ok {B : Build} (hB : build_ok B) :
    ∀ (fuel : Nat) (m : Mixer) (i : Nat) (m1 : Mixer),
      distributor_ok B m → weights_ok B m → get_next_stepper B fuel m = some (i, m1) →
        distributor_ok B m1 ∧ m1.s_color = m.s_color ∧ i < B.MIXING_STEPPERS ∧
          m1.runner = (i : Int) := by
  intro fuel
  induction fuel with
  | zero =>
    intro m i m1 _ _ h
    simp [get_next_stepper] at h
  | succ f ih =>
    intro m i m1 hm hw h
    obtain ⟨hr, hs, _, _, _, hok⟩ := scan_step_facts hB hm hw
    have hp : prev_stepper B.MIXING_STEPPERS m.runner.toNat < B.MIXING_STEPPERS :=
      prev_stepper_lt (by have := hm.1; have := hm.2.1; omega)
    rw [get_next_stepper_succ] at h
    by_cases hc : (scan_step B m).2 = true
    · rw [if_pos hc] at h
      simp only [Option.some.injEq, Prod.mk.injEq] at h
      obtain ⟨h1, h2⟩ := h
      subst h2
      rw [hr, uint8_t_index hB.1 hp] at h1
      subst h1
      exact ⟨hok, hs, hp, hr⟩
    · rw [if_neg hc] at h
      have hw1 : weights_ok B (scan_step B m).1 := by
        intro x hx
        rw [hs]
        exact hw x hx
      obtain ⟨g1, g2, g3, g4⟩ := ih _ i m1 hok hw1 h
      exact ⟨g1, by rw [g2, hs], g3, g4⟩

theorem pulses_ok {B : Build} (hB : build_ok B) (fuel : Nat) :
    ∀ (n : Nat) (m : Mixer) (l : List Nat) (m1 : Mixer),
      distributor_ok B m → weights_ok B m → pulses B fuel n m = some (l, m1) →
        distributor_ok B m1 ∧ m1.s_color = m.s_color ∧ l.length = n ∧
          ∀ x ∈ l, x < B.MIXING_STEPPERS := by
  intro n
  induction n with
  | zero =>
    intro m l m1 hm _ h
    simp only [pulses, Option.some.injEq, Prod.mk.injEq] at h
    obtain ⟨h1, h2⟩ := h
    subst h1 h2
    exact ⟨hm, rfl, rfl, by simp⟩
  | succ n ih =>
    intro m l m1 hm hw h
    rw [pulses_succ] at h
    cases h1 : get_next_stepper B fuel m with
    | none => simp [h1] at h
    | some x =>
      obtain ⟨i, m2⟩ := x
      simp only [h1] at h
      obtain ⟨g1, g2, g3, _⟩ := get_next_stepper_ok hB fuel m i m2 hm hw h1
      have hw2 : weights_ok B m2 := by
        intro x hx
        rw [g2]
        exact hw x hx
      cases h2 : pulses B fuel n m2 with
      | none => simp [h2] at h
      | some y =>
        obtain ⟨is, m3⟩ := y
        simp only [h2, Option.some.injEq, Prod.mk.injEq] at h
        obtain ⟨e1, e2⟩ := h
        subst e1 e2
        obtain ⟨k1, k2, k3, k4⟩ := ih m2 is m3 g1 hw2 h2
        refine ⟨k1, by rw [k2, g2], by simp [k3], ?_⟩
        intro x hx
        rcases List.mem_cons.mp hx with hx | hx
        · rw [hx]
          exact g3
        · exact k4 x hx

/-- When the passes of the loop return something, the call returns within
them. -/
theorem get_next_stepper_of_passes (B : Build) (k : Nat) (m : Mixer)
    (h : (passes B k m).1 ≠ []) : ∃ r, get_next_stepper B k m = some r := by
  obtain ⟨m1, h1⟩ := pulses_of_passes B k m
  cases hl : (passes B k m).1 with
  | nil => exact absurd hl h
  | cons x l =>
    rw [hl] at h1
    simp only [List.length_cons] at h1
    rw [pulses_succ] at h1
    cases h2 : get_next_stepper B k m with
    | none => simp [h2] at h1
    | some r => exact ⟨r, rfl⟩

/-- With a full component among the weights a call returns within one round. -/
theorem get_next_stepper_total {B : Build} {m : Mixer} (hB : build_ok B)
    (hm : distributor_ok B m) (hw : weights_ok B m) {j : Nat} (hj : j < B.MIXING_STEPPERS)
    (hfull : m.s_color j = COLOR_A_MASK) :
    ∃ r, get_next_stepper B B.MIXING_STEPPERS m = some r := by
  apply get_next_stepper_of_passes
  obtain ⟨h1, _, _, _, h5⟩ := passes_conserve hB B.MIXING_STEPPERS m hm hw
  have hr : m.runner.toNat < B.MIXING_STEPPERS := by
    have := hm.1
    have := hm.2.1
    omega
  have h := h5 j hj
  rw [(visits_round hr hj).2, hfull] at h
  have a1 := h1.2.2 j hj
  intro hnil
  rw [hnil] at h
  simp only [List.count_nil] at h
  omega

theorem pulses_total {B : Build} (hB : build_ok B) {j : Nat} (hj : j < B.MIXING_STEPPERS) :
    ∀ (n : Nat) (m : Mixer), distributor_ok B m → weights_ok B m →
      m.s_color j = COLOR_A_MASK → ∃ r, pulses B B.MIXING_STEPPERS n m = some r := by
  intro n
  induction n with
  | zero =>
    intro m _ _ _
    exact ⟨_, rfl⟩
  | succ n ih =>
    intro m hm hw hfull
    obtain ⟨⟨i, m1⟩, h1⟩ := get_next_stepper_total hB hm hw hj hfull
    obtain ⟨g1, g2, _, _⟩ := get_next_stepper_ok hB _ m i m1 hm hw h1
    have hw1 : weights_ok B m1 := by
      intro x hx
      rw [g2]
      exact hw x hx
    obtain ⟨⟨l, m2⟩, h2⟩ := ih m1 g1 hw1 (by rw [g2]; exact hfull)
    refine ⟨(i :: l, m2), ?_⟩
    rw [pulses_succ]
    simp only [h1, h2]

/-- The result of a run of calls does not depend on the fuel it is given. -/
theorem pulses_fuel_irrel (B : Build) {f g n : Nat} {m : Mixer} {r s : List Nat × Mixer}
    (hf : pulses B f n m = some r) (hg : pulses B g n m = some s) : r = s := by
  have h1 := pulses_mono_le B (Nat.le_max_left f g) n m r hf
  have h2 := pulses_mono_le B (Nat.le_max_right f g) n m s hg
  rw [h1] at h2
  exact Option.some.inj h2

theorem passes_add (B : Build) :
    ∀ (a b : Nat) (m : Mixer),
      passes B (a + b) m =
        ((passes B a m).1 ++ (passes B b (passes B a m).2).1, (passes B b (passes B a m).2).2) := by
  intro a
  induction a with
  | zero =>
    intro b m
    simp [passes]
  | succ a ih =>
    intro b m
    rw [Nat.add_right_comm, passes_succ, passes_succ, ih b (scan_step B m).1]
    by_cases hc : (scan_step B m).2 = true
    · simp only [if_pos hc, List.cons_append]
    · simp only [if_neg hc]

theorem pulses_add (B : Build) (fuel : Nat) :
    ∀ (a b : Nat) (m m1 m2 : Mixer) (l1 l2 : List Nat),
      pulses B fuel a m = some (l1, m1) → pulses B fuel b m1 = some (l2, m2) →
        pulses B fuel (a + b) m = some (l1 ++ l2, m2) := by
  intro a
  induction a with
  | zero =>
    intro b m m1 m2 l1 l2 h1 h2
    simp only [pulses, Option.some.injEq, Prod.mk.injEq] at h1
    obtain ⟨e1, e2⟩ := h1
    subst e1 e2
    simpa using h2
  | succ a ih =>
    intro b m m1 m2 l1 l2 h1 h2
    rw [Nat.add_right_comm, pulses_succ]
    rw [pulses_succ] at h1
    cases h3 : get_next_stepper B fuel m with
    | none => simp [h3] at h1
    | some x =>
      obtain ⟨i, m3⟩ := x
      simp only [h3] at h1 ⊢
      cases h4 : pulses B fuel a m3 with
      | none => simp [h4] at h1
      | some y =>
        obtain ⟨is, m4⟩ := y
        simp only [h4, Option.some.injEq, Prod.mk.injEq] at h1
        obtain ⟨e1, e2⟩ := h1
        subst e1 e2
        simp only [ih b m3 m4 m2 is l2 h4 h2, List.cons_append]

/-- A returning call is a run of passes of which the last one returns. -/
theorem passes_of_get_next_stepper (B : Build) :
    ∀ (fuel : Nat) (m : Mixer) (i : Nat) (m1 : Mixer),
      get_next_stepper B fuel m = some (i, m1) → ∃ k, passes B k m = ([i], m1) := by
  intro fuel
  induction fuel with
  | zero =>
    intro m i m1 h
    simp [get_next_stepper] at h
  | succ f ih =>
    intro m i m1 h
    rw [get_next_stepper_succ] at h
    by_cases hc : (scan_step B m).2 = true
    · rw [if_pos hc] at h
      simp only [Option.some.injEq, Prod.mk.injEq] at h
      obtain ⟨e1, e2⟩ := h
      refine ⟨1, ?_⟩
      rw [passes_succ, if_pos hc, e1, e2]
      rfl
    · rw [if_neg hc] at h
      obtain ⟨k, hk⟩ := ih _ i m1 h
      refine ⟨k + 1, ?_⟩
      rw [passes_succ, if_neg hc, hk]

/-- The passes read off the calls: a run of returning calls is a run of
passes that returns the same indices and leaves the same state. -/
theorem passes_of_pulses (B : Build) (fuel : Nat) :
    ∀ (n : Nat) (m : Mixer) (l : List Nat) (m1 : Mixer),
      pulses B fuel n m = some (l, m1) → ∃ k, passes B k m = (l, m1) := by
  intro n
  induction n with
  | zero =>
    intro m l m1 h
    simp only [pulses, Option.some.injEq, Prod.mk.injEq] at h
    obtain ⟨e1, e2⟩ := h
    subst e1 e2
    exact ⟨0, rfl⟩
  | succ n ih =>
    intro m l m1 h
    rw [pulses_succ] at h
    cases h3 : get_next_stepper B fuel m with
    | none => simp [h3] at h
    | some x =>
      obtain ⟨i, m3⟩ := x
      simp only [h3] at h
      cases h4 : pulses B fuel n m3 with
      | none => simp [h4] at h
      | some y =>
        obtain ⟨is, m4⟩ := y
        simp only [h4, Option.some.injEq, Prod.mk.injEq] at h
        obtain ⟨e1, e2⟩ := h
        subst e1 e2
        obtain ⟨k1, hk1⟩ := passes_of_get_next_stepper B fuel m i m3 h3
        obtain ⟨k2, hk2⟩ := ih m3 is m4 h4
        refine ⟨k1 + k2, ?_⟩
        rw [passes_add, hk1]
        simp only [hk2, List.singleton_append]

theorem passes_length_le (B : Build) :
    ∀ (k : Nat) (m : Mixer), (passes B k m).1.length ≤ k := by
  intro k
  induction k with
  | zero =>
    intro m
    simp [passes]
  | succ k ih =>
    intro m
    rw [passes_succ]
    have := ih (scan_step B m).1
    by_cases hc : (scan_step B m).2 = true
    · simp only [if_pos hc, List.length_cons]
      omega
    · simp only [if_neg hc]
      omega

/-- Passes that never return stepper `i` return at most once per visit of
another stepper. -/
theorem passes_length_of_not_mem {B : Build} (hB : build_ok B) (i : Nat) :
    ∀ (k : Nat) (m : Mixer), distributor_ok B m → weights_ok B m → i ∉ (passes B k m).1 →
      (passes B k m).1.length + visits B.MIXING_STEPPERS i k m.runner.toNat ≤ k := by
  intro k
  induction k with
  | zero =>
    intro m _ _ _
    simp [passes, visits]
  | succ k ih =>
    intro m hm hw hni
    obtain ⟨hr, hs, _, _, _, hok⟩ := scan_step_facts hB hm hw
    have hw1 : weights_ok B (scan_step B m).1 := by
      intro x hx
      rw [hs]
      exact hw x hx
    have hp : prev_stepper B.MIXING_STEPPERS m.runner.toNat < B.MIXING_STEPPERS :=
      prev_stepper_lt (by have := hm.1; have := hm.2.1; omega)
    have hu : uint8_t (scan_step B m).1.runner = prev_stepper B.MIXING_STEPPERS m.runner.toNat := by
      rw [hr]
      exact uint8_t_index hB.1 hp
    rw [passes_succ] at hni ⊢
    simp only [visits]
    have hih := ih (scan_step B m).1 hok hw1
    rw [hr, Int.toNat_ofNat] at hih
    by_cases hc : (scan_step B m).2 = true
    · rw [if_pos hc] at hni ⊢
      rw [hu] at hni
      simp only [List.mem_cons, not_or] at hni
      have := hih hni.2
      rw [if_neg (fun h => hni.1 h.symm)]
      simp only [List.length_cons]
      omega
    · rw [if_neg hc] at hni ⊢
      have := hih hni
      by_cases hip : prev_stepper B.MIXING_STEPPERS m.runner.toNat = i
      · rw [if_pos hip]
        omega
      · rw [if_neg hip]
        omega

/-- One pass of the loop, whatever the other weights are, when stepper `k`
has weight 0 and an accumulator below a full component: the accumulator of
`k` stays and the pass does not return `k`. -/
theorem scan_step_idle {B : Build} {m : Mixer} {k : Nat} (hB : build_ok B)
    (h0 : 0 ≤ m.runner) (hN : m.runner < B.MIXING_STEPPERS) (hk : m.s_color k = 0)
    (ha : m.accu k < COLOR_A_MASK) :
    0 ≤ (scan_step B m).1.runner ∧ (scan_step B m).1.runner < B.MIXING_STEPPERS ∧
      (scan_step B m).1.s_color = m.s_color ∧ (scan_step B m).1.accu k = m.accu k ∧
      ((scan_step B m).2 = true → uint8_t (scan_step B m).1.runner ≠ k) := by
  have hr : (if m.runner - 1 < 0 then (B.MIXING_STEPPERS : Int) - 1 else m.runner - 1)
      = (prev_stepper B.MIXING_STEPPERS m.runner.toNat : Nat) := by
    unfold prev_stepper
    split_ifs <;> omega
  have hp : prev_stepper B.MIXING_STEPPERS m.runner.toNat < B.MIXING_STEPPERS :=
    prev_stepper_lt (by omega)
  have hu := uint8_t_index hB.1 hp
  have hpow := two_pow_bits hB.2
  unfold scan_step
  simp only [hr, Int.toNat_ofNat]
  by_cases hpk : prev_stepper B.MIXING_STEPPERS m.runner.toNat = k
  · rw [hpk, hk, Nat.add_zero]
    have hlt : m.accu k < 2 ^ B.fast16_bits := by
      unfold COLOR_A_MASK at ha
      omega
    rw [Nat.mod_eq_of_lt hlt]
    have ht := mask_test (m.accu k) (by unfold COLOR_A_MASK at ha; omega)
    have hnot : ¬ (m.accu k &&& COLOR_A_MASK ≠ 0) := fun h => by
      have := ht.mp h
      omega
    rw [if_neg hnot]
    refine ⟨by simp, by simp; omega, rfl, by simp, by simp⟩
  · split_ifs
    · refine ⟨by simp, by simp; omega, rfl, by simp [Function.update, Ne.symm hpk], ?_⟩
      intro _
      simp only [hu]
      exact hpk
    · refine ⟨by simp, by simp; omega, rfl, by simp [Function.update, Ne.symm hpk], by simp⟩

theorem get_next_stepper_idle {B : Build} {k : Nat} (hB : build_ok B) :
    ∀ (fuel : Nat) (m : Mixer) (i : Nat) (m1 : Mixer),
      0 ≤ m.runner → m.runner < B.MIXING_STEPPERS → m.s_color k = 0 →
      m.accu k < COLOR_A_MASK → get_next_stepper B fuel m = some (i, m1) →
        0 ≤ m1.runner ∧ m1.runner < B.MIXING_STEPPERS ∧ m1.s_color = m.s_color ∧
          m1.accu k = m.accu k ∧ i ≠ k := by
  intro fuel
  induction fuel with
  | zero =>
    intro m i m1 _ _ _ _ h
    simp [get_next_stepper] at h
  | succ f ih =>
    intro m i m1 h0 hN hk ha h
    obtain ⟨g1, g2, g3, g4, g5⟩ := scan_step_idle hB h0 hN hk ha
    rw [get_next_stepper_succ] at h
    by_cases hc : (scan_step B m).2 = true
    · rw [if_pos hc] at h
      simp only [Option.some.injEq, Prod.mk.injEq] at h
      obtain ⟨e1, e2⟩ := h
      subst e1 e2
      exact ⟨g1, g2, g3, g4, g5 hc⟩
    · rw [if_neg hc] at h
      obtain ⟨k1, k2, k3, k4, k5⟩ :=
        ih _ i m1 g1 g2 (by rw [g3]; exact hk) (by rw [g4]; exact ha) h
      exact ⟨k1, k2, by rw [k3, g3], by rw [k4, g4], k5⟩

theorem pulses_idle {B : Build} {k : Nat} (hB : build_ok B) (fuel : Nat) :
    ∀ (n : Nat) (m : Mixer) (l : List Nat) (m1 : Mixer),
      0 ≤ m.runner → m.runner < B.MIXING_STEPPERS → m.s_color k = 0 →
      m.accu k < COLOR_A_MASK → pulses B fuel n m = some (l, m1) →
        k ∉ l ∧ m1.accu k = m.accu k := by
  intro n
  induction n with
  | zero =>
    intro m l m1 _ _ _ _ h
    simp only [pulses, Option.some.injEq, Prod.mk.injEq] at h
    obtain ⟨e1, e2⟩ := h
    subst e1 e2
    exact ⟨by simp, rfl⟩
  | succ n ih =>
    intro m l m1 h0 hN hk ha h
    rw [pulses_succ] at h
    cases h3 : get_next_stepper B fuel m with
    | none => simp [h3] at h
    | some x =>
      obtain ⟨i, m3⟩ := x
      simp only [h3] at h
      obtain ⟨g1, g2, g3, g4, g5⟩ := get_next_stepper_idle hB fuel m i m3 h0 hN hk ha h3
      cases h4 : pulses B fuel n m3 with
      | none => simp [h4] at h
      | some y =>
        obtain ⟨is, m4⟩ := y
        simp only [h4, Option.some.injEq, Prod.mk.injEq] at h
        obtain ⟨e1, e2⟩ := h
        subst e1 e2
        obtain ⟨k1, k2⟩ := ih m3 is m4 g1 g2 (by rw [g3]; exact hk) (by rw [g4]; exact ha) h4
        refine ⟨?_, by rw [k2, g4]⟩
        simp only [List.mem_cons, not_or]
        exact ⟨fun h => g5 h.symm, k1⟩

/-- With a non-zero weight among weights of at most a full component, every
run of calls returns. -/
theorem pulses_returns {B : Build} (hB : build_ok B) {j : Nat} (hj : j < B.MIXING_STEPPERS) :
    ∀ (n : Nat) (m : Mixer), distributor_ok B m → weights_ok B m → m.s_color j ≠ 0 →
      ∃ r, pulses B (B.MIXING_STEPPERS * COLOR_A_MASK) n m = some r := by
  intro n
  induction n with
  | zero =>
    intro m _ _ _
    exact ⟨_, rfl⟩
  | succ n ih =>
    intro m hm hw hne
    have hnil : (passes B (B.MIXING_STEPPERS * COLOR_A_MASK) m).1 ≠ [] := by
      intro h
      have hc := (period_passes hB hm hw).1 j hj
      rw [h] at hc
      simp only [List.count_nil] at hc
      exact hne hc.symm
    obtain ⟨⟨i, m1⟩, h1⟩ := get_next_stepper_of_passes B _ m hnil
    obtain ⟨g1, g2, _, _⟩ := get_next_stepper_ok hB _ m i m1 hm hw h1
    have hw1 : weights_ok B m1 := by
      intro x hx
      rw [g2]
      exact hw x hx
    obtain ⟨⟨l, m2⟩, h2⟩ := ih m1 g1 hw1 (by rw [g2]; exact hne)
    refine ⟨(i :: l, m2), ?_⟩
    rw [pulses_succ]
    simp only [h1, h2]

/-- The period of the distributor: from a valid state with a full component
among the weights, the next `weight_sum` calls return, and return stepper `i`
as often as its weight says. -/
theorem period_pulses {B : Build} {m : Mixer} (hB : build_ok B) (hm : distributor_ok B m)
    (hw : weights_ok B m) (hfull : ∃ j, j < B.MIXING_STEPPERS ∧ m.s_color j = COLOR_A_MASK) :
    ∃ idxs m1, pulses B B.MIXING_STEPPERS (weight_sum B m) m = some (idxs, m1) ∧
      m1.s_color = m.s_color ∧ ∀ i, i < B.MIXING_STEPPERS → idxs.count i = m.s_color i := by
  obtain ⟨hc, hlen⟩ := period_passes hB hm hw
  obtain ⟨m1, h1⟩ := pulses_of_passes B (B.MIXING_STEPPERS * COLOR_A_MASK) m
  rw [hlen] at h1
  obtain ⟨j, hj, hfj⟩ := hfull
  obtain ⟨⟨l, m2⟩, h2⟩ := pulses_total hB hj (weight_sum B m) m hm hw hfj
  have e := pulses_fuel_irrel B h2 h1
  simp only [Prod.mk.injEq] at e
  obtain ⟨e1, e2⟩ := e
  subst e1 e2
  exact ⟨_, _, h2, (pulses_ok hB _ _ m _ _ hm hw h2).2.1, hc⟩

/-- The starvation bound: a run of calls that never returns stepper `i`, of
positive weight, is at most `(N - 1) * ceil (COLOR_A_MASK / weight)` long. -/
theorem starvation_le {B : Build} {m : Mixer} (hB : build_ok B) (hm : distributor_ok B m)
    (hw : weights_ok B m) {i : Nat} (hi : i < B.MIXING_STEPPERS) (hpos : 0 < m.s_color i)
    {fuel n : Nat} {l : List Nat} {m1 : Mixer} (h : pulses B fuel n m = some (l, m1))
    (hni : i ∉ l) :
    n ≤ (B.MIXING_STEPPERS - 1) * ((COLOR_A_MASK + m.s_color i - 1) / m.s_color i) := by
  obtain ⟨k, hk⟩ := passes_of_pulses B fuel n m l m1 h
  obtain ⟨h1, _, _, _, h5⟩ := passes_conserve hB k m hm hw
  have hlen := passes_length_of_not_mem hB i k m hm hw (by rw [hk]; exact hni)
  have hr : m.runner.toNat < B.MIXING_STEPPERS := by
    have := hm.1
    have := hm.2.1
    omega
  have hge := visits_ge hr hi k
  have hc := h5 i hi
  have ha := h1.2.2 i hi
  rw [hk] at hc ha hlen
  dsimp only at hc ha hlen
  rw [List.count_eq_zero_of_not_mem hni, Nat.mul_zero, Nat.add_zero] at hc
  have hn := (pulses_ok hB fuel n m l m1 hm hw h).2.2.1
  rw [hn] at hlen
  generalize visits B.MIXING_STEPPERS i k m.runner.toNat = v at hc hlen hge
  generalize m.s_color i = w at hc hpos ⊢
  have hwv : w * v < COLOR_A_MASK := by omega
  have hv : v + 1 ≤ (COLOR_A_MASK + w - 1) / w := by
    rw [Nat.le_div_iff_mul_le hpos, Nat.add_mul]
    have : w * v = v * w := Nat.mul_comm w v
    omega
  obtain ⟨N1, hN1⟩ : ∃ N1, B.MIXING_STEPPERS = N1 + 1 := ⟨B.MIXING_STEPPERS - 1, by omega⟩
  rw [hN1] at hge ⊢
  have hkl : k < (v + 1) * (N1 + 1) := by
    rw [← Nat.div_lt_iff_lt_mul (show 0 < N1 + 1 by omega)]
    omega
  have hmul : (v + 1) * (N1 + 1) = N1 * (v + 1) + (v + 1) := by ring
  have hfin : n ≤ N1 * (v + 1) := by omega
  exact le_trans hfin (by simpa using Nat.mul_le_mul_left N1 hv)

/-- C1: from every valid distributor state (cursor a stepper index, every
accumulator below `COLOR_A_MASK`) and with weights of at most `COLOR_A_MASK`,
one of them equal to it, the next `weight_sum` calls of `get_next_stepper`
all return, leave `s_color` as it was, and return each stepper index `i`
exactly `s_color i` times. -/
theorem exact_proportionality (B : Build) (m : Mixer) (hB : build_ok B)
    (hm : distributor_ok B m) (hw : weights_ok B m)
    (hfull : ∃ j, j < B.MIXING_STEPPERS ∧ m.s_color j = COLOR_A_MASK) :
    ∃ idxs m1, pulses B B.MIXING_STEPPERS (weight_sum B m) m = some (idxs, m1) ∧
      m1.s_color = m.s_color ∧ ∀ i, i < B.MIXING_STEPPERS → idxs.count i = m.s_color i :=
  period_pulses hB hm hw hfull

/-- Witness of C1: the mid-run state with weights `[0x8000, 0x4000, 0]`. -/
theorem exact_proportionality_witness :
    build_ok build3 ∧ distributor_ok build3 mixer_busy3 ∧ weights_ok build3 mixer_busy3 ∧
      ∃ idxs m1, pulses build3 3 (weight_sum build3 mixer_busy3) mixer_busy3 = some (idxs, m1) ∧
        m1.s_color = mixer_busy3.s_color ∧
        ∀ i, i < build3.MIXING_STEPPERS → idxs.count i = mixer_busy3.s_color i :=
  ⟨by unfold build_ok; decide, by unfold distributor_ok; decide, by unfold weights_ok; decide,
    exact_proportionality build3 mixer_busy3 (by unfold build_ok; decide)
      (by unfold distributor_ok; decide) (by unfold weights_ok; decide) ⟨0, by decide, rfl⟩⟩

/-- C2, as stated, fails: with three steppers and the weights
`[0x8000, 0x4000, 0]`, the `COLOR_A_MASK` calls from the initial state do all
return, but they do not return stepper 0 `0x8000` times and stepper 1 `0x4000`
times, whatever the fuel: that would be more returns than calls. -/
theorem full_scale_calls_counterexample :
    (∃ idxs m1, pulses build3 3 COLOR_A_MASK mixer_half3 = some (idxs, m1) ∧
        idxs.length = COLOR_A_MASK) ∧
      ¬ ∃ fuel idxs m1, pulses build3 fuel COLOR_A_MASK mixer_half3 = some (idxs, m1) ∧
        idxs.count 0 = 0x8000 ∧ idxs.count 1 = 0x4000 ∧ idxs.count 2 = 0 := by
  have hB : build_ok build3 := by unfold build_ok; decide
  have hm : distributor_ok build3 mixer_half3 := by unfold distributor_ok; decide
  have hw : weights_ok build3 mixer_half3 := by unfold weights_ok; decide
  constructor
  · obtain ⟨⟨idxs, m1⟩, h⟩ :=
      pulses_total hB (show 0 < build3.MIXING_STEPPERS by decide) COLOR_A_MASK mixer_half3
        hm hw rfl
    exact ⟨idxs, m1, h, (pulses_ok hB _ _ _ idxs m1 hm hw h).2.2.1⟩
  · rintro ⟨fuel, idxs, m1, h, c0, c1, c2⟩
    obtain ⟨_, _, hlen, hlt⟩ := pulses_ok hB fuel COLOR_A_MASK mixer_half3 idxs m1 hm hw h
    have hs := sum_count_eq_length 3 idxs hlt
    rw [Finset.sum_range_succ, Finset.sum_range_succ, Finset.sum_range_one, c0, c1, c2, hlen]
      at hs
    unfold COLOR_A_MASK at hs
    omega

/-- C2, amended: from the initial distributor state (cursor 0, accumulators
0) and with weights of at most `COLOR_A_MASK`, one of them equal to it, the
next `weight_sum` calls of `get_next_stepper` return each stepper index `i`
exactly `s_color i` times. -/
theorem period_from_initial_state (B : Build) (m : Mixer) (hB : build_ok B)
    (hr : m.runner = 0) (ha : ∀ i, i < B.MIXING_STEPPERS → m.accu i = 0)
    (hw : weights_ok B m) (hfull : ∃ j, j < B.MIXING_STEPPERS ∧ m.s_color j = COLOR_A_MASK) :
    ∃ idxs m1, pulses B B.MIXING_STEPPERS (weight_sum B m) m = some (idxs, m1) ∧
      ∀ i, i < B.MIXING_STEPPERS → idxs.count i = m.s_color i := by
  have hm : distributor_ok B m := by
    obtain ⟨j, hj, _⟩ := hfull
    refine ⟨by omega, by omega, ?_⟩
    intro i hi
    rw [ha i hi]
    decide
  obtain ⟨idxs, m1, h1, _, h3⟩ := period_pulses hB hm hw hfull
  exact ⟨idxs, m1, h1, h3⟩

/-- Witness of C2, amended: three steppers with the weights
`[0x8000, 0x4000, 0]` from the initial state: over `0xC000` calls stepper 0 is
returned `0x8000` times, stepper 1 `0x4000` times and stepper 2 never. -/
theorem period_from_initial_state_witness :
    build_ok build3 ∧ mixer_half3.runner = 0 ∧ weights_ok build3 mixer_half3 ∧
      ∃ idxs m1, pulses build3 3 0xC000 mixer_half3 = some (idxs, m1) ∧
        idxs.count 0 = 0x8000 ∧ idxs.count 1 = 0x4000 ∧ idxs.count 2 = 0 := by
  refine ⟨by unfold build_ok; decide, rfl, by unfold weights_ok; decide, ?_⟩
  obtain ⟨idxs, m1, h, hc⟩ :=
    period_from_initial_state build3 mixer_half3 (by unfold build_ok; decide) rfl
      (fun _ _ => rfl) (by unfold weights_ok; decide) ⟨0, by decide, rfl⟩
  have hsum : weight_sum build3 mixer_half3 = 0xC000 := by decide
  rw [hsum] at h
  exact ⟨idxs, m1, h, hc 0 (by decide), hc 1 (by decide), hc 2 (by decide)⟩

/-- C3: a stepper `k` of weight 0 is never selected. From every state with a
valid cursor and accumulators below `COLOR_A_MASK`, whatever the other weights
and the fuel, a run of `n` calls that returns does not return `k` and leaves
`accu k` as it was; and with weights of at most `COLOR_A_MASK`, one of them
non-zero, every run of `n` calls does return. -/
theorem zero_weight_never_selected (B : Build) (m : Mixer) (k : Nat) (hB : build_ok B)
    (hm : distributor_ok B m) (hk : k < B.MIXING_STEPPERS) (hzero : m.s_color k = 0) :
    (∀ fuel n idxs m1, pulses B fuel n m = some (idxs, m1) →
        k ∉ idxs ∧ m1.accu k = m.accu k) ∧
    (weights_ok B m → (∃ j, j < B.MIXING_STEPPERS ∧ m.s_color j ≠ 0) →
      ∀ n, ∃ idxs m1, pulses B (B.MIXING_STEPPERS * COLOR_A_MASK) n m = some (idxs, m1) ∧
        k ∉ idxs ∧ m1.accu k = m.accu k) := by
  have hsafe : ∀ fuel n idxs m1, pulses B fuel n m = some (idxs, m1) →
      k ∉ idxs ∧ m1.accu k = m.accu k := fun fuel n idxs m1 h =>
    pulses_idle hB fuel n m idxs m1 hm.1 hm.2.1 hzero (hm.2.2 k hk) h
  refine ⟨hsafe, ?_⟩
  rintro hw ⟨j, hj, hne⟩ n
  obtain ⟨⟨idxs, m1⟩, h⟩ := pulses_returns hB hj n m hm hw hne
  exact ⟨idxs, m1, h, hsafe _ n idxs m1 h⟩

/-- Witness of C3: stepper 2 of the weights `[0x8000, 0x4000, 0]`, over four
calls from the initial state. -/
theorem zero_weight_never_selected_witness :
    build_ok build3 ∧ distributor_ok build3 mixer_half3 ∧ mixer_half3.s_color 2 = 0 ∧
      weights_ok build3 mixer_half3 ∧ mixer_half3.s_color 0 ≠ 0 ∧
      ∃ idxs m1, pulses build3 (build3.MIXING_STEPPERS * COLOR_A_MASK) 4 mixer_half3
          = some (idxs, m1) ∧ 2 ∉ idxs ∧ m1.accu 2 = mixer_half3.accu 2 :=
  ⟨by unfold build_ok; decide, by unfold distributor_ok; decide, rfl,
    by unfold weights_ok; decide, by decide,
    (zero_weight_never_selected build3 mixer_half3 2 (by unfold build_ok; decide)
      (by unfold distributor_ok; decide) (by decide) rfl).2
      (by unfold weights_ok; decide) ⟨0, by decide, by decide⟩ 4⟩

/-- C4: with weights of at most `COLOR_A_MASK` and stepper `j` at exactly
`COLOR_A_MASK`, from every valid distributor state a pass of the loop that
visits `j` returns, and the next `MIXING_STEPPERS` calls return `j` at least
once. -/
theorem full_weight_every_round (B : Build) (m : Mixer) (j : Nat) (hB : build_ok B)
    (hm : distributor_ok B m) (hw : weights_ok B m) (hj : j < B.MIXING_STEPPERS)
    (hfull : m.s_color j = COLOR_A_MASK) :
    ((scan_step B m).1.runner = (j : Int) → (scan_step B m).2 = true) ∧
    ∃ idxs m1, pulses B B.MIXING_STEPPERS B.MIXING_STEPPERS m = some (idxs, m1) ∧
      j ∈ idxs := by
  have hr : m.runner.toNat < B.MIXING_STEPPERS := by
    have := hm.1
    have := hm.2.1
    omega
  constructor
  · intro hv
    obtain ⟨hrun, _, hf, _, _, _⟩ := scan_step_facts hB hm hw
    rw [hrun] at hv
    have hpj : prev_stepper B.MIXING_STEPPERS m.runner.toNat = j := by exact_mod_cast hv
    rw [hf, hpj, hfull]
    omega
  · obtain ⟨h1, _, _, _, h5⟩ := passes_conserve hB B.MIXING_STEPPERS m hm hw
    have hmem : j ∈ (passes B B.MIXING_STEPPERS m).1 := by
      rw [← List.one_le_count_iff]
      have h := h5 j hj
      rw [(visits_round hr hj).2, hfull] at h
      have a1 := h1.2.2 j hj
      by_contra hlt
      have h0 : (passes B B.MIXING_STEPPERS m).1.count j = 0 := by omega
      rw [h0] at h
      omega
    obtain ⟨m1, hp⟩ := pulses_of_passes B B.MIXING_STEPPERS m
    have hle := passes_length_le B B.MIXING_STEPPERS m
    obtain ⟨g1, g2, _, _⟩ := pulses_ok hB _ _ m _ _ hm hw hp
    have hw1 : weights_ok B m1 := by
      intro x hx
      rw [g2]
      exact hw x hx
    obtain ⟨⟨l2, m2⟩, hq⟩ := pulses_total hB hj
      (B.MIXING_STEPPERS - (passes B B.MIXING_STEPPERS m).1.length) m1 g1 hw1
      (by rw [g2]; exact hfull)
    have hadd := pulses_add B B.MIXING_STEPPERS _ _ m m1 m2 _ l2 hp hq
    rw [Nat.add_sub_cancel' hle] at hadd
    exact ⟨_, _, hadd, List.mem_append_left _ hmem⟩

/-- Witness of C4: stepper 0 of the weights `[0x8000, 0x4000, 0]`. -/
theorem full_weight_every_round_witness :
    build_ok build3 ∧ distributor_ok build3 mixer_busy3 ∧ weights_ok build3 mixer_busy3 ∧
      mixer_busy3.s_color 0 = COLOR_A_MASK ∧
      ∃ idxs m1, pulses build3 3 3 mixer_busy3 = some (idxs, m1) ∧ 0 ∈ idxs :=
  ⟨by unfold build_ok; decide, by unfold distributor_ok; decide, by unfold weights_ok; decide,
    rfl,
    (full_weight_every_round build3 mixer_busy3 0 (by unfold build_ok; decide)
      (by unfold distributor_ok; decide) (by unfold weights_ok; decide) (by decide) rfl).2⟩

/-- C5, as stated, fails: with three steppers, every weight `COLOR_A_MASK`
and the initial state, the first two calls return steppers 2 and 1, a run of
two calls, more than `COLOR_A_MASK / s_color 0 = 1`, that never returns
stepper 0. With two steppers and the weights `[0x8000, 0x6000]` two calls on
end return stepper 0, again more than `COLOR_A_MASK / s_color 1 = 1`. -/
theorem starvation_counterexample :
    (build_ok build3 ∧ distributor_ok build3 mixer_full3 ∧ weights_ok build3 mixer_full3 ∧
      mixer_full3.s_color 0 = COLOR_A_MASK ∧
      (pulses build3 3 2 mixer_full3).map Prod.fst = some [2, 1] ∧
      (0 : Nat) ∉ [2, 1] ∧ COLOR_A_MASK / mixer_full3.s_color 0 < 2) ∧
    (build_ok build2 ∧ distributor_ok build2 mixer_uneven2 ∧ weights_ok build2 mixer_uneven2 ∧
      mixer_uneven2.s_color 0 = COLOR_A_MASK ∧
      (pulses build2 2 2 mixer_uneven2).map Prod.fst = some [0, 0] ∧
      (1 : Nat) ∉ [0, 0] ∧ COLOR_A_MASK / mixer_uneven2.s_color 1 < 2) :=
  ⟨⟨by unfold build_ok; decide, by unfold distributor_ok; decide, by unfold weights_ok; decide,
      rfl, by decide, by decide, by decide⟩,
    ⟨by unfold build_ok; decide, by unfold distributor_ok; decide, by unfold weights_ok; decide,
      rfl, by decide, by decide, by decide⟩⟩

/-- C5, amended: with weights of at most `COLOR_A_MASK`, one of them equal to
it, from every valid distributor state and for every stepper `i` of positive
weight, every run of more than
`(MIXING_STEPPERS - 1) * ceil (COLOR_A_MASK / s_color i)` consecutive calls
returns `i`. -/
theorem bounded_starvation (B : Build) (m : Mixer) (i n : Nat) (hB : build_ok B)
    (hm : distributor_ok B m) (hw : weights_ok B m)
    (hfull : ∃ j, j < B.MIXING_STEPPERS ∧ m.s_color j = COLOR_A_MASK)
    (hi : i < B.MIXING_STEPPERS) (hpos : 0 < m.s_color i)
    (hn : (B.MIXING_STEPPERS - 1) * ((COLOR_A_MASK + m.s_color i - 1) / m.s_color i) < n) :
    ∃ idxs m1, pulses B B.MIXING_STEPPERS n m = some (idxs, m1) ∧ i ∈ idxs := by
  obtain ⟨j, hj, hfj⟩ := hfull
  obtain ⟨⟨l, m1⟩, h⟩ := pulses_total hB hj n m hm hw hfj
  refine ⟨l, m1, h, ?_⟩
  by_contra hni
  have := starvation_le hB hm hw hi hpos h hni
  omega

/-- Witness of C5, amended: stepper 1 of the weights `[0x8000, 0x4000, 0]`,
over five calls. -/
theorem bounded_starvation_witness :
    build_ok build3 ∧ distributor_ok build3 mixer_busy3 ∧ weights_ok build3 mixer_busy3 ∧
      ∃ idxs m1, pulses build3 3 5 mixer_busy3 = some (idxs, m1) ∧ 1 ∈ idxs :=
  ⟨by unfold build_ok; decide, by unfold distributor_ok; decide, by unfold weights_ok; decide,
    bounded_starvation build3 mixer_busy3 1 5 (by unfold build_ok; decide)
      (by unfold distributor_ok; decide) (by unfold weights_ok; decide) ⟨0, by decide, rfl⟩
      (by decide) (by decide) (by decide)⟩

/-- C6: with weights of at most `COLOR_A_MASK`, one of them equal to it, and
from every valid distributor state, `get_next_stepper` returns within
`MIXING_STEPPERS` passes of its loop, and returns a stepper index. -/
theorem get_next_stepper_returns (B : Build) (m : Mixer) (hB : build_ok B)
    (hm : distributor_ok B m) (hw : weights_ok B m)
    (hfull : ∃ j, j < B.MIXING_STEPPERS ∧ m.s_color j = COLOR_A_MASK) :
    ∃ i m1, get_next_stepper B B.MIXING_STEPPERS m = some (i, m1) ∧
      i < B.MIXING_STEPPERS := by
  obtain ⟨j, hj, hfj⟩ := hfull
  obtain ⟨⟨i, m1⟩, h⟩ := get_next_stepper_total hB hm hw hj hfj
  exact ⟨i, m1, h, (get_next_stepper_ok hB _ m i m1 hm hw h).2.2.1⟩

/-- Witness of C6: the mid-run state with weights `[0x8000, 0x4000, 0]`. -/
theorem get_next_stepper_returns_witness :
    build_ok build3 ∧ distributor_ok build3 mixer_busy3 ∧ weights_ok build3 mixer_busy3 ∧
      ∃ i m1, get_next_stepper build3 3 mixer_busy3 = some (i, m1) ∧ i < 3 :=
  ⟨by unfold build_ok; decide, by unfold distributor_ok; decide, by unfold weights_ok; decide,
    get_next_stepper_returns build3 mixer_busy3 (by unfold build_ok; decide)
      (by unfold distributor_ok; decide) (by unfold weights_ok; decide) ⟨0, by decide, rfl⟩⟩

/-! ## The block snapshot and the height-driven modes -/

@[simp] theorem update_mix_from_vtool_gradient (B : Build) (X : Ext) (j : Nat) (m : Mixer) :
    (update_mix_from_vtool B X j m).gradient = m.gradient := rfl

@[simp] theorem update_mix_from_vtool_random_mix (B : Build) (X : Ext) (j : Nat) (m : Mixer) :
    (update_mix_from_vtool B X j m).random_mix = m.random_mix := rfl

@[simp] theorem update_mix_from_vtool_selected_vtool (B : Build) (X : Ext) (j : Nat)
    (m : Mixer) : (update_mix_from_vtool B X j m).selected_vtool = m.selected_vtool := rfl

/-- What `refresh_gradient` leaves in the members that the mode invariants
read. -/
theorem refresh_gradient_facts (B : Build) (X : Ext) (m : Mixer) :
    (refresh_gradient B X m).gradient.enabled = refresh_gradient_enabled B m ∧
      (refresh_gradient B X m).gradient.start_vtool = m.gradient.start_vtool ∧
      (refresh_gradient B X m).gradient.end_vtool = m.gradient.end_vtool ∧
      (refresh_gradient B X m).gradient.start_z = m.gradient.start_z ∧
      (refresh_gradient B X m).gradient.end_z = m.gradient.end_z ∧
      (refresh_gradient B X m).selected_vtool = m.selected_vtool ∧
      (refresh_gradient B X m).random_mix.enabled =
        (!refresh_gradient_enabled B m && m.random_mix.enabled) := by
  unfold refresh_gradient
  dsimp only
  cases refresh_gradient_enabled B m
  · exact ⟨rfl, rfl, rfl, rfl, rfl, rfl, by simp⟩
  · exact ⟨rfl, rfl, rfl, rfl, rfl, rfl, rfl⟩

theorem refresh_gradient_enabled_inv (B : Build) (m : Mixer)
    (h : refresh_gradient_enabled B m = true) :
    m.gradient.start_vtool ≠ m.gradient.end_vtool ∧ m.gradient.start_z < m.gradient.end_z := by
  unfold refresh_gradient_enabled at h
  simp only [Bool.and_eq_true, bne_iff_ne, decide_eq_true_eq] at h
  exact ⟨h.1.2, h.2⟩

/-- What `refresh_random_mix` leaves in the members that the mode invariants
read. -/
theorem refresh_random_mix_facts (X : Ext) (m : Mixer) :
    (refresh_random_mix X m).random_mix.enabled
        = decide (m.random_mix.start_z < m.random_mix.end_z) ∧
      ((refresh_random_mix X m).random_mix.enabled = true →
        (refresh_random_mix X m).gradient.enabled = false) ∧
      ((refresh_random_mix X m).random_mix.enabled = false →
        (refresh_random_mix X m).gradient = m.gradient) := by
  unfold refresh_random_mix
  dsimp only
  cases decide (m.random_mix.start_z < m.random_mix.end_z)
  · exact ⟨rfl, by simp, fun _ => rfl⟩
  · exact ⟨rfl, fun _ => rfl, fun h => absurd (show true = false from h) (by decide)⟩

/-- What `T` leaves in the members that the mode invariants read. -/
theorem T_facts (B : Build) (X : Ext) (c : Nat) (m : Mixer) :
    (T B X c m).selected_vtool = int8_t c ∧
      (T B X c m).gradient =
        (if B.GRADIENT_VTOOL then
          (refresh_gradient B X { m with selected_vtool := int8_t c }).gradient
        else m.gradient) ∧
      (T B X c m).random_mix =
        (if B.GRADIENT_VTOOL then
          (refresh_gradient B X { m with selected_vtool := int8_t c }).random_mix
        else m.random_mix) := by
  unfold T
  dsimp only
  cases B.GRADIENT_VTOOL
  · exact ⟨rfl, rfl, rfl⟩
  · refine ⟨?_, rfl, rfl⟩
    simp only [if_true, update_mix_from_vtool_selected_vtool]
    exact (refresh_gradient_facts B X _).2.2.2.2.2.1

theorem modes_exclusive_refresh_gradient (B : Build) (X : Ext) (m : Mixer) :
    modes_exclusive (refresh_gradient B X m) := by
  obtain ⟨h1, _, _, _, _, _, h7⟩ := refresh_gradient_facts B X m
  unfold modes_exclusive
  rw [h1, h7]
  cases refresh_gradient_enabled B m <;> simp

theorem modes_exclusive_refresh_random_mix (X : Ext) (m : Mixer) :
    modes_exclusive (refresh_random_mix X m) := by
  obtain ⟨_, h2, _⟩ := refresh_random_mix_facts X m
  unfold modes_exclusive
  rintro ⟨hg, hr⟩
  rw [h2 hr] at hg
  exact Bool.false_ne_true hg

theorem modes_exclusive_T (B : Build) (X : Ext) (c : Nat) (m : Mixer)
    (h : modes_exclusive m) : modes_exclusive (T B X c m) := by
  obtain ⟨_, h2, h3⟩ := T_facts B X c m
  unfold modes_exclusive at h ⊢
  rw [h2, h3]
  cases B.GRADIENT_VTOOL
  · exact h
  · exact modes_exclusive_refresh_gradient B X _

theorem modes_exclusive_gradient_control (B : Build) (X : Ext) (p : Nat) (z : ℚ) (m : Mixer)
    (h : modes_exclusive m) : modes_exclusive (gradient_control B X p z m) := by
  unfold gradient_control
  split
  · split
    · dsimp only
      split
      · exact modes_exclusive_T B X _ m h
      · unfold modes_exclusive
        simp
    · exact h
  · exact h

theorem modes_exclusive_randommix_control (B : Build) (X : Ext) (p : Nat) (z : ℚ)
    (m : Mixer) (h : modes_exclusive m) : modes_exclusive (randommix_control B X p z m) := by
  unfold randommix_control
  split
  · split
    · exact h
    · unfold modes_exclusive
      simp
  · exact h

theorem modes_exclusive_run (B : Build) (X : Ext) (op : producer_op) (m : Mixer)
    (h : modes_exclusive m) : modes_exclusive (op.run B X m) := by
  cases op with
  | T c => exact modes_exclusive_T B X c m h
  | refresh_gradient => exact modes_exclusive_refresh_gradient B X m
  | refresh_random_mix => exact modes_exclusive_refresh_random_mix X m
  | gradient_control p z => exact modes_exclusive_gradient_control B X p z m h
  | randommix_control p z => exact modes_exclusive_randommix_control B X p z m h
  | set_color j i v => exact h
  | set_gradient_color i v => exact h

theorem modes_exclusive_run_ops (B : Build) :
    ∀ (ops : List (Ext × producer_op)) (m : Mixer),
      modes_exclusive m → modes_exclusive (run_ops B ops m) := by
  intro ops
  induction ops with
  | nil =>
    intro m h
    exact h
  | cons x rest ih =>
    intro m h
    obtain ⟨X, op⟩ := x
    exact ih _ (modes_exclusive_run B X op m h)

theorem gradient_inv_congr {m1 m2 : Mixer} (h : m1.gradient = m2.gradient)
    (h2 : gradient_inv m2) : gradient_inv m1 := by
  unfold gradient_inv at h2 ⊢
  rw [h]
  exact h2

theorem gradient_inv_refresh_gradient (B : Build) (X : Ext) (m : Mixer) :
    gradient_inv (refresh_gradient B X m) := by
  obtain ⟨h1, h2, h3, h4, h5, _, _⟩ := refresh_gradient_facts B X m
  unfold gradient_inv
  rw [h1, h2, h3, h4, h5]
  exact refresh_gradient_enabled_inv B m

theorem gradient_inv_T (B : Build) (X : Ext) (c : Nat) (m : Mixer) (h : gradient_inv m) :
    gradient_inv (T B X c m) := by
  obtain ⟨_, h2, _⟩ := T_facts B X c m
  cases hG : B.GRADIENT_VTOOL
  · rw [hG] at h2
    exact gradient_inv_congr h2 h
  · rw [hG] at h2
    exact gradient_inv_congr h2 (gradient_inv_refresh_gradient B X _)

theorem gradient_inv_gradient_control (B : Build) (X : Ext) (p : Nat) (z : ℚ) (m : Mixer)
    (h : gradient_inv m) : gradient_inv (gradient_control B X p z m) := by
  unfold gradient_control
  split
  · split
    · dsimp only
      split
      · exact gradient_inv_T B X _ m h
      · unfold gradient_inv
        simp
    · unfold gradient_inv at h ⊢
      exact h
  · exact h

theorem gradient_inv_refresh_random_mix (X : Ext) (m : Mixer) (h : gradient_inv m) :
    gradient_inv (refresh_random_mix X m) := by
  obtain ⟨_, h2, h3⟩ := refresh_random_mix_facts X m
  cases hr : (refresh_random_mix X m).random_mix.enabled
  · exact gradient_inv_congr (h3 hr) h
  · unfold gradient_inv
    intro hg
    rw [h2 hr] at hg
    exact absurd hg Bool.false_ne_true

/-- C7: `populate_block` writes, into the `MIXING_STEPPERS` components of the
block, the gradient's colour if the gradient is enabled, otherwise the random
controller's colour if random mix is enabled, otherwise the selected tool's
colour (the last two are the same palette row); the rest of `b_color` is not
touched. -/
theorem populate_block_source (B : Build) (m : Mixer) (b_color : Nat → Nat) (i : Nat) :
    populate_block B m b_color i =
      if i < B.MIXING_STEPPERS then
        (if m.gradient.enabled then m.gradient.color i
          else if m.random_mix.enabled then random_mix_color m i
          else m.color m.selected_vtool i)
      else b_color i := by
  unfold populate_block copy_steppers random_mix_color
  split_ifs <;> simp [*]

/-- C8: the array `populate_block` leaves in the block is a copy. Capturing
changes no member of the mixer, and after any sequence of producer-side
operations on the mixer the block still holds what `populate_block` computed
from the mixer as it was at the capture. -/
theorem snapshot_immutable (B : Build) (ops : List (Ext × producer_op)) (m : Mixer)
    (blk : block_t) :
    (capture B (m, blk)).1 = m ∧
      (produce B ops (capture B (m, blk))).2.b_color = (capture B (m, blk)).2.b_color ∧
      (produce B ops (capture B (m, blk))).2.b_color = populate_block B m blk.b_color :=
  ⟨rfl, rfl, rfl⟩

/-- C9: `refresh_gradient` leaves random mix disabled whenever it leaves the
gradient enabled, `refresh_random_mix` leaves the gradient disabled whenever
it leaves random mix enabled, and from a state with at most one mode enabled
`T`, `gradient_control`, `randommix_control` and every sequence of
producer-side operations lead to a state with at most one mode enabled. -/
theorem modes_mutually_exclusive (B : Build) (X : Ext) (m : Mixer) (c p : Nat) (z : ℚ)
    (ops : List (Ext × producer_op)) :
    ((refresh_gradient B X m).gradient.enabled = true →
        (refresh_gradient B X m).random_mix.enabled = false) ∧
      ((refresh_random_mix X m).random_mix.enabled = true →
        (refresh_random_mix X m).gradient.enabled = false) ∧
      (modes_exclusive m →
        modes_exclusive (T B X c m) ∧ modes_exclusive (gradient_control B X p z m) ∧
          modes_exclusive (randommix_control B X p z m) ∧ modes_exclusive (run_ops B ops m)) := by
  refine ⟨?_, (refresh_random_mix_facts X m).2.1, ?_⟩
  · intro hg
    have h := modes_exclusive_refresh_gradient B X m
    unfold modes_exclusive at h
    cases hr : (refresh_gradient B X m).random_mix.enabled
    · rfl
    · exact absurd ⟨hg, hr⟩ h
  · intro h
    exact ⟨modes_exclusive_T B X c m h, modes_exclusive_gradient_control B X p z m h,
      modes_exclusive_randommix_control B X p z m h, modes_exclusive_run_ops B ops m h⟩

/-- Witness of C9: the active gradient, through a tool change, both refreshes
and both height updates. -/
theorem modes_mutually_exclusive_witness :
    modes_exclusive mixer_gradient ∧
      modes_exclusive (T build3 ext_keep 1 mixer_gradient) ∧
      modes_exclusive (gradient_control build3 ext_keep 0 5 mixer_gradient) ∧
      modes_exclusive (randommix_control build3 ext_keep 0 5 mixer_gradient) ∧
      modes_exclusive (run_ops build3
        [(ext_keep, producer_op.refresh_random_mix), (ext_keep, producer_op.refresh_gradient),
          (ext_keep, producer_op.T 1), (ext_keep, producer_op.gradient_control 0 5)]
        mixer_gradient) :=
  ⟨by unfold modes_exclusive; decide,
    (modes_mutually_exclusive build3 ext_keep mixer_gradient 1 0 5
      [(ext_keep, producer_op.refresh_random_mix), (ext_keep, producer_op.refresh_gradient),
        (ext_keep, producer_op.T 1), (ext_keep, producer_op.gradient_control 0 5)]).2.2
      (by unfold modes_exclusive; decide)⟩

/-- C10: `refresh_gradient` establishes the gradient invariant (enabled only
if the two tools differ and `start_z < end_z`) from any state, and `T`,
`gradient_control` and `refresh_random_mix` keep it. -/
theorem gradient_invariant (B : Build) (X : Ext) (m : Mixer) (c p : Nat) (z : ℚ) :
    gradient_inv (refresh_gradient B X m) ∧
      (gradient_inv m →
        gradient_inv (T B X c m) ∧ gradient_inv (gradient_control B X p z m) ∧
          gradient_inv (refresh_random_mix X m)) :=
  ⟨gradient_inv_refresh_gradient B X m, fun h =>
    ⟨gradient_inv_T B X c m h, gradient_inv_gradient_control B X p z m h,
      gradient_inv_refresh_random_mix X m h⟩⟩

/-- Witness of C10: the active gradient from tool 0 to tool 1 over the heights
0 to 10. -/
theorem gradient_invariant_witness :
    gradient_inv mixer_gradient ∧ mixer_gradient.gradient.enabled = true ∧
      gradient_inv (T build3 ext_keep 1 mixer_gradient) ∧
      gradient_inv (gradient_control build3 ext_keep 0 5 mixer_gradient) ∧
      gradient_inv (refresh_random_mix ext_keep mixer_gradient) :=
  ⟨fun _ => ⟨by decide, by norm_num [mixer_gradient]⟩, rfl,
    (gradient_invariant build3 ext_keep mixer_gradient 1 0 5).2
      (fun _ => ⟨by decide, by norm_num [mixer_gradient]⟩)⟩

/-! ## Tool selection and the height updates -/

theorem int8_t_uint8_t {x : Int} (h1 : -128 ≤ x) (h2 : x ≤ 127) :
    int8_t (uint8_t x : Nat) = x := by
  unfold int8_t uint8_t
  omega

theorem refresh_gradient_color (B : Build) (X : Ext) (m : Mixer) :
    (refresh_gradient B X m).color = m.color := by
  unfold refresh_gradient
  dsimp only
  cases refresh_gradient_enabled B m
  · rfl
  · rfl

theorem T_color (B : Build) (X : Ext) (c : Nat) (m : Mixer) : (T B X c m).color = m.color := by
  unfold T
  dsimp only
  cases B.GRADIENT_VTOOL
  · rfl
  · exact refresh_gradient_color B X _

/-- C11, as stated, fails: in the build with two palette rows, `T (7)` is not
rejected: it changes `selected_vtool` from 0 to 7. -/
theorem T_out_of_range_counterexample :
    NR_MIXING_VIRTUAL_TOOLS build3 ≤ 7 ∧ mixer_idle.selected_vtool = 0 ∧
      (T build3 ext_keep 7 mixer_idle).selected_vtool = 7 := by
  decide

/-- C11, amended: `T` does not check the tool id. For every `c`, also beyond
the palette, `T (c)` stores `c`, converted to `int8_t`, in `selected_vtool`;
it leaves the palette as it was, and in the build without `GRADIENT_VTOOL`
also the gradient and the random mix. -/
theorem T_unchecked (B : Build) (X : Ext) (c : Nat) (m : Mixer) :
    (T B X c m).selected_vtool = int8_t c ∧ (T B X c m).color = m.color ∧
      (B.GRADIENT_VTOOL = false →
        (T B X c m).gradient = m.gradient ∧ (T B X c m).random_mix = m.random_mix) := by
  obtain ⟨h1, h2, h3⟩ := T_facts B X c m
  refine ⟨h1, T_color B X c m, ?_⟩
  intro hG
  rw [h2, h3, hG]
  exact ⟨rfl, rfl⟩

/-- Witness of C11, amended: tool id 7 in the build with two palette rows. -/
theorem T_unchecked_witness :
    build3.GRADIENT_VTOOL = false ∧
      (T build3 ext_keep 7 mixer_gradient).gradient = mixer_gradient.gradient ∧
      (T build3 ext_keep 7 mixer_gradient).random_mix = mixer_gradient.random_mix :=
  ⟨rfl, (T_unchecked build3 ext_keep 7 mixer_gradient).2.2 rfl⟩

/-- C12: in the build without `GRADIENT_VTOOL`, with the gradient enabled and
the print not paused, `gradient_control (z)` for `z ≥ gradient.end_z` selects
the end tool, disables the gradient and clears its tools and heights to 0; a
`populate_block` after it copies the palette row of the former end tool. -/
theorem gradient_collapse (B : Build) (X : Ext) (z : ℚ) (m : Mixer)
    (hG : B.GRADIENT_VTOOL = false) (hen : m.gradient.enabled = true)
    (hz : m.gradient.end_z ≤ z)
    (hlo : -128 ≤ m.gradient.end_vtool) (hhi : m.gradient.end_vtool ≤ 127) :
    (gradient_control B X 0 z m).selected_vtool = m.gradient.end_vtool ∧
      (gradient_control B X 0 z m).gradient.enabled = false ∧
      (gradient_control B X 0 z m).gradient.start_vtool = 0 ∧
      (gradient_control B X 0 z m).gradient.end_vtool = 0 ∧
      (gradient_control B X 0 z m).gradient.start_z = 0 ∧
      (gradient_control B X 0 z m).gradient.end_z = 0 ∧
      ∀ b_color, populate_block B (gradient_control B X 0 z m) b_color
        = copy_steppers B (m.color m.gradient.end_vtool) b_color := by
  have hT := T_facts B X (uint8_t m.gradient.end_vtool) m
  have hc := T_color B X (uint8_t m.gradient.end_vtool) m
  have he : gradient_control B X 0 z m =
      { T B X (uint8_t m.gradient.end_vtool) m with
        gradient :=
          { (T B X (uint8_t m.gradient.end_vtool) m).gradient with
            start_vtool := 0, end_vtool := 0, end_z := 0, start_z := 0, enabled := false } } := by
    unfold gradient_control
    simp [hen, hz, hG]
  rw [he]
  refine ⟨?_, rfl, rfl, rfl, rfl, rfl, ?_⟩
  · show (T B X (uint8_t m.gradient.end_vtool) m).selected_vtool = _
    rw [hT.1]
    exact int8_t_uint8_t hlo hhi
  · intro b_color
    unfold populate_block
    simp only [Bool.false_eq_true, if_false]
    show copy_steppers B ((T B X (uint8_t m.gradient.end_vtool) m).color
      (T B X (uint8_t m.gradient.end_vtool) m).selected_vtool) b_color = _
    rw [hc, hT.1, int8_t_uint8_t hlo hhi]

/-- Witness of C12: the gradient from tool 0 to tool 1 over the heights 0 to
10, at height 10. -/
theorem gradient_collapse_witness :
    mixer_gradient.gradient.enabled = true ∧ mixer_gradient.gradient.end_z ≤ (10 : ℚ) ∧
      (gradient_control build3 ext_keep 0 10 mixer_gradient).selected_vtool = 1 ∧
      (gradient_control build3 ext_keep 0 10 mixer_gradient).gradient.enabled = false :=
  ⟨rfl, by norm_num [mixer_gradient],
    (gradient_collapse build3 ext_keep 10 mixer_gradient rfl rfl
      (by norm_num [mixer_gradient]) (by decide) (by decide)).1,
    (gradient_collapse build3 ext_keep 10 mixer_gradient rfl rfl
      (by norm_num [mixer_gradient]) (by decide) (by decide)).2.1⟩

/-- C13: while the print is paused (`did_pause_print` not 0),
`gradient_control (z)` and `randommix_control (z)` leave the whole mixer as it
is, for every `z`. -/
theorem paused_no_update (B : Build) (X : Ext) (did_pause_print : Nat) (z : ℚ) (m : Mixer)
    (hp : did_pause_print ≠ 0) :
    gradient_control B X did_pause_print z m = m ∧
      randommix_control B X did_pause_print z m = m := by
  unfold gradient_control randommix_control
  simp [hp]

/-- Witness of C13: the active gradient, paused, at height 10. -/
theorem paused_no_update_witness :
    (1 : Nat) ≠ 0 ∧ gradient_control build3 ext_keep 1 10 mixer_gradient = mixer_gradient ∧
      randommix_control build3 ext_keep 1 10 mixer_random = mixer_random :=
  ⟨by decide, (paused_no_update build3 ext_keep 1 10 mixer_gradient (by decide)).1,
    (paused_no_update build3 ext_keep 1 10 mixer_random (by decide)).2⟩

/-- C14: `refresh_random_mix` leaves random mix enabled exactly when
`start_z < end_z`; when it enables, it selects tool 0, disables the gradient
with its heights at 0, runs the forced recomputation and leaves the sentinel
`-999.9` in `mix_prev_z`. -/
theorem refresh_random_mix_enablement (X : Ext) (m : Mixer) :
    ((refresh_random_mix X m).random_mix.enabled = true ↔
        m.random_mix.start_z < m.random_mix.end_z) ∧
      (m.random_mix.start_z < m.random_mix.end_z →
        (refresh_random_mix X m).selected_vtool = 0 ∧
        (refresh_random_mix X m).gradient.enabled = false ∧
        (refresh_random_mix X m).gradient.start_z = 0 ∧
        (refresh_random_mix X m).gradient.end_z = 0 ∧
        (refresh_random_mix X m).mix_prev_z = -9999 / 10 ∧
        refresh_random_mix X m =
          { update_randommix_for_planner_z X true
              { m with
                random_mix := { m.random_mix with enabled := true }
                selected_vtool := 0
                gradient :=
                  { m.gradient with
                    start_vtool := 0, end_vtool := 1, start_z := 0, end_z := 0,
                    enabled := false } } with
            mix_prev_z := -9999 / 10 }) := by
  constructor
  · rw [(refresh_random_mix_facts X m).1]
    simp
  · intro h
    have he : refresh_random_mix X m =
        { update_randommix_for_planner_z X true
            { m with
              random_mix := { m.random_mix with enabled := true }
              selected_vtool := 0
              gradient :=
                { m.gradient with
                  start_vtool := 0, end_vtool := 1, start_z := 0, end_z := 0,
                  enabled := false } } with
          mix_prev_z := -9999 / 10 } := by
      unfold refresh_random_mix
      simp [h]
    refine ⟨?_, ?_, ?_, ?_, ?_, he⟩ <;> rw [he] <;> rfl

/-- Witness of C14: a random mix configured over the heights 0 to 5. -/
theorem refresh_random_mix_enablement_witness :
    mixer_random.random_mix.start_z < mixer_random.random_mix.end_z ∧
      (refresh_random_mix ext_keep mixer_random).selected_vtool = 0 ∧
      (refresh_random_mix ext_keep mixer_random).gradient.enabled = false :=
  ⟨by norm_num [mixer_random],
    ((refresh_random_mix_enablement ext_keep mixer_random).2
      (by norm_num [mixer_random])).1,
    ((refresh_random_mix_enablement ext_keep mixer_random).2
      (by norm_num [mixer_random])).2.1⟩

/-- C15: with random mix enabled and the print not paused,
`randommix_control (z)` for `z > random_mix.end_z` disables random mix and
resets its configuration (heights 0, band height 0.2, `MIXING_STEPPERS`
extruders); every other member of the mixer stays. -/
theorem random_mix_self_disable (B : Build) (X : Ext) (z : ℚ) (m : Mixer)
    (hen : m.random_mix.enabled = true) (hz : m.random_mix.end_z < z) :
    randommix_control B X 0 z m =
      { m with random_mix := ⟨false, 0, 0, 2 / 10, B.MIXING_STEPPERS⟩ } := by
  unfold randommix_control
  simp [hen, not_le.mpr hz]

/-- Witness of C15: the random mix over the heights 0 to 5, at height 6. -/
theorem random_mix_self_disable_witness :
    mixer_random.random_mix.enabled = true ∧ mixer_random.random_mix.end_z < (6 : ℚ) ∧
      randommix_control build3 ext_keep 0 6 mixer_random =
        { mixer_random with random_mix := ⟨false, 0, 0, 2 / 10, build3.MIXING_STEPPERS⟩ } :=
  ⟨rfl, by norm_num [mixer_random],
    random_mix_self_disable build3 ext_keep 6 mixer_random rfl (by norm_num [mixer_random])⟩

/-! ## More on the pulse distributor -/

theorem scan_step_frame (B : Build) (m : Mixer) :
    (scan_step B m).1 =
      { m with runner := (scan_step B m).1.runner, accu := (scan_step B m).1.accu } := by
  unfold scan_step
  dsimp only
  split_ifs <;> rfl

theorem scan_step_congr (B : Build) {m1 m2 : Mixer} (hr : m1.runner = m2.runner)
    (hs : m1.s_color = m2.s_color) (ha : m1.accu = m2.accu) :
    (scan_step B m1).1.runner = (scan_step B m2).1.runner ∧
      (scan_step B m1).1.s_color = (scan_step B m2).1.s_color ∧
      (scan_step B m1).1.accu = (scan_step B m2).1.accu ∧
      (scan_step B m1).2 = (scan_step B m2).2 := by
  unfold scan_step
  dsimp only
  rw [hr, hs, ha]
  split_ifs <;> exact ⟨rfl, rfl, rfl, rfl⟩

theorem get_next_stepper_frame (B : Build) :
    ∀ (fuel : Nat) (m : Mixer) (i : Nat) (m1 : Mixer),
      get_next_stepper B fuel m = some (i, m1) →
        m1 = { m with runner := m1.runner, accu := m1.accu } := by
  intro fuel
  induction fuel with
  | zero =>
    intro m i m1 h
    simp [get_next_stepper] at h
  | succ f ih =>
    intro m i m1 h
    rw [get_next_stepper_succ] at h
    by_cases hc : (scan_step B m).2 = true
    · rw [if_pos hc] at h
      simp only [Option.some.injEq, Prod.mk.injEq] at h
      rw [← h.2]
      exact scan_step_frame B m
    · rw [if_neg hc] at h
      have h1 := ih _ i m1 h
      rw [h1, scan_step_frame B m]

theorem get_next_stepper_congr (B : Build) :
    ∀ (fuel : Nat) (m1 m2 : Mixer), m1.runner = m2.runner → m1.s_color = m2.s_color →
      m1.accu = m2.accu →
      (get_next_stepper B fuel m1).map (fun r => (r.1, r.2.runner, r.2.accu)) =
        (get_next_stepper B fuel m2).map (fun r => (r.1, r.2.runner, r.2.accu)) := by
  intro fuel
  induction fuel with
  | zero =>
    intro m1 m2 _ _ _
    rfl
  | succ f ih =>
    intro m1 m2 hr hs ha
    obtain ⟨g1, g2, g3, g4⟩ := scan_step_congr B hr hs ha
    rw [get_next_stepper_succ, get_next_stepper_succ, g4]
    by_cases hc : (scan_step B m2).2 = true
    · rw [if_pos hc, if_pos hc]
      simp only [Option.map_some', g1, g3]
    · rw [if_neg hc, if_neg hc]
      exact ih _ _ g1 g2 g3

/-- C19: `get_next_stepper` reads `runner`, `s_color` and `accu` only. On two
mixers that agree on these three it returns the same index and leaves the
same `runner` and `accu` (or returns on neither within the fuel), whatever
the palette, the selected tool, the percentages, the collector and the two
modes are; and it changes no member other than `runner` and `accu`. -/
theorem consumer_isolation (B : Build) (fuel : Nat) (m1 m2 : Mixer)
    (hr : m1.runner = m2.runner) (hs : m1.s_color = m2.s_color) (ha : m1.accu = m2.accu) :
    (get_next_stepper B fuel m1).map (fun r => (r.1, r.2.runner, r.2.accu)) =
        (get_next_stepper B fuel m2).map (fun r => (r.1, r.2.runner, r.2.accu)) ∧
      ∀ i m3, get_next_stepper B fuel m1 = some (i, m3) →
        m3 = { m1 with runner := m3.runner, accu := m3.accu } :=
  ⟨get_next_stepper_congr B fuel m1 m2 hr hs ha, get_next_stepper_frame B fuel m1⟩

/-- Witness of C19: two mixers in the same distributor state with different
palettes, percentages, selected tools and gradients. -/
theorem consumer_isolation_witness :
    mixer_busy3.runner = mixer_busy3_other.runner ∧
      mixer_busy3.color ≠ mixer_busy3_other.color ∧
      (get_next_stepper build3 3 mixer_busy3).map (fun r => (r.1, r.2.runner, r.2.accu)) =
        (get_next_stepper build3 3 mixer_busy3_other).map
          (fun r => (r.1, r.2.runner, r.2.accu)) :=
  ⟨rfl, fun h => absurd (congrFun (congrFun h 0) 0) (by decide),
    (consumer_isolation build3 3 mixer_busy3 mixer_busy3_other rfl rfl rfl).1⟩

/-- The accumulators after one pass that does not return. -/
theorem scan_step_accu_of_not_fired {B : Build} {m : Mixer} (hB : build_ok B)
    (hm : distributor_ok B m) (hw : weights_ok B m) (hc : (scan_step B m).2 = false) (i : Nat) :
    (scan_step B m).1.accu i =
      m.accu i + if prev_stepper B.MIXING_STEPPERS m.runner.toNat = i then m.s_color i else 0 := by
  obtain ⟨_, _, _, hoth, hacc, _⟩ := scan_step_facts hB hm hw
  rw [hc] at hacc
  by_cases hip : prev_stepper B.MIXING_STEPPERS m.runner.toNat = i
  · rw [if_pos hip]
    subst hip
    simpa using hacc
  · rw [if_neg hip, Nat.add_zero]
    exact hoth i (fun h => hip h.symm)

/-- A returning call, pass by pass: it makes `t` passes, none of the first
`t - 1` reaches a full component, the last one does on stepper `k`, and every
accumulator has taken its weight once per visit, less one full component for
`k`. -/
theorem get_next_stepper_trace {B : Build} (hB : build_ok B) :
    ∀ (fuel : Nat) (m : Mixer) (k : Nat) (m1 : Mixer),
      distributor_ok B m → weights_ok B m → get_next_stepper B fuel m = some (k, m1) →
        ∃ t, 1 ≤ t ∧ t ≤ fuel ∧ k = cursor_after B.MIXING_STEPPERS t m.runner.toNat ∧
          m1.runner = (k : Int) ∧
          (∀ s, 1 ≤ s → s < t →
            m.accu (cursor_after B.MIXING_STEPPERS s m.runner.toNat)
              + m.s_color (cursor_after B.MIXING_STEPPERS s m.runner.toNat)
                * visits B.MIXING_STEPPERS (cursor_after B.MIXING_STEPPERS s m.runner.toNat) s
                    m.runner.toNat
              < COLOR_A_MASK) ∧
          COLOR_A_MASK ≤ m.accu k + m.s_color k * visits B.MIXING_STEPPERS k t m.runner.toNat ∧
          ∀ i, m1.accu i + (if i = k then COLOR_A_MASK else 0)
            = m.accu i + m.s_color i * visits B.MIXING_STEPPERS i t m.runner.toNat := by
  intro fuel
  induction fuel with
  | zero =>
    intro m k m1 _ _ h
    simp [get_next_stepper] at h
  | succ f ih =>
    intro m k m1 hm hw h
    obtain ⟨hr, hs, hf, hoth, hacc, hok⟩ := scan_step_facts hB hm hw
    have hp : prev_stepper B.MIXING_STEPPERS m.runner.toNat < B.MIXING_STEPPERS :=
      prev_stepper_lt (by have := hm.1; have := hm.2.1; omega)
    rw [get_next_stepper_succ] at h
    by_cases hc : (scan_step B m).2 = true
    · rw [if_pos hc] at h
      simp only [Option.some.injEq, Prod.mk.injEq] at h
      obtain ⟨h1, h2⟩ := h
      subst h2
      rw [hr, uint8_t_index hB.1 hp] at h1
      subst h1
      refine ⟨1, Nat.le_refl 1, by omega, rfl, hr, ?_, ?_, ?_⟩
      · intro s h1 h2
        omega
      · simp only [visits, if_true, Nat.add_zero, Nat.mul_one]
        exact hf.mp hc
      · intro i
        simp only [visits, Nat.add_zero]
        rw [hc] at hacc
        by_cases hip : i = prev_stepper B.MIXING_STEPPERS m.runner.toNat
        · subst hip
          simp only [if_true, Nat.mul_one] at hacc ⊢
          exact hacc
        · rw [if_neg hip, if_neg (fun h => hip h.symm), hoth i hip]
          simp
    · rw [if_neg hc] at h
      have hcf : (scan_step B m).2 = false := by simpa using hc
      have hw1 : weights_ok B (scan_step B m).1 := by
        intro x hx
        rw [hs]
        exact hw x hx
      obtain ⟨t, t1, t2, t3, t4, t5, t6, t7⟩ := ih _ k m1 hok hw1 h
      rw [hr, Int.toNat_ofNat] at t3 t5 t6 t7
      rw [hs] at t5 t6 t7
      have hacc1 := scan_step_accu_of_not_fired hB hm hw hcf
      refine ⟨t + 1, by omega, by omega, t3, t4, ?_, ?_, ?_⟩
      · intro s s1 s2
        obtain ⟨s0, rfl⟩ : ∃ s0, s = s0 + 1 := ⟨s - 1, by omega⟩
        simp only [cursor_after, visits]
        by_cases h0 : s0 = 0
        · subst h0
          simp only [cursor_after, visits, if_true, Nat.add_zero, Nat.mul_one]
          have hnf : ¬ COLOR_A_MASK ≤
              m.accu (prev_stepper B.MIXING_STEPPERS m.runner.toNat)
                + m.s_color (prev_stepper B.MIXING_STEPPERS m.runner.toNat) :=
            fun hge => hc (hf.mpr hge)
          omega
        · have h5 := t5 s0 (by omega) (by omega)
          rw [hacc1] at h5
          by_cases hip : prev_stepper B.MIXING_STEPPERS m.runner.toNat
              = cursor_after B.MIXING_STEPPERS s0
                  (prev_stepper B.MIXING_STEPPERS m.runner.toNat)
          · rw [if_pos hip] at h5 ⊢
            rw [Nat.mul_add, Nat.mul_one]
            omega
          · rw [if_neg hip] at h5 ⊢
            rw [Nat.zero_add]
            omega
      · simp only [visits]
        rw [hacc1] at t6
        by_cases hip : prev_stepper B.MIXING_STEPPERS m.runner.toNat = k
        · rw [if_pos hip] at t6 ⊢
          rw [Nat.mul_add, Nat.mul_one]
          omega
        · rw [if_neg hip] at t6 ⊢
          rw [Nat.zero_add]
          omega
      · intro i
        simp only [visits]
        have h7 := t7 i
        rw [hacc1] at h7
        by_cases hip : prev_stepper B.MIXING_STEPPERS m.runner.toNat = i
        · rw [if_pos hip] at h7 ⊢
          rw [Nat.mul_add, Nat.mul_one]
          omega
        · rw [if_neg hip] at h7 ⊢
          rw [Nat.zero_add]
          omega

/-- With a non-zero weight among weights of at most a full component, a call
returns within `MIXING_STEPPERS * COLOR_A_MASK` passes. -/
theorem get_next_stepper_returns_of_weight {B : Build} {m : Mixer} (hB : build_ok B)
    (hm : distributor_ok B m) (hw : weights_ok B m) {j : Nat} (hj : j < B.MIXING_STEPPERS)
    (hne : m.s_color j ≠ 0) :
    ∃ r, get_next_stepper B (B.MIXING_STEPPERS * COLOR_A_MASK) m = some r := by
  apply get_next_stepper_of_passes
  intro h
  have hc := (period_passes hB hm hw).1 j hj
  rw [h] at hc
  simp only [List.count_nil] at hc
  exact hne hc.symm

/-- C21: one call of `get_next_stepper` from cursor `r`, on a valid state with
weights of at most `COLOR_A_MASK`. A call that returns `k` has made `t ≥ 1`
passes over the steppers `r - 1, r - 2, ...` (wrapping from 0 to
`MIXING_STEPPERS - 1`), adding the weight to the accumulator at each visit;
no visit before the last reached `COLOR_A_MASK`, the last one, of `k`, did;
`accu k` holds the sum less `COLOR_A_MASK`, every other accumulator its sum
(unchanged if not visited), `runner` is `k`, and no other member changed.
With a non-zero weight the call does return. -/
theorem single_step_semantics (B : Build) (m : Mixer) (hB : build_ok B)
    (hm : distributor_ok B m) (hw : weights_ok B m) :
    (∀ fuel k m1, get_next_stepper B fuel m = some (k, m1) →
      ∃ t, 1 ≤ t ∧ t ≤ fuel ∧ k = cursor_after B.MIXING_STEPPERS t m.runner.toNat ∧
        m1.runner = (k : Int) ∧
        (∀ s, 1 ≤ s → s < t →
          m.accu (cursor_after B.MIXING_STEPPERS s m.runner.toNat)
            + m.s_color (cursor_after B.MIXING_STEPPERS s m.runner.toNat)
              * visits B.MIXING_STEPPERS (cursor_after B.MIXING_STEPPERS s m.runner.toNat) s
                  m.runner.toNat
            < COLOR_A_MASK) ∧
        COLOR_A_MASK ≤ m.accu k + m.s_color k * visits B.MIXING_STEPPERS k t m.runner.toNat ∧
        (∀ i, m1.accu i + (if i = k then COLOR_A_MASK else 0)
          = m.accu i + m.s_color i * visits B.MIXING_STEPPERS i t m.runner.toNat) ∧
        m1 = { m with runner := m1.runner, accu := m1.accu }) ∧
    ((∃ j, j < B.MIXING_STEPPERS ∧ m.s_color j ≠ 0) →
      ∃ k m1, get_next_stepper B (B.MIXING_STEPPERS * COLOR_A_MASK) m = some (k, m1)) := by
  constructor
  · intro fuel k m1 h
    obtain ⟨t, t1, t2, t3, t4, t5, t6, t7⟩ := get_next_stepper_trace hB fuel m k m1 hm hw h
    exact ⟨t, t1, t2, t3, t4, t5, t6, t7, get_next_stepper_frame B fuel m k m1 h⟩
  · rintro ⟨j, hj, hne⟩
    obtain ⟨⟨k, m1⟩, h⟩ := get_next_stepper_returns_of_weight hB hm hw hj hne
    exact ⟨k, m1, h⟩

/-- Witness of C21: the mid-run state with weights `[0x8000, 0x4000, 0]` and
cursor 1: the call visits stepper 0 and returns it. -/
theorem single_step_semantics_witness :
    build_ok build3 ∧ distributor_ok build3 mixer_busy3 ∧ weights_ok build3 mixer_busy3 ∧
      (get_next_stepper build3 3 mixer_busy3).map Prod.fst = some 0 ∧
      ∃ k m1, get_next_stepper build3 (build3.MIXING_STEPPERS * COLOR_A_MASK) mixer_busy3
        = some (k, m1) :=
  ⟨by unfold build_ok; decide, by unfold distributor_ok; decide, by unfold weights_ok; decide,
    by decide,
    (single_step_semantics build3 mixer_busy3 (by unfold build_ok; decide)
      (by unfold distributor_ok; decide) (by unfold weights_ok; decide)).2
      ⟨0, by decide, by decide⟩⟩

/-- C28: the distributor invariant (cursor a stepper index, accumulators
below `COLOR_A_MASK`, weights at most `COLOR_A_MASK`) holds after every
returning call of `get_next_stepper`, whose result is the new `runner`, the
value `get_stepper` then reports; and after `stepper_setup` with a colour of
components at most `COLOR_A_MASK`, which leaves `runner` and `accu` as they
are. -/
theorem distributor_invariant (B : Build) (m : Mixer) (b_color : Nat → Nat) (hB : build_ok B)
    (hm : distributor_ok B m) (hw : weights_ok B m) :
    (∀ fuel i m1, get_next_stepper B fuel m = some (i, m1) →
      distributor_ok B m1 ∧ weights_ok B m1 ∧ m1.runner = (i : Int) ∧ get_stepper m1 = i) ∧
    ((∀ i, i < B.MIXING_STEPPERS → b_color i ≤ COLOR_A_MASK) →
      distributor_ok B (stepper_setup B b_color m) ∧ weights_ok B (stepper_setup B b_color m) ∧
        (stepper_setup B b_color m).runner = m.runner ∧
        (stepper_setup B b_color m).accu = m.accu) := by
  constructor
  · intro fuel i m1 h
    obtain ⟨g1, g2, g3, g4⟩ := get_next_stepper_ok hB fuel m i m1 hm hw h
    refine ⟨g1, ?_, g4, ?_⟩
    · intro x hx
      rw [g2]
      exact hw x hx
    · unfold get_stepper
      rw [g4]
      exact uint8_t_index hB.1 g3
  · intro hb
    refine ⟨hm, ?_, rfl, rfl⟩
    intro i hi
    show copy_steppers B b_color m.s_color i ≤ COLOR_A_MASK
    unfold copy_steppers
    rw [if_pos hi]
    exact hb i hi

/-- Witness of C28: the mid-run state, and a block colour of full components. -/
theorem distributor_invariant_witness :
    build_ok build3 ∧ distributor_ok build3 mixer_busy3 ∧ weights_ok build3 mixer_busy3 ∧
      distributor_ok build3 (stepper_setup build3 (fun _ => 0x8000) mixer_busy3) ∧
      weights_ok build3 (stepper_setup build3 (fun _ => 0x8000) mixer_busy3) :=
  ⟨by unfold build_ok; decide, by unfold distributor_ok; decide, by unfold weights_ok; decide,
    ((distributor_invariant build3 mixer_busy3 (fun _ => 0x8000) (by unfold build_ok; decide)
      (by unfold distributor_ok; decide) (by unfold weights_ok; decide)).2
      (fun _ _ => by decide)).1,
    ((distributor_invariant build3 mixer_busy3 (fun _ => 0x8000) (by unfold build_ok; decide)
      (by unfold distributor_ok; decide) (by unfold weights_ok; decide)).2
      (fun _ _ => by decide)).2.1⟩

theorem get_next_stepper_none_of_zero {B : Build} (hB : build_ok B) :
    ∀ (fuel : Nat) (m : Mixer), distributor_ok B m →
      (∀ i, i < B.MIXING_STEPPERS → m.s_color i = 0) → get_next_stepper B fuel m = none := by
  intro fuel
  induction fuel with
  | zero =>
    intro m _ _
    rfl
  | succ f ih =>
    intro m hm hz
    have hw : weights_ok B m := by
      intro i hi
      rw [hz i hi]
      exact Nat.zero_le _
    obtain ⟨_, hs, hf, _, _, hok⟩ := scan_step_facts hB hm hw
    have hp : prev_stepper B.MIXING_STEPPERS m.runner.toNat < B.MIXING_STEPPERS :=
      prev_stepper_lt (by have := hm.1; have := hm.2.1; omega)
    have hc : ¬ (scan_step B m).2 = true := by
      rw [hf, hz _ hp]
      have := hm.2.2 _ hp
      omega
    rw [get_next_stepper_succ, if_neg hc]
    exact ih _ hok (by rw [hs]; exact hz)

/-- C29: from a valid distributor state, `get_next_stepper` never returns
when every weight is 0, whatever the number of passes allowed; and with
weights of at most `COLOR_A_MASK` and `s_color k > 0` it returns within
`MIXING_STEPPERS * ceil (COLOR_A_MASK / s_color k)` passes. -/
theorem returns_iff_weight (B : Build) (m : Mixer) (hB : build_ok B) (hm : distributor_ok B m) :
    ((∀ i, i < B.MIXING_STEPPERS → m.s_color i = 0) →
      ∀ fuel, get_next_stepper B fuel m = none) ∧
    (weights_ok B m → ∀ k, k < B.MIXING_STEPPERS → 0 < m.s_color k →
      ∃ r, get_next_stepper B
        (B.MIXING_STEPPERS * ((COLOR_A_MASK + m.s_color k - 1) / m.s_color k)) m = some r) := by
  constructor
  · intro hz fuel
    exact get_next_stepper_none_of_zero hB fuel m hm hz
  · intro hw k hk hpos
    apply get_next_stepper_of_passes
    obtain ⟨h1, _, _, _, h5⟩ := passes_conserve hB
      (B.MIXING_STEPPERS * ((COLOR_A_MASK + m.s_color k - 1) / m.s_color k)) m hm hw
    have hr : m.runner.toNat < B.MIXING_STEPPERS := by
      have := hm.1
      have := hm.2.1
      omega
    have h := h5 k hk
    rw [(visits_rounds hr hk _).2] at h
    have a1 := h1.2.2 k hk
    intro hnil
    rw [hnil] at h
    simp only [List.count_nil, Nat.mul_zero, Nat.add_zero] at h
    have hdiv : COLOR_A_MASK ≤
        m.s_color k * ((COLOR_A_MASK + m.s_color k - 1) / m.s_color k) := by
      have h2 := Nat.div_add_mod (COLOR_A_MASK + m.s_color k - 1) (m.s_color k)
      have h3 := Nat.mod_lt (COLOR_A_MASK + m.s_color k - 1) hpos
      omega
    omega

/-- Witness of C29: no weight, and the weights `[0x8000, 0x4000, 0]` with
`k = 1`. -/
theorem returns_iff_weight_witness :
    build_ok build3 ∧ distributor_ok build3 mixer_idle ∧
      (∀ fuel, get_next_stepper build3 fuel mixer_idle = none) ∧
      ∃ r, get_next_stepper build3 (3 * ((COLOR_A_MASK + 0x4000 - 1) / 0x4000)) mixer_busy3
        = some r :=
  ⟨by unfold build_ok; decide, by unfold distributor_ok; decide,
    (returns_iff_weight build3 mixer_idle (by unfold build_ok; decide)
      (by unfold distributor_ok; decide)).1 (fun _ _ => rfl),
    (returns_iff_weight build3 mixer_busy3 (by unfold build_ok; decide)
      (by unfold distributor_ok; decide)).2 (by unfold weights_ok; decide) 1 (by decide)
      (by decide)⟩

/-- C18, at a failing input: in the build with two hundred user tools, which
the `static_assert` admits, `T (150)` leaves -106 in the `int8_t`
`selected_vtool`, not 150, while `get_current_vtool` reports 150. -/
theorem T_wraps_tool_id :
    NR_MIXING_VIRTUAL_TOOLS build200 ≤ MAX_VTOOLS build200 ∧
      150 < NR_MIXING_VIRTUAL_TOOLS build200 ∧
      (T build200 ext_keep 150 mixer_idle).selected_vtool = -106 ∧
      get_current_vtool (T build200 ext_keep 150 mixer_idle) = 150 := by
  decide

/-- C30, at a failing input: in the build with two hundred user tools, which
the `static_assert` admits, after `T (200)` the `int8_t` `selected_vtool`
holds -56, and `populate_block`, the gradient being disabled, copies the row
`color[-56]` and not `color[200]`. -/
theorem populate_block_wrong_row :
    NR_MIXING_VIRTUAL_TOOLS build200 ≤ MAX_VTOOLS build200 ∧
      200 < NR_MIXING_VIRTUAL_TOOLS build200 ∧
      (T build200 ext_keep 200 mixer_palette200).selected_vtool = -56 ∧
      (T build200 ext_keep 200 mixer_palette200).gradient.enabled = false ∧
      populate_block build200 (T build200 ext_keep 200 mixer_palette200) (fun _ => 7) 0
        = mixer_palette200.color (-56) 0 ∧
      mixer_palette200.color (-56) 0 = 0 ∧ mixer_palette200.color 200 0 = 0x8000 := by
  decide

/-! ## The narrow accumulator, the pinned gradient and the mode configuration -/

theorem mask_test_avr (s : Nat) (h : s < 256) : (s &&& COLOR_A_MASK_AVR ≠ 0) ↔ 128 ≤ s := by
  have e : COLOR_A_MASK_AVR = 2 ^ 7 := by norm_num [COLOR_A_MASK_AVR]
  rw [e, Nat.and_two_pow, Nat.testBit_to_div_mod]
  by_cases hc : s / 2 ^ 7 % 2 = 1
  · simp [hc]; omega
  · simp [hc]; omega

theorem mask_rem_avr (s : Nat) : s &&& COLOR_MASK_AVR = s % 128 := by
  have := Nat.and_pow_two_sub_one_eq_mod s 7
  simpa [COLOR_MASK_AVR] using this

/-- C22: the accumulator step of the AVR branch is arithmetic modulo 128. For
an accumulator `a` in 0..127 and a weight `w` in 0..128 the `int8_t` sum is
negative exactly when `a + w ≥ 128`, the step leaves `(a + w) mod 128` and
fires exactly then; this is the step in the words of the spec, and the step
of the non-AVR branch with the masks `0x80` and `0x7F`. -/
theorem avr_step_is_modulo (bits a w : Nat) (hb : 8 ≤ bits) (ha : a < 128) (hw : w ≤ 128) :
    (int8_t ((a : Int) + (w : Nat)) < 0 ↔ 128 ≤ a + w) ∧
      accu_step_avr (a : Int) w
        = (((accu_step_modulo 128 a w).1 : Int), (accu_step_modulo 128 a w).2) ∧
      accu_step_wide bits COLOR_A_MASK_AVR COLOR_MASK_AVR a w = accu_step_modulo 128 a w := by
  have hneg : int8_t ((a : Int) + (w : Nat)) < 0 ↔ 128 ≤ a + w := by
    unfold int8_t
    omega
  have hpow : 256 ≤ 2 ^ bits := by
    calc (256 : Nat) = 2 ^ 8 := by norm_num
      _ ≤ 2 ^ bits := Nat.pow_le_pow_right (by norm_num) hb
  refine ⟨hneg, ?_, ?_⟩
  · unfold accu_step_avr accu_step_modulo
    by_cases hc : 128 ≤ a + w
    · rw [if_pos (hneg.mpr hc), mask_rem_avr]
      have hu : uint8_t (int8_t ((a : Int) + (w : Nat))) = a + w := by
        unfold uint8_t int8_t
        omega
      rw [hu]
      simp [hc]
    · rw [if_neg (fun h => hc (hneg.mp h))]
      have hi : int8_t ((a : Int) + (w : Nat)) = ((a + w) % 128 : Nat) := by
        unfold int8_t
        omega
      rw [hi]
      simp [hc]
  · unfold accu_step_wide accu_step_modulo
    rw [Nat.mod_eq_of_lt (show a + w < 2 ^ bits by omega)]
    have ht := mask_test_avr (a + w) (by omega)
    by_cases hc : 128 ≤ a + w
    · rw [if_pos (ht.mpr hc), mask_rem_avr]
      simp [hc]
    · rw [if_neg (fun h => hc (ht.mp h))]
      have : (a + w) % 128 = a + w := Nat.mod_eq_of_lt (by omega)
      rw [this]
      simp [hc]

/-- Witness of C22: accumulator 100 and weight 64. -/
theorem avr_step_is_modulo_witness :
    accu_step_avr 100 64 = (36, true) ∧
      accu_step_wide 16 COLOR_A_MASK_AVR COLOR_MASK_AVR 100 64 = accu_step_modulo 128 100 64 :=
  ⟨by decide, (avr_step_is_modulo 16 100 64 (by decide) (by decide) (by decide)).2.2⟩

theorem refresh_gradient_vtool_index (B : Build) (X : Ext) (m : Mixer) :
    (refresh_gradient B X m).gradient.vtool_index = m.gradient.vtool_index := by
  unfold refresh_gradient
  dsimp only
  cases refresh_gradient_enabled B m
  · rfl
  · rfl

/-- The value `refresh_gradient` stores in `gradient.enabled` in the build
with `GRADIENT_VTOOL`, for a pin that is -1 or a tool id. -/
theorem refresh_gradient_enabled_pinned (B : Build) (m : Mixer)
    (hG : B.GRADIENT_VTOOL = true) (h1 : -1 ≤ m.gradient.vtool_index)
    (h2 : m.gradient.vtool_index ≤ 127) :
    refresh_gradient_enabled B m = true ↔
      (m.gradient.vtool_index = -1 ∨ m.selected_vtool = m.gradient.vtool_index) ∧
        m.gradient.start_vtool ≠ m.gradient.end_vtool ∧
        m.gradient.start_z < m.gradient.end_z := by
  unfold refresh_gradient_enabled
  simp only [hG, if_true, Bool.and_eq_true, Bool.or_eq_true, beq_iff_eq, bne_iff_ne,
    decide_eq_true_eq, and_assoc]
  have hu : m.gradient.vtool_index ≠ -1 →
      ((uint8_t m.gradient.vtool_index : Nat) : Int) = m.gradient.vtool_index := by
    intro hne
    unfold uint8_t
    omega
  constructor
  · rintro ⟨h | h, h3, h4⟩
    · exact ⟨Or.inl h, h3, h4⟩
    · by_cases hne : m.gradient.vtool_index = -1
      · exact ⟨Or.inl hne, h3, h4⟩
      · exact ⟨Or.inr (by rw [h, hu hne]), h3, h4⟩
  · rintro ⟨h | h, h3, h4⟩
    · exact ⟨Or.inl h, h3, h4⟩
    · by_cases hne : m.gradient.vtool_index = -1
      · exact ⟨Or.inl hne, h3, h4⟩
      · exact ⟨Or.inr (by rw [hu hne]; exact h), h3, h4⟩

/-- Scoping of the pinned gradient for the pins an `int8_t` holds as
themselves: in the build with `GRADIENT_VTOOL`, for a pin `vtool_index` that is
-1 or a tool id from 0 to 127, after `refresh_gradient`, and after `T (c)`,
the gradient is enabled exactly when the pin is -1 or the selected tool is the
pinned one, the two tools differ and `start_z < end_z`. -/
theorem pinned_gradient_scoping (B : Build) (X : Ext) (m : Mixer) (c : Nat)
    (hG : B.GRADIENT_VTOOL = true) (h1 : -1 ≤ m.gradient.vtool_index)
    (h2 : m.gradient.vtool_index ≤ 127) :
    ((refresh_gradient B X m).gradient.enabled = true ↔
      ((refresh_gradient B X m).gradient.vtool_index = -1 ∨
          (refresh_gradient B X m).selected_vtool
            = (refresh_gradient B X m).gradient.vtool_index) ∧
        (refresh_gradient B X m).gradient.start_vtool
          ≠ (refresh_gradient B X m).gradient.end_vtool ∧
        (refresh_gradient B X m).gradient.start_z < (refresh_gradient B X m).gradient.end_z) ∧
    ((T B X c m).gradient.enabled = true ↔
      ((T B X c m).gradient.vtool_index = -1 ∨
          (T B X c m).selected_vtool = (T B X c m).gradient.vtool_index) ∧
        (T B X c m).gradient.start_vtool ≠ (T B X c m).gradient.end_vtool ∧
        (T B X c m).gradient.start_z < (T B X c m).gradient.end_z) := by
  have key : ∀ m0 : Mixer, -1 ≤ m0.gradient.vtool_index → m0.gradient.vtool_index ≤ 127 →
      ((refresh_gradient B X m0).gradient.enabled = true ↔
        ((refresh_gradient B X m0).gradient.vtool_index = -1 ∨
            (refresh_gradient B X m0).selected_vtool
              = (refresh_gradient B X m0).gradient.vtool_index) ∧
          (refresh_gradient B X m0).gradient.start_vtool
            ≠ (refresh_gradient B X m0).gradient.end_vtool ∧
          (refresh_gradient B X m0).gradient.start_z
            < (refresh_gradient B X m0).gradient.end_z) := by
    intro m0 a1 a2
    obtain ⟨g1, g2, g3, g4, g5, g6, _⟩ := refresh_gradient_facts B X m0
    rw [g1, g2, g3, g4, g5, g6, refresh_gradient_vtool_index]
    exact refresh_gradient_enabled_pinned B m0 hG a1 a2
  refine ⟨key m h1 h2, ?_⟩
  obtain ⟨t1, t2, _⟩ := T_facts B X c m
  rw [hG] at t2
  simp only [if_true] at t2
  have hsel : (T B X c m).selected_vtool
      = (refresh_gradient B X { m with selected_vtool := int8_t c }).selected_vtool := by
    rw [t1, (refresh_gradient_facts B X _).2.2.2.2.2.1]
  rw [t2, hsel]
  exact key { m with selected_vtool := int8_t c } h1 h2

/-- The scoping at the gradient from tool 0 to tool 1 pinned to tool 1. -/
theorem pinned_gradient_scoping_witness :
    build3_pinned.GRADIENT_VTOOL = true ∧ -1 ≤ mixer_pinned.gradient.vtool_index ∧
      ((T build3_pinned ext_keep 1 mixer_pinned).gradient.enabled = true ↔
        ((T build3_pinned ext_keep 1 mixer_pinned).gradient.vtool_index = -1 ∨
            (T build3_pinned ext_keep 1 mixer_pinned).selected_vtool
              = (T build3_pinned ext_keep 1 mixer_pinned).gradient.vtool_index) ∧
          (T build3_pinned ext_keep 1 mixer_pinned).gradient.start_vtool
            ≠ (T build3_pinned ext_keep 1 mixer_pinned).gradient.end_vtool ∧
          (T build3_pinned ext_keep 1 mixer_pinned).gradient.start_z
            < (T build3_pinned ext_keep 1 mixer_pinned).gradient.end_z) :=
  ⟨rfl, by decide,
    (pinned_gradient_scoping build3_pinned ext_keep mixer_pinned 1 rfl (by decide)
      (by decide)).2⟩

/-- C23, at a failing input: in the build with two hundred user tools and
`GRADIENT_VTOOL`, which the `static_assert` admits, with the gradient pinned to
tool 200, `T (200)` leaves the selected tool equal to the pin (both `int8_t`
members hold -56), the two tools different and `start_z < end_z`, and the
gradient disabled: `refresh_gradient` compares -56 with
`(uint8_t) vtool_index = 200`. -/
theorem pinned_gradient_never_matches :
    NR_MIXING_VIRTUAL_TOOLS build200_pinned ≤ MAX_VTOOLS build200_pinned ∧
      200 < NR_MIXING_VIRTUAL_TOOLS build200_pinned ∧
      mixer_pinned200.gradient.vtool_index = -56 ∧
      (T build200_pinned ext_keep 200 mixer_pinned200).selected_vtool = -56 ∧
      (T build200_pinned ext_keep 200 mixer_pinned200).selected_vtool
        = (T build200_pinned ext_keep 200 mixer_pinned200).gradient.vtool_index ∧
      (uint8_t (T build200_pinned ext_keep 200 mixer_pinned200).gradient.vtool_index : Int) = 200 ∧
      (T build200_pinned ext_keep 200 mixer_pinned200).gradient.start_vtool
        ≠ (T build200_pinned ext_keep 200 mixer_pinned200).gradient.end_vtool ∧
      (T build200_pinned ext_keep 200 mixer_pinned200).gradient.start_z
        < (T build200_pinned ext_keep 200 mixer_pinned200).gradient.end_z ∧
      (T build200_pinned ext_keep 200 mixer_pinned200).gradient.enabled = false := by
  decide

/-- C24: in the build with `GRADIENT_VTOOL`, for a gradient that is enabled
(between two different tools, over a non-empty height range), with the print
not paused and `z ≥ gradient.end_z`, `gradient_control (z)` selects the end
tool and leaves the gradient's heights, tools and pin as they are; when the
pin is -1 or the end tool, the gradient stays enabled and `populate_block`
goes on copying `gradient.color`. -/
theorem persistent_gradient_slot (B : Build) (X : Ext) (z : ℚ) (m : Mixer)
    (hG : B.GRADIENT_VTOOL = true) (hen : m.gradient.enabled = true) (hinv : gradient_inv m)
    (hz : m.gradient.end_z ≤ z)
    (hlo : -128 ≤ m.gradient.end_vtool) (hhi : m.gradient.end_vtool ≤ 127)
    (h1 : -1 ≤ m.gradient.vtool_index) (h2 : m.gradient.vtool_index ≤ 127) :
    (gradient_control B X 0 z m).selected_vtool = m.gradient.end_vtool ∧
      (gradient_control B X 0 z m).gradient.start_z = m.gradient.start_z ∧
      (gradient_control B X 0 z m).gradient.end_z = m.gradient.end_z ∧
      (gradient_control B X 0 z m).gradient.start_vtool = m.gradient.start_vtool ∧
      (gradient_control B X 0 z m).gradient.end_vtool = m.gradient.end_vtool ∧
      (gradient_control B X 0 z m).gradient.vtool_index = m.gradient.vtool_index ∧
      (m.gradient.vtool_index = -1 ∨ m.gradient.vtool_index = m.gradient.end_vtool →
        (gradient_control B X 0 z m).gradient.enabled = true ∧
        ∀ b_color, populate_block B (gradient_control B X 0 z m) b_color
          = copy_steppers B (gradient_control B X 0 z m).gradient.color b_color) := by
  have he : gradient_control B X 0 z m = T B X (uint8_t m.gradient.end_vtool) m := by
    unfold gradient_control
    simp [hen, hz, hG]
  obtain ⟨t1, t2, _⟩ := T_facts B X (uint8_t m.gradient.end_vtool) m
  rw [hG] at t2
  simp only [if_true] at t2
  rw [int8_t_uint8_t hlo hhi] at t1 t2
  obtain ⟨g1, g2, g3, g4, g5, _, _⟩ :=
    refresh_gradient_facts B X { m with selected_vtool := m.gradient.end_vtool }
  have g6 := refresh_gradient_vtool_index B X { m with selected_vtool := m.gradient.end_vtool }
  rw [he, t1, t2, g2, g3, g4, g5, g6]
  refine ⟨rfl, rfl, rfl, rfl, rfl, rfl, ?_⟩
  intro hpin
  have hon : (refresh_gradient B X { m with selected_vtool := m.gradient.end_vtool }).gradient.enabled
      = true := by
    rw [g1]
    apply (refresh_gradient_enabled_pinned B
      { m with selected_vtool := m.gradient.end_vtool } hG h1 h2).mpr
    obtain ⟨i1, i2⟩ := hinv hen
    refine ⟨?_, i1, i2⟩
    rcases hpin with h | h
    · exact Or.inl h
    · exact Or.inr h.symm
  refine ⟨hon, ?_⟩
  intro b_color
  unfold populate_block
  rw [t2, hon, if_pos rfl]

/-- Witness of C24: the gradient from tool 0 to tool 1 pinned to tool 1, at
height 10. -/
theorem persistent_gradient_slot_witness :
    build3_pinned.GRADIENT_VTOOL = true ∧ mixer_pinned.gradient.enabled = true ∧
      mixer_pinned.gradient.end_z ≤ (10 : ℚ) ∧
      (gradient_control build3_pinned ext_keep 0 10 mixer_pinned).selected_vtool = 1 ∧
      (gradient_control build3_pinned ext_keep 0 10 mixer_pinned).gradient.enabled = true :=
  ⟨rfl, rfl, by norm_num [mixer_pinned, mixer_gradient],
    (persistent_gradient_slot build3_pinned ext_keep 10 mixer_pinned rfl rfl
      (fun _ => ⟨by decide, by norm_num [mixer_pinned, mixer_gradient]⟩)
      (by norm_num [mixer_pinned, mixer_gradient]) (by decide) (by decide) (by decide)
      (by decide)).1,
    ((persistent_gradient_slot build3_pinned ext_keep 10 mixer_pinned rfl rfl
      (fun _ => ⟨by decide, by norm_num [mixer_pinned, mixer_gradient]⟩)
      (by norm_num [mixer_pinned, mixer_gradient]) (by decide) (by decide) (by decide)
      (by decide)).2.2.2.2.2.2 (Or.inr rfl)).1⟩

/-- C25: whenever `refresh_gradient` leaves the gradient enabled, on return
`gradient.start_mix` holds the percentages `update_mix_from_vtool` computes
for the start tool, `gradient.end_mix` those it then computes for the end
tool, and `mix_prev_z` the sentinel `-999.9`. -/
theorem refresh_gradient_caches (B : Build) (X : Ext) (m : Mixer)
    (h : (refresh_gradient B X m).gradient.enabled = true) :
    (∀ i, i < B.MIXING_STEPPERS →
      (refresh_gradient B X m).gradient.start_mix i
        = (update_mix_from_vtool B X (uint8_t m.gradient.start_vtool) m).percentmix i) ∧
    (∀ i, i < B.MIXING_STEPPERS →
      (refresh_gradient B X m).gradient.end_mix i
        = (update_mix_from_vtool B X (uint8_t m.gradient.end_vtool)
            (update_mix_from_vtool B X (uint8_t m.gradient.start_vtool) m)).percentmix i) ∧
    (refresh_gradient B X m).mix_prev_z = -9999 / 10 := by
  have hen : refresh_gradient_enabled B m = true := by
    rw [← (refresh_gradient_facts B X m).1]
    exact h
  unfold refresh_gradient
  dsimp only
  rw [hen, if_pos rfl]
  refine ⟨?_, ?_, rfl⟩
  · intro i hi
    show copy_steppers B _ _ i = _
    unfold copy_steppers
    rw [if_pos hi]
    rfl
  · intro i hi
    show copy_steppers B _ _ i = _
    unfold copy_steppers
    rw [if_pos hi]
    rfl

/-- Witness of C25: the gradient from tool 0 to tool 1 over the heights 0 to
10, refreshed. -/
theorem refresh_gradient_caches_witness :
    (refresh_gradient build3 ext_keep mixer_gradient).gradient.enabled = true ∧
      (refresh_gradient build3 ext_keep mixer_gradient).mix_prev_z = -9999 / 10 :=
  ⟨by
      rw [(refresh_gradient_facts build3 ext_keep mixer_gradient).1]
      norm_num [refresh_gradient_enabled, mixer_gradient, build3],
    (refresh_gradient_caches build3 ext_keep mixer_gradient (by
      rw [(refresh_gradient_facts build3 ext_keep mixer_gradient).1]
      norm_num [refresh_gradient_enabled, mixer_gradient, build3])).2.2⟩

/-- C26: an invalid configuration is absorbed. `refresh_gradient` with equal
tools or `start_z ≥ end_z` only stores `false` in `gradient.enabled`, and
`refresh_random_mix` with `start_z ≥ end_z` only stores `false` in
`random_mix.enabled`; no other member of the mixer changes. -/
theorem invalid_config_absorbed (B : Build) (X : Ext) (m : Mixer) :
    (m.gradient.start_vtool = m.gradient.end_vtool ∨ m.gradient.end_z ≤ m.gradient.start_z →
      refresh_gradient B X m = { m with gradient := { m.gradient with enabled := false } }) ∧
    (m.random_mix.end_z ≤ m.random_mix.start_z →
      refresh_random_mix X m
        = { m with random_mix := { m.random_mix with enabled := false } }) := by
  constructor
  · intro h
    have hen : refresh_gradient_enabled B m = false := by
      unfold refresh_gradient_enabled
      rcases h with h | h
      · simp [h]
      · simp [not_lt.mpr h]
    unfold refresh_gradient
    simp [hen]
  · intro h
    unfold refresh_random_mix
    simp [not_lt.mpr h]

/-- Witness of C26: a mixer at rest, whose two tools are equal and whose
height ranges are empty. -/
theorem invalid_config_absorbed_witness :
    mixer_idle.gradient.start_vtool = mixer_idle.gradient.end_vtool ∧
      mixer_idle.random_mix.end_z ≤ mixer_idle.random_mix.start_z ∧
      refresh_gradient build3 ext_keep mixer_idle
        = { mixer_idle with gradient := { mixer_idle.gradient with enabled := false } } ∧
      refresh_random_mix ext_keep mixer_idle
        = { mixer_idle with random_mix := { mixer_idle.random_mix with enabled := false } } :=
  ⟨rfl, by norm_num [mixer_idle],
    (invalid_config_absorbed build3 ext_keep mixer_idle).1 (Or.inl rfl),
    (invalid_config_absorbed build3 ext_keep mixer_idle).2 (by norm_num [mixer_idle])⟩

/-! ## Normalisation of the percentages -/

theorem sum_div_le (N k : Nat) (f : Nat → Nat) :
    ∑ i ∈ Finset.range N, f i / k ≤ (∑ i ∈ Finset.range N, f i) / k := by
  rcases Nat.eq_zero_or_pos k with hk | hk
  · subst hk
    simp
  · rw [Nat.le_div_iff_mul_le hk, Finset.sum_mul]
    exact Finset.sum_le_sum (fun i _ => Nat.div_mul_le_self (f i) k)

/-- A vector without negative components whose first `MIXING_STEPPERS`
components add up to 100 is left as it is. -/
theorem normalize_percent_fixed (B : Build) (q : Nat → Int)
    (hq : ∀ i, i < B.MIXING_STEPPERS → 0 ≤ q i)
    (hs : ∑ i ∈ Finset.range B.MIXING_STEPPERS, (q i).toNat = 100) :
    normalize_percent B q = q := by
  funext i
  unfold normalize_percent
  simp only [list_sum_range]
  rw [hs]
  simp only [show (100 : Nat) ≠ 0 by decide, if_false]
  have hsc : ∀ j, (q j).toNat * 100 / 100 = (q j).toNat := fun j => by omega
  simp only [hsc, hs, Nat.sub_self, Nat.add_zero]
  by_cases hi : i < B.MIXING_STEPPERS
  · rw [if_pos hi]
    have := hq i hi
    by_cases h0 : i = 0
    · rw [if_pos h0, ← h0]
      omega
    · rw [if_neg h0]
      omega
  · rw [if_neg hi]

/-- The result of the normalisation has no negative component and adds up to
100. -/
theorem normalize_percent_sum (B : Build) (p : Nat → Int) (hN : 0 < B.MIXING_STEPPERS) :
    (∀ i, i < B.MIXING_STEPPERS → 0 ≤ normalize_percent B p i) ∧
      ∑ i ∈ Finset.range B.MIXING_STEPPERS, (normalize_percent B p i).toNat = 100 := by
  unfold normalize_percent
  simp only [list_sum_range]
  generalize hbase : (if ∑ i ∈ Finset.range B.MIXING_STEPPERS, (p i).toNat = 0 then
      fun _ => 100 / B.MIXING_STEPPERS else fun i => (p i).toNat) = base
  have hle : ∑ i ∈ Finset.range B.MIXING_STEPPERS,
      base i * 100 / ∑ i ∈ Finset.range B.MIXING_STEPPERS, base i ≤ 100 := by
    refine le_trans (sum_div_le _ _ _) ?_
    rw [← Finset.sum_mul]
    rcases Nat.eq_zero_or_pos (∑ i ∈ Finset.range B.MIXING_STEPPERS, base i) with h0 | h0
    · rw [h0]
      simp
    · rw [Nat.mul_comm, Nat.mul_div_cancel _ h0]
  constructor
  · intro i hi
    rw [if_pos hi]
    exact Int.ofNat_nonneg _
  · have hcong : ∀ i ∈ Finset.range B.MIXING_STEPPERS,
        (if i < B.MIXING_STEPPERS then
            ((if i = 0 then
                base 0 * 100 / ∑ i ∈ Finset.range B.MIXING_STEPPERS, base i
                  + (100 - ∑ i ∈ Finset.range B.MIXING_STEPPERS,
                      base i * 100 / ∑ i ∈ Finset.range B.MIXING_STEPPERS, base i)
              else base i * 100 / ∑ i ∈ Finset.range B.MIXING_STEPPERS, base i : Nat) : Int)
          else p i).toNat
        = base i * 100 / (∑ i ∈ Finset.range B.MIXING_STEPPERS, base i)
          + if 0 = i then
              100 - ∑ i ∈ Finset.range B.MIXING_STEPPERS,
                base i * 100 / ∑ i ∈ Finset.range B.MIXING_STEPPERS, base i
            else 0 := by
      intro i hi
      rw [if_pos (Finset.mem_range.mp hi), Int.toNat_ofNat]
      by_cases h0 : i = 0
      · rw [if_pos h0, if_pos h0.symm, h0]
      · rw [if_neg h0, if_neg (fun h => h0 h.symm), Nat.add_zero]
    rw [Finset.sum_congr rfl hcong, Finset.sum_add_distrib, Finset.sum_ite_eq,
      if_pos (Finset.mem_range.mpr hN)]
    omega

/-- C20: the normalisation of the spec is idempotent: applied twice it gives
what it gives applied once, for every percentage vector. -/
theorem normalize_idempotent (B : Build) (p : Nat → Int) :
    normalize_percent B (normalize_percent B p) = normalize_percent B p := by
  rcases Nat.eq_zero_or_pos B.MIXING_STEPPERS with hN | hN
  · have hid : ∀ q : Nat → Int, normalize_percent B q = q := by
      intro q
      funext i
      unfold normalize_percent
      simp [hN]
    rw [hid, hid]
  · obtain ⟨h1, h2⟩ := normalize_percent_sum B p hN
    exact normalize_percent_fixed B _ h1 h2

/-! ## Rounding to `binary32` -/

theorem ilog2_spec : ∀ (f n : Nat), n ≤ f → n ≠ 0 →
    2 ^ ilog2 f n ≤ n ∧ n < 2 ^ (ilog2 f n + 1) := by
  intro f
  induction f with
  | zero =>
    intro n h1 h2
    omega
  | succ f ih =>
    intro n h1 h2
    unfold ilog2
    by_cases h : n < 2
    · rw [if_pos h]
      simp
      omega
    · rw [if_neg h]
      obtain ⟨a, b⟩ := ih (n / 2) (by omega) (by omega)
      rw [Nat.pow_succ] at b ⊢
      rw [Nat.pow_succ]
      constructor
      · omega
      · omega

/-- The exponent of a fraction below `2 ^ j`. -/
theorem exponent_le {a d j : Nat} (ha : a ≠ 0) (hd : d ≠ 0) (h : a < d * 2 ^ j) :
    binary32.exponent a d ≤ (j : Int) - 24 := by
  obtain ⟨a1, a2⟩ := ilog2_spec a a (Nat.le_refl a) ha
  obtain ⟨d1, d2⟩ := ilog2_spec d d (Nat.le_refl d) hd
  unfold binary32.exponent
  dsimp only
  generalize ilog2 a a = la at a1 a2
  generalize ilog2 d d = ld at d1 d2
  -- la ≤ ld + j, since 2 ^ la ≤ a < d * 2 ^ j < 2 ^ (ld + 1 + j)
  have hl : la ≤ ld + j := by
    by_contra hc
    have h1 : 2 ^ (ld + 1 + j) ≤ 2 ^ la := Nat.pow_le_pow_right (by norm_num) (by omega)
    have h2 : d * 2 ^ j < 2 ^ (ld + 1) * 2 ^ j :=
      Nat.mul_lt_mul_of_pos_right d2 (Nat.pow_pos (by norm_num))
    rw [← Nat.pow_add] at h2
    omega
  split_ifs with h0 hb hb
  · -- big, 0 ≤ l: d * 2 ^ l ≤ a
    have hb1 : d * 2 ^ ((la : Int) - (ld : Int)).toNat ≤ a := by simpa using hb
    have e : ((la : Int) - (ld : Int)).toNat = la - ld := by omega
    rw [e] at hb1
    have : la - ld < j := by
      by_contra hc
      have h3 : 2 ^ j ≤ 2 ^ (la - ld) := Nat.pow_le_pow_right (by norm_num) (by omega)
      have h4 : d * 2 ^ j ≤ d * 2 ^ (la - ld) := Nat.mul_le_mul_left d h3
      omega
    omega
  · omega
  · omega
  · omega

theorem nearest_ge {p q A : Nat} (h : A * q ≤ p) (hq : 0 < q) : A ≤ binary32.nearest p q := by
  have h1 : A ≤ p / q := (Nat.le_div_iff_mul_le hq).mpr h
  unfold binary32.nearest
  split_ifs <;> omega

theorem nearest_le {p q C : Nat} (h : p ≤ C * q) (hq : 0 < q) : binary32.nearest p q ≤ C := by
  have h1 : p / q ≤ C := by
    calc p / q ≤ C * q / q := Nat.div_le_div_right h
      _ = C := Nat.mul_div_cancel C hq
  have h2 := Nat.div_add_mod p q
  unfold binary32.nearest
  split_ifs with hc
  · -- rounded up: then p / q < C, else p = C * q and the remainder is 0
    by_contra hlt
    have h3 : p / q = C := by omega
    have h4 : q * (p / q) = C * q := by rw [h3, Nat.mul_comm]
    have h5 : p % q = 0 := by omega
    rw [h5] at hc
    omega
  · exact h1

theorem nearest_lt {p q C : Nat} (h : 2 * p + q < 2 * (C * q)) :
    binary32.nearest p q < C := by
  have h2 := Nat.div_add_mod p q
  have hq : 0 < q := by
    by_contra hq0
    have : q = 0 := by omega
    subst this
    omega
  have h3 : q * (p / q) = (p / q) * q := Nat.mul_comm _ _
  unfold binary32.nearest
  split_ifs with hc
  · -- rounded up: q ≤ 2 * (p % q)
    have hr : q ≤ 2 * (p % q) := by omega
    by_contra hlt
    have h4 : C ≤ p / q + 1 := by omega
    have h5 : C * q ≤ (p / q + 1) * q := Nat.mul_le_mul_right q h4
    rw [Nat.add_mul, Nat.one_mul] at h5
    omega
  · by_contra hlt
    have h4 : C ≤ p / q := by omega
    have h5 : C * q ≤ (p / q) * q := Nat.mul_le_mul_right q h4
    omega

/-- The rounding of a positive fraction below `2 ^ j`, `j ≤ 24`: the last
significand bit is at `2 ^ (-s)` with `s ≥ 24 - j`. -/
theorem round_nat_small {n d j : Nat} (hn : n ≠ 0) (hd : d ≠ 0) (h : n < d * 2 ^ j)
    (hj : j ≤ 24) :
    ∃ s, 24 - j ≤ s ∧
      binary32.round (n : Int) d = ⟨((binary32.nearest (n * 2 ^ s) d : Nat) : Int), 2 ^ s⟩ := by
  have he := exponent_le hn hd h
  refine ⟨(-binary32.exponent n d).toNat, by omega, ?_⟩
  unfold binary32.round
  have h1 : ¬ ((n : Int) = 0 ∨ d = 0) := by
    rintro (h0 | h0)
    · exact hn (by exact_mod_cast h0)
    · exact hd h0
  rw [if_neg h1]
  simp only [Int.natAbs_ofNat]
  rw [if_pos (by omega), if_pos (Int.ofNat_nonneg n), Int.one_mul]

/-- A rounded fraction stays between two integers that bound it. -/
theorem round_bounds {n d A C : Nat} (hd : d ≠ 0) (hA : A * d ≤ n) (hC : n ≤ C * d)
    (hC24 : C < 2 ^ 24) :
    0 < (binary32.round (n : Int) d).den ∧
      (A : Int) * (binary32.round (n : Int) d).den ≤ (binary32.round (n : Int) d).num ∧
      (binary32.round (n : Int) d).num ≤ (C : Int) * (binary32.round (n : Int) d).den := by
  by_cases hn : n = 0
  · subst hn
    have hA0 : A = 0 := by
      rcases Nat.eq_zero_or_pos A with h | h
      · exact h
      · have := Nat.mul_pos h (Nat.pos_of_ne_zero hd)
        omega
    subst hA0
    simp [binary32.round]
  · have hlt : n < d * 2 ^ 24 := by
      have : C * d < 2 ^ 24 * d := Nat.mul_lt_mul_of_pos_right hC24 (Nat.pos_of_ne_zero hd)
      rw [Nat.mul_comm d]
      omega
    obtain ⟨s, _, hs⟩ := round_nat_small hn hd hlt (Nat.le_refl 24)
    rw [hs]
    have hdp : 0 < d := Nat.pos_of_ne_zero hd
    have h1 : A * 2 ^ s ≤ binary32.nearest (n * 2 ^ s) d := by
      apply nearest_ge _ hdp
      calc A * 2 ^ s * d = A * d * 2 ^ s := by ring
        _ ≤ n * 2 ^ s := Nat.mul_le_mul_right _ hA
    have h2 : binary32.nearest (n * 2 ^ s) d ≤ C * 2 ^ s := by
      apply nearest_le _ hdp
      calc n * 2 ^ s ≤ C * d * 2 ^ s := Nat.mul_le_mul_right _ hC
        _ = C * 2 ^ s * d := by ring
    refine ⟨Nat.pow_pos (by norm_num), ?_, ?_⟩
    · show (A : Int) * ((2 ^ s : Nat) : Int) ≤ ((binary32.nearest (n * 2 ^ s) d : Nat) : Int)
      exact_mod_cast h1
    · show ((binary32.nearest (n * 2 ^ s) d : Nat) : Int) ≤ (C : Int) * ((2 ^ s : Nat) : Int)
      exact_mod_cast h2

/-- A rounded fraction stays below an integer `K` that lies above it by more
than half a unit of the last significand bit: `g / d` is the distance to `K`
and `2 ^ j` bounds the fraction. -/
theorem round_lt {n d K g j : Nat} (hd : d ≠ 0) (hg : n + g ≤ K * d) (hj : n < d * 2 ^ j)
    (hj24 : j ≤ 24) (hgd : d < g * 2 ^ (25 - j)) :
    0 < (binary32.round (n : Int) d).den ∧ 0 ≤ (binary32.round (n : Int) d).num ∧
      (binary32.round (n : Int) d).num < (K : Int) * (binary32.round (n : Int) d).den := by
  have hdp : 0 < d := Nat.pos_of_ne_zero hd
  have hgp : 0 < g := by
    rcases Nat.eq_zero_or_pos g with h | h
    · subst h
      omega
    · exact h
  by_cases hn : n = 0
  · subst hn
    have hK : 0 < K := by
      rcases Nat.eq_zero_or_pos K with h | h
      · subst h
        omega
      · exact h
    simp [binary32.round]
    exact hK
  · obtain ⟨s, hs1, hs⟩ := round_nat_small hn hd hj hj24
    rw [hs]
    have hpow : 2 ^ (25 - j) ≤ 2 ^ (s + 1) := Nat.pow_le_pow_right (by norm_num) (by omega)
    have hgs : d < g * 2 ^ (s + 1) := lt_of_lt_of_le hgd (Nat.mul_le_mul_left g hpow)
    have h1 : binary32.nearest (n * 2 ^ s) d < K * 2 ^ s := by
      apply nearest_lt
      have e1 : (n + g) * 2 ^ s ≤ K * d * 2 ^ s := Nat.mul_le_mul_right _ hg
      have e2 : g * 2 ^ (s + 1) = 2 * (g * 2 ^ s) := by rw [Nat.pow_succ]; ring
      have e3 : (n + g) * 2 ^ s = n * 2 ^ s + g * 2 ^ s := Nat.add_mul _ _ _
      have e4 : K * 2 ^ s * d = K * d * 2 ^ s := by ring
      omega
    refine ⟨Nat.pow_pos (by norm_num), Int.ofNat_nonneg _, ?_⟩
    show ((binary32.nearest (n * 2 ^ s) d : Nat) : Int) < (K : Int) * ((2 ^ s : Nat) : Int)
    exact_mod_cast h1

theorem trunc_bounds {x : binary32} {A C : Nat} (hden : 0 < x.den)
    (hA : (A : Int) * x.den ≤ x.num) (hC : x.num ≤ (C : Int) * x.den) :
    (A : Int) ≤ binary32.trunc x ∧ binary32.trunc x ≤ (C : Int) := by
  have h0 : 0 ≤ x.num := le_trans (by positivity) hA
  unfold binary32.trunc
  rw [if_pos h0]
  obtain ⟨u, hu⟩ := Int.eq_ofNat_of_zero_le h0
  rw [hu] at hA hC ⊢
  simp only [Int.toNat_ofNat]
  have hA1 : A * x.den ≤ u := by exact_mod_cast hA
  have hC1 : u ≤ C * x.den := by exact_mod_cast hC
  constructor
  · exact_mod_cast (Nat.le_div_iff_mul_le hden).mpr hA1
  · have : u / x.den ≤ C := by
      calc u / x.den ≤ C * x.den / x.den := Nat.div_le_div_right hC1
        _ = C := Nat.mul_div_cancel C hden
    exact_mod_cast this

theorem trunc_lt {x : binary32} {K : Nat} (hden : 0 < x.den) (h0 : 0 ≤ x.num)
    (hK : x.num < (K : Int) * x.den) : binary32.trunc x < (K : Int) := by
  unfold binary32.trunc
  rw [if_pos h0]
  obtain ⟨u, hu⟩ := Int.eq_ofNat_of_zero_le h0
  rw [hu] at hK ⊢
  simp only [Int.toNat_ofNat]
  have hK1 : u < K * x.den := by exact_mod_cast hK
  have : u / x.den < K := (Nat.div_lt_iff_lt_mul hden).mpr hK1
  exact_mod_cast this

/-- A fraction whose value is an integer below `2 ^ 24` is kept by the
rounding. -/
theorem round_exact {v D : Nat} (hD : 0 < D) (hv : v < 2 ^ 24) :
    0 < (binary32.round ((v * D : Nat) : Int) D).den ∧
      (binary32.round ((v * D : Nat) : Int) D).num
        = (v : Int) * (binary32.round ((v * D : Nat) : Int) D).den := by
  obtain ⟨h0, h1, h2⟩ :=
    round_bounds (Nat.pos_iff_ne_zero.mp hD) (Nat.le_refl (v * D)) (Nat.le_refl (v * D)) hv
  exact ⟨h0, le_antisymm h2 h1⟩

theorem of_int_exact {v : Nat} (hv : v < 2 ^ 24) :
    0 < (binary32.of_int (v : Int)).den ∧
      (binary32.of_int (v : Int)).num = (v : Int) * (binary32.of_int (v : Int)).den := by
  have h := round_exact (Nat.one_pos) hv
  rw [Nat.mul_one] at h
  exact h

theorem add_exact {a b : binary32} {u v : Nat} (ha : 0 < a.den ∧ a.num = (u : Int) * a.den)
    (hb : 0 < b.den ∧ b.num = (v : Int) * b.den) (huv : u + v < 2 ^ 24) :
    0 < (binary32.add a b).den ∧
      (binary32.add a b).num = ((u + v : Nat) : Int) * (binary32.add a b).den := by
  have e : a.num * b.den + b.num * a.den = (((u + v) * (a.den * b.den) : Nat) : Int) := by
    rw [ha.2, hb.2]
    push_cast
    ring
  unfold binary32.add
  rw [e]
  exact round_exact (Nat.mul_pos ha.1 hb.1) huv

theorem mul_exact {a b : binary32} {u v : Nat} (ha : 0 < a.den ∧ a.num = (u : Int) * a.den)
    (hb : 0 < b.den ∧ b.num = (v : Int) * b.den) (huv : u * v < 2 ^ 24) :
    0 < (binary32.mul a b).den ∧
      (binary32.mul a b).num = ((u * v : Nat) : Int) * (binary32.mul a b).den := by
  have e : a.num * b.num = (((u * v) * (a.den * b.den) : Nat) : Int) := by
    rw [ha.2, hb.2]
    push_cast
    ring
  unfold binary32.mul
  rw [e]
  exact round_exact (Nat.mul_pos ha.1 hb.1) huv

/-- The quotient of two exact integers `P / C`, truncated, is the integer
quotient, when the quotient is below `2 ^ j` and `C` below `2 ^ (25 - j)`. -/
theorem div_trunc {a b : binary32} {P C j : Nat} (ha : 0 < a.den ∧ a.num = (P : Int) * a.den)
    (hb : 0 < b.den ∧ b.num = (C : Int) * b.den) (hC : 0 < C) (hP : P < C * 2 ^ j)
    (hj : j < 24) (hCj : C < 2 ^ (25 - j)) :
    binary32.trunc (binary32.div a b) = ((P / C : Nat) : Int) := by
  have hg : 0 < a.den * b.den := Nat.mul_pos ha.1 hb.1
  have hb0 : 0 ≤ b.num := by rw [hb.2]; positivity
  have e1 : a.num * b.den = ((P * (a.den * b.den) : Nat) : Int) := by
    rw [ha.2]
    push_cast
    ring
  have e2 : a.den * b.num.natAbs = C * (a.den * b.den) := by
    have : b.num.natAbs = C * b.den := by
      rw [hb.2]
      exact_mod_cast Int.natAbs_ofNat (C * b.den)
    rw [this]
    ring
  unfold binary32.div
  rw [if_pos hb0, e1, e2]
  generalize a.den * b.den = g at hg
  have hd : C * g ≠ 0 := Nat.pos_iff_ne_zero.mp (Nat.mul_pos hC hg)
  have hdiv : P / C * C ≤ P := Nat.div_mul_le_self P C
  have hlt : P < C * (P / C + 1) := Nat.lt_mul_div_succ P hC
  have hlo : P / C * (C * g) ≤ P * g := by
    calc P / C * (C * g) = P / C * C * g := by ring
      _ ≤ P * g := Nat.mul_le_mul_right g hdiv
  have hhi : P * g ≤ 2 ^ j * (C * g) := by
    calc P * g ≤ C * 2 ^ j * g := Nat.mul_le_mul_right g (Nat.le_of_lt hP)
      _ = 2 ^ j * (C * g) := by ring
  have hpow : 2 ^ j < 2 ^ 24 := Nat.pow_lt_pow_right (by norm_num) hj
  obtain ⟨hden, hA, _⟩ := round_bounds hd hlo hhi hpow
  have hK : P * g + g ≤ (P / C + 1) * (C * g) := by
    calc P * g + g = (P + 1) * g := by ring
      _ ≤ C * (P / C + 1) * g := Nat.mul_le_mul_right g hlt
      _ = (P / C + 1) * (C * g) := by ring
  have hj2 : P * g < C * g * 2 ^ j := by
    calc P * g < C * 2 ^ j * g := Nat.mul_lt_mul_of_pos_right hP hg
      _ = C * g * 2 ^ j := by ring
  have hgd : C * g < g * 2 ^ (25 - j) := by
    calc C * g < 2 ^ (25 - j) * g := Nat.mul_lt_mul_of_pos_right hCj hg
      _ = g * 2 ^ (25 - j) := by ring
  obtain ⟨_, h0, hlt2⟩ := round_lt hd hK hj2 (Nat.le_of_lt hj) hgd
  have t1 := (trunc_bounds hden hA (le_of_lt hlt2)).1
  have t2 := trunc_lt hden h0 hlt2
  rw [Nat.cast_add, Nat.cast_one] at t2
  exact le_antisymm (Int.lt_add_one_iff.mp t2) t1

/-- The float sum of the first `k` components of a colour is their exact sum,
below `2 ^ 24`. -/
theorem color_sum_exact (row : Nat → Nat) :
    ∀ k : Nat, ((List.range k).map row).sum < 2 ^ 24 →
      0 < ((List.range k).foldl
            (fun acc i => binary32.add acc (binary32.of_int (row i))) (binary32.of_int 0)).den ∧
        ((List.range k).foldl
            (fun acc i => binary32.add acc (binary32.of_int (row i))) (binary32.of_int 0)).num
          = ((((List.range k).map row).sum : Nat) : Int)
            * ((List.range k).foldl
                (fun acc i => binary32.add acc (binary32.of_int (row i))) (binary32.of_int 0)).den := by
  intro k
  induction k with
  | zero =>
    intro _
    simp [binary32.of_int, binary32.round]
  | succ k ih =>
    intro h
    rw [List.range_succ, List.map_append, List.sum_append] at h
    simp only [List.map_cons, List.map_nil, List.sum_cons, List.sum_nil, Nat.add_zero] at h
    rw [List.range_succ, List.foldl_append, List.map_append, List.sum_append]
    simp only [List.foldl_cons, List.foldl_nil, List.map_cons, List.map_nil, List.sum_cons,
      List.sum_nil, Nat.add_zero]
    exact add_exact (ih (by omega)) (of_int_exact (by omega)) h

theorem color_total_exact (B : Build) (row : Nat → Nat)
    (h : ((List.range B.MIXING_STEPPERS).map row).sum < 2 ^ 24) :
    0 < (color_total B row).den ∧
      (color_total B row).num
        = ((((List.range B.MIXING_STEPPERS).map row).sum : Nat) : Int) * (color_total B row).den :=
  color_sum_exact row B.MIXING_STEPPERS h

theorem le_sum_range (row : Nat → Nat) {i N : Nat} (hi : i < N) :
    row i ≤ ((List.range N).map row).sum :=
  List.single_le_sum (fun _ _ => Nat.zero_le _) _
    (List.mem_map.mpr ⟨i, List.mem_range.mpr hi, rfl⟩)

/-- The component `update_mix_from_vtool` stores, before the normaliser, is
the integer quotient `100 * row i / total`. -/
theorem vtool_percent_eq (B : Build) (row : Nat → Nat) (i : Nat) (hi : i < B.MIXING_STEPPERS)
    (hpos : 0 < ((List.range B.MIXING_STEPPERS).map row).sum)
    (hS : ((List.range B.MIXING_STEPPERS).map row).sum < 2 ^ 18)
    (hrow : 100 * row i < 2 ^ 24) :
    vtool_percent B row i
      = ((100 * row i / ((List.range B.MIXING_STEPPERS).map row).sum : Nat) : Int) := by
  have hle := le_sum_range row hi
  have hc := color_total_exact B row (lt_trans hS (by norm_num))
  have h100 : 0 < (binary32.of_int ((100 : Nat) : Int)).den ∧ _ := of_int_exact (by norm_num)
  have hr := of_int_exact (lt_of_le_of_lt (Nat.le_mul_of_pos_left (row i) (by norm_num)) hrow)
  have hm := mul_exact h100 hr hrow
  have hq := div_trunc hm hc hpos (j := 7) (by omega) (by norm_num) hS
  unfold vtool_percent
  have e : (100 : Int) = ((100 : Nat) : Int) := rfl
  rw [e, hq]
  have hq100 : 100 * row i / ((List.range B.MIXING_STEPPERS).map row).sum ≤ 100 := by
    apply Nat.div_le_of_le_mul
    omega
  generalize 100 * row i / ((List.range B.MIXING_STEPPERS).map row).sum = q at hq100
  unfold int8_t
  omega

/-! ## The conversions between percentages and colours -/

/-- C27, as stated, fails: the colour `[0x8000, 0x4000, 0]` has its first
component at 66.67 percent of the total, whose nearest integer is 67, and
`update_mix_from_vtool` stores 66 (and 33 and 0) before the normaliser. -/
theorem color_to_percent_not_nearest :
    vtool_percent_rounded build3 (mixer_two_to_one.color 0) 0 = 67 ∧
      vtool_percent build3 (mixer_two_to_one.color 0) 0 = 66 ∧
      (update_mix_from_vtool build3 ext_keep 0 mixer_two_to_one).percentmix 0 = 66 ∧
      (update_mix_from_vtool build3 ext_keep 0 mixer_two_to_one).percentmix 1 = 33 ∧
      (update_mix_from_vtool build3 ext_keep 0 mixer_two_to_one).percentmix 2 = 0 := by
  decide!

/-- C27, amended: for every palette entry `j` with a positive component sum
(below `2 ^ 18`, each component below `2 ^ 24 / 100`, so that the float
arithmetic is exact enough), `update_mix_from_vtool (j)` computes each
component, before the normaliser, as `100 * color[j][i] / sum` truncated
toward zero, then normalises the vector and copies it to the collector. -/
theorem color_to_percent_truncates (B : Build) (X : Ext) (j : Nat) (m : Mixer)
    (hpos : 0 < ((List.range B.MIXING_STEPPERS).map (m.color (j : Int))).sum)
    (hS : ((List.range B.MIXING_STEPPERS).map (m.color (j : Int))).sum < 2 ^ 18)
    (hrow : ∀ i, i < B.MIXING_STEPPERS → 100 * m.color (j : Int) i < 2 ^ 24) :
    (∀ i, i < B.MIXING_STEPPERS →
        vtool_percent B (m.color (j : Int)) i
          = ((100 * m.color (j : Int) i
                / ((List.range B.MIXING_STEPPERS).map (m.color (j : Int))).sum : Nat) : Int)) ∧
      update_mix_from_vtool B X j m
        = copy_percentmix_to_collector X
            { m with
              percentmix := normalize_mixer_percent X
                (copy_steppers B
                  (fun i => ((100 * m.color (j : Int) i
                      / ((List.range B.MIXING_STEPPERS).map (m.color (j : Int))).sum : Nat) : Int))
                  m.percentmix) } := by
  have h1 : ∀ i, i < B.MIXING_STEPPERS →
      vtool_percent B (m.color (j : Int)) i
        = ((100 * m.color (j : Int) i
              / ((List.range B.MIXING_STEPPERS).map (m.color (j : Int))).sum : Nat) : Int) :=
    fun i hi => vtool_percent_eq B (m.color (j : Int)) i hi hpos hS (hrow i hi)
  refine ⟨h1, ?_⟩
  have h2 : copy_steppers B (vtool_percent B (m.color (j : Int))) m.percentmix
      = copy_steppers B
          (fun i => ((100 * m.color (j : Int) i
              / ((List.range B.MIXING_STEPPERS).map (m.color (j : Int))).sum : Nat) : Int))
          m.percentmix := by
    funext i
    unfold copy_steppers
    split_ifs with hi
    · exact h1 i hi
    · rfl
  unfold update_mix_from_vtool
  dsimp only
  rw [h2]

theorem color_to_percent_truncates_witness :
    (∀ i, i < build3.MIXING_STEPPERS →
        vtool_percent build3 (mixer_two_to_one.color ((0 : Nat) : Int)) i
          = ((100 * mixer_two_to_one.color ((0 : Nat) : Int) i
                / ((List.range build3.MIXING_STEPPERS).map
                    (mixer_two_to_one.color ((0 : Nat) : Int))).sum : Nat) : Int)) ∧
      update_mix_from_vtool build3 ext_keep 0 mixer_two_to_one
        = copy_percentmix_to_collector ext_keep
            { mixer_two_to_one with
              percentmix := normalize_mixer_percent ext_keep
                (copy_steppers build3
                  (fun i => ((100 * mixer_two_to_one.color ((0 : Nat) : Int) i
                      / ((List.range build3.MIXING_STEPPERS).map
                          (mixer_two_to_one.color ((0 : Nat) : Int))).sum : Nat) : Int))
                  mixer_two_to_one.percentmix) } :=
  color_to_percent_truncates build3 ext_keep 0 mixer_two_to_one (by decide) (by decide)
    (by decide)

/-- C16, failing input: with the percentages `[55, 45]`, which the
normaliser leaves as they are, `copy_percentmix_to_color` stores
`[0x7FFF, 26810]`: the largest component is one below `COLOR_A_MASK`. The
scenario of the claim, `[50, 50, 0, 0]`, gives
`[COLOR_A_MASK, COLOR_A_MASK, 0, 0]`. -/
theorem scale_to_max_misses_full_scale :
    (copy_percentmix_to_color build2 (ext_spec build2) mixer_55_45 (fun _ => 0)).1.percentmix 0 = 55 ∧
      (copy_percentmix_to_color build2 (ext_spec build2) mixer_55_45 (fun _ => 0)).1.percentmix 1 = 45 ∧
      (copy_percentmix_to_color build2 (ext_spec build2) mixer_55_45 (fun _ => 0)).2 0 = 0x7FFF ∧
      (copy_percentmix_to_color build2 (ext_spec build2) mixer_55_45 (fun _ => 0)).2 1 = 26810 ∧
      (copy_percentmix_to_color build2 ext_keep mixer_55_45 (fun _ => 0)).2 0 = COLOR_A_MASK - 1 ∧
      (∀ i, i < 4 →
        (copy_percentmix_to_color build4 (ext_spec build4) mixer_50_50 (fun _ => 0)).2 i
          = [COLOR_A_MASK, COLOR_A_MASK, 0, 0].getD i 0) := by
  decide!

/-- C17, as stated, fails: with six steppers and the percentages
`[95, 1, 1, 1, 1, 1]`, which sum to 100, the conversion to a colour gives
`[0x8000, 344, 344, 344, 344, 344]`, the conversion back gives
`[95, 0, 0, 0, 0, 0]` before the normaliser and `[100, 0, 0, 0, 0, 0]` after
it: the first component is 5 above the proportion 95. -/
theorem round_trip_counterexample :
    (∀ i, i < 6 →
      normalize_mixer_percent (ext_spec build6) mixer_95.percentmix i = mixer_95.percentmix i) ∧
    (∀ i, i < 6 →
      (copy_percentmix_to_color build6 (ext_spec build6) mixer_95 (mixer_95.color 0)).2 i
        = [0x8000, 344, 344, 344, 344, 344].getD i 0) ∧
    (∀ i, i < 6 →
      vtool_percent build6
          (copy_percentmix_to_color build6 (ext_spec build6) mixer_95 (mixer_95.color 0)).2 i
        = [95, 0, 0, 0, 0, 0].getD i 0) ∧
    (percent_round_trip build6 (ext_spec build6) 0 mixer_95).percentmix 0 = 100 ∧
    (percent_round_trip build6 (ext_spec build6) 0 mixer_95).percentmix 1 = 0 := by
  decide!

theorem foldl_max_spec (mix : Nat → Int) :
    ∀ (k : Nat) (init : Int),
      init ≤ (List.range k).foldl (fun a i => max a (mix i)) init ∧
      (∀ i, i < k → mix i ≤ (List.range k).foldl (fun a i => max a (mix i)) init) ∧
      ((List.range k).foldl (fun a i => max a (mix i)) init = init ∨
        ∃ i, i < k ∧ (List.range k).foldl (fun a i => max a (mix i)) init = mix i) := by
  intro k
  induction k with
  | zero =>
    intro init
    simp
  | succ k ih =>
    intro init
    obtain ⟨h1, h2, h3⟩ := ih init
    rw [List.range_succ, List.foldl_append]
    simp only [List.foldl_cons, List.foldl_nil]
    refine ⟨le_trans h1 (le_max_left _ _), ?_, ?_⟩
    · intro i hi
      rcases Nat.lt_succ_iff_lt_or_eq.mp hi with h | h
      · exact le_trans (h2 i h) (le_max_left _ _)
      · rw [h]
        exact le_max_right _ _
    · rcases le_total ((List.range k).foldl (fun a i => max a (mix i)) init) (mix k) with h | h
      · right
        exact ⟨k, Nat.lt_succ_self k, max_eq_right h⟩
      · rw [max_eq_left h]
        rcases h3 with h3 | ⟨i, hi, h3⟩
        · left
          exact h3
        · right
          exact ⟨i, Nat.lt_succ_of_lt hi, h3⟩

/-- The `_MAX` of the percentages is at least every component and is one of
them. -/
theorem percent_max_spec (B : Build) (mix : Nat → Int) (hN : 1 ≤ B.MIXING_STEPPERS) :
    (∀ i, i < B.MIXING_STEPPERS → mix i ≤ percent_max B mix) ∧
      ∃ k, k < B.MIXING_STEPPERS ∧ percent_max B mix = mix k := by
  obtain ⟨_, h2, h3⟩ := foldl_max_spec mix B.MIXING_STEPPERS (mix 0)
  refine ⟨h2, ?_⟩
  rcases h3 with h3 | h3
  · exact ⟨0, hN, h3⟩
  · exact h3

/-- The scale `COLOR_A_MASK * RECIPROCAL (max)` is within a hundredth, after
the multiplication by the maximum, of `COLOR_A_MASK`, for every maximum from 1
to 100. -/
theorem scale_of_table :
    ∀ M : Nat, M < 101 → 0 < M →
      0 < (scale_of (M : Int)).den ∧ 0 ≤ (scale_of (M : Int)).num ∧
        100 * (M : Int) * (scale_of (M : Int)).num
          ≤ (100 * 32768 + 1) * ((scale_of (M : Int)).den : Int) ∧
        (100 * 32768 - 1) * ((scale_of (M : Int)).den : Int)
          ≤ 100 * (M : Int) * (scale_of (M : Int)).num := by
  decide!

/-- The truncation of a rounded fraction is the integer part of the fraction
or one more. -/
theorem trunc_round_floor {n d : Nat} (hd : d ≠ 0) (h : n / d + 1 < 2 ^ 24) :
    ((n / d : Nat) : Int) ≤ binary32.trunc (binary32.round (n : Int) d) ∧
      binary32.trunc (binary32.round (n : Int) d) ≤ ((n / d + 1 : Nat) : Int) := by
  have hdp : 0 < d := Nat.pos_of_ne_zero hd
  have h1 : n / d * d ≤ n := Nat.div_mul_le_self n d
  have h2 : n ≤ (n / d + 1) * d := by
    have := Nat.lt_mul_div_succ n hdp
    rw [Nat.mul_comm] at this
    exact Nat.le_of_lt this
  obtain ⟨hden, hA, hC⟩ := round_bounds hd h1 h2 h
  exact trunc_bounds hden hA hC

/-- The integer part `G` of `pn * sn / sd`, for a scale `sn / sd` within a
hundredth (after the multiplication by `M`) of `32768 / M`. -/
theorem scaled_floor_bounds {pn M sn sd : Nat} (hM0 : 0 < M) (hp : pn ≤ M) (hM : M ≤ 100)
    (hsd : 0 < sd) (hup : 100 * M * sn ≤ 3276801 * sd) (hlo : 3276799 * sd ≤ 100 * M * sn) :
    M * (pn * sn / sd) ≤ 32768 * pn + 1 ∧ 32768 * pn ≤ M * (pn * sn / sd + 1) := by
  have h1 : pn * sn / sd * sd ≤ pn * sn := Nat.div_mul_le_self _ _
  have h3 : pn * sn < sd * (pn * sn / sd + 1) := Nat.lt_mul_div_succ _ hsd
  generalize pn * sn / sd = G at h1 h3
  constructor
  · have h : 100 * (M * G) * sd ≤ 3276801 * pn * sd := by
      calc 100 * (M * G) * sd = 100 * M * (G * sd) := by ring
        _ ≤ 100 * M * (pn * sn) := Nat.mul_le_mul_left _ h1
        _ = pn * (100 * M * sn) := by ring
        _ ≤ pn * (3276801 * sd) := Nat.mul_le_mul_left _ hup
        _ = 3276801 * pn * sd := by ring
    have h2 := Nat.le_of_mul_le_mul_right h hsd
    generalize M * G = X at h2
    omega
  · have h : 3276799 * pn * sd < 100 * (M * (G + 1)) * sd := by
      calc 3276799 * pn * sd = pn * (3276799 * sd) := by ring
        _ ≤ pn * (100 * M * sn) := Nat.mul_le_mul_left _ hlo
        _ = 100 * M * (pn * sn) := by ring
        _ < 100 * M * (sd * (G + 1)) :=
            Nat.mul_lt_mul_of_pos_left h3 (Nat.mul_pos (by norm_num) hM0)
        _ = 100 * (M * (G + 1)) * sd := by ring
    have h2 := Nat.lt_of_mul_lt_mul_right h
    generalize M * (G + 1) = X at h2
    omega

/-- A component of `copy_percentmix_to_color`: the percentage `pn`, at most
the maximum `M`, becomes a weight `c` with `32768 * pn / M - 1 ≤ c` and
`c ≤ 32768 * pn / M + 1 + 1 / M`. -/
theorem scaled_component (B : Build) {pn M : Nat} (hbits : 16 ≤ B.fast16_bits) (hM0 : 0 < M)
    (hM : M < 101) (hp : pn ≤ M) :
    32768 * pn
        ≤ M * (to_mixer_comp_t B
                (binary32.mul (binary32.of_int (pn : Int)) (scale_of (M : Int))) + 1) ∧
      M * to_mixer_comp_t B (binary32.mul (binary32.of_int (pn : Int)) (scale_of (M : Int)))
        ≤ 32768 * pn + M + 1 := by
  obtain ⟨hsd, hsn, hup, hlo⟩ := scale_of_table M hM hM0
  generalize scale_of (M : Int) = s at hsd hsn hup hlo ⊢
  obtain ⟨sn, hsn1⟩ := Int.eq_ofNat_of_zero_le hsn
  have ha := of_int_exact (v := pn) (by omega)
  generalize binary32.of_int (pn : Int) = a at ha ⊢
  rw [hsn1] at hup hlo
  have hup1 : 100 * M * sn ≤ 3276801 * s.den := by
    zify
    linarith
  have hlo1 : 3276799 * s.den ≤ 100 * M * sn := by
    zify
    linarith
  obtain ⟨g1, g2⟩ := scaled_floor_bounds hM0 hp (by omega) hsd hup1 hlo1
  have e : a.num * s.num = ((pn * sn * a.den : Nat) : Int) := by
    rw [ha.2, hsn1]
    push_cast
    ring
  have ed : a.den * s.den = s.den * a.den := Nat.mul_comm _ _
  have hq : pn * sn * a.den / (s.den * a.den) = pn * sn / s.den :=
    Nat.mul_div_mul_right _ _ ha.1
  have hd : s.den * a.den ≠ 0 := Nat.pos_iff_ne_zero.mp (Nat.mul_pos hsd ha.1)
  have hGle : pn * sn / s.den ≤ 32769 := by
    have : M * (pn * sn / s.den) ≤ M * 32769 := by
      have : 32768 * pn ≤ 32768 * M := Nat.mul_le_mul_left _ hp
      omega
    exact Nat.le_of_mul_le_mul_left this hM0
  have hfl := trunc_round_floor (n := pn * sn * a.den) hd (by rw [hq]; omega)
  rw [hq] at hfl
  unfold to_mixer_comp_t binary32.mul
  rw [e, ed]
  generalize binary32.trunc (binary32.round ((pn * sn * a.den : Nat) : Int) (s.den * a.den)) = t
    at hfl
  generalize pn * sn / s.den = G at g1 g2 hGle hfl
  obtain ⟨f1, f2⟩ := hfl
  have ht0 : 0 ≤ t := le_trans (Int.ofNat_nonneg G) f1
  obtain ⟨c, hc⟩ := Int.eq_ofNat_of_zero_le ht0
  rw [hc] at f1 f2 ⊢
  have f1n : G ≤ c := by exact_mod_cast f1
  have f2n : c ≤ G + 1 := by exact_mod_cast f2
  have hpow : 2 ^ 16 ≤ 2 ^ B.fast16_bits := Nat.pow_le_pow_right (by norm_num) hbits
  rw [Int.toNat_ofNat, Nat.mod_eq_of_lt (by omega)]
  constructor
  · calc 32768 * pn ≤ M * (G + 1) := g2
      _ ≤ M * (c + 1) := Nat.mul_le_mul_left _ (by omega)
  · calc M * c ≤ M * (G + 1) := Nat.mul_le_mul_left _ f2n
      _ = M * G + M := by ring
      _ ≤ 32768 * pn + 1 + M := by omega
      _ = 32768 * pn + M + 1 := by ring

/-- The component bounds of `scaled_component`, summed over the first `k`
steppers. -/
theorem scaled_sum_bounds (p : Nat → Int) (c : Nat → Nat) (M : Int) :
    ∀ k : Nat,
      (∀ i, i < k → 32768 * p i ≤ M * ((c i : Int) + 1) ∧ M * (c i : Int) ≤ 32768 * p i + M + 1) →
      32768 * ((List.range k).map p).sum
          ≤ M * (((((List.range k).map c).sum : Nat) : Int) + (k : Int)) ∧
        M * ((((List.range k).map c).sum : Nat) : Int)
          ≤ 32768 * ((List.range k).map p).sum + (k : Int) * (M + 1) := by
  intro k
  induction k with
  | zero =>
    intro _
    simp
  | succ k ih =>
    intro h
    obtain ⟨h1, h2⟩ := ih (fun i hi => h i (Nat.lt_succ_of_lt hi))
    obtain ⟨h3, h4⟩ := h k (Nat.lt_succ_self k)
    rw [List.range_succ, List.map_append, List.map_append, List.sum_append, List.sum_append]
    simp only [List.map_cons, List.map_nil, List.sum_cons, List.sum_nil, Nat.add_zero, add_zero]
    simp only [Nat.cast_add, Nat.cast_one]
    constructor
    · linarith
    · linarith

/-- The arithmetic of the conversion there and back: a weight `c` within one
of `32768 * p / M` and a total `S` within `N` of `32768 * 100 / M` give
`p - 1 ≤ 100 * c / S < p + 1`. -/
theorem round_trip_arith {M p c S N : Int} (hM0 : 1 ≤ M) (hM : M ≤ 100) (hp0 : 0 ≤ p)
    (hpM : p ≤ M) (hN0 : 0 ≤ N) (hN : N ≤ 6) (hc0 : 0 ≤ c) (hS0 : 0 ≤ S)
    (h1 : 32768 * p ≤ M * (c + 1)) (h2 : M * c ≤ 32768 * p + M + 1)
    (h3 : 32768 * 100 ≤ M * (S + N)) (h4 : M * S ≤ 32768 * 100 + N * (M + 1)) :
    (p - 1) * S ≤ 100 * c ∧ 100 * c < (p + 1) * S := by
  have hMpos : 0 < M := by linarith
  constructor
  · rcases eq_or_lt_of_le hp0 with h | h
    · rw [← h]
      linarith
    · have e1 : (p - 1) * (M * S) ≤ (p - 1) * (32768 * 100 + N * (M + 1)) :=
        mul_le_mul_of_nonneg_left h4 (by linarith)
      have e2 : N * (M + 1) ≤ 6 * 101 :=
        mul_le_mul hN (by linarith) (by linarith) (by norm_num)
      have e3 : (p - 1) * (N * (M + 1)) ≤ 99 * (6 * 101) :=
        mul_le_mul (by linarith) e2 (mul_nonneg hN0 (by linarith)) (by norm_num)
      have e4 : M * ((p - 1) * S) ≤ M * (100 * c) := by
        have : (p - 1) * (32768 * 100 + N * (M + 1))
            = (p - 1) * (32768 * 100) + (p - 1) * (N * (M + 1)) := by ring
        have : M * ((p - 1) * S) = (p - 1) * (M * S) := by ring
        have : M * (100 * c) = 100 * (M * (c + 1)) - 100 * M := by ring
        linarith
      exact le_of_mul_le_mul_left e4 hMpos
  · have e1 : (p + 1) * (32768 * 100 - M * N) ≤ (p + 1) * (M * S) :=
      mul_le_mul_of_nonneg_left (by linarith) (by linarith)
    have e2 : M * N ≤ 100 * 6 := mul_le_mul hM hN hN0 (by norm_num)
    have e3 : (p + 1) * (M * N) ≤ 101 * (100 * 6) :=
      mul_le_mul (by linarith) e2 (mul_nonneg (by linarith) hN0) (by norm_num)
    have e4 : M * (100 * c) < M * ((p + 1) * S) := by
      have : (p + 1) * (32768 * 100 - M * N)
          = (p + 1) * (32768 * 100) - (p + 1) * (M * N) := by ring
      have : M * ((p + 1) * S) = (p + 1) * (M * S) := by ring
      have : M * (100 * c) = 100 * (M * c) := by ring
      linarith
    exact lt_of_mul_lt_mul_left e4 (by linarith)

/-- The conversion there and back on one component: for percentages `p` that
are not negative and sum to 100, the colour `copy_percentmix_to_color` makes
of them converts back, before the normaliser, to `p i` or `p i - 1`. -/
theorem round_trip_component (B : Build) (p : Nat → Int) (row : Nat → Nat)
    (hN1 : 1 ≤ B.MIXING_STEPPERS) (hN6 : B.MIXING_STEPPERS ≤ 6) (hbits : 16 ≤ B.fast16_bits)
    (hp0 : ∀ i, i < B.MIXING_STEPPERS → 0 ≤ p i)
    (hsum : ((List.range B.MIXING_STEPPERS).map p).sum = 100)
    (hrow : ∀ i, i < B.MIXING_STEPPERS →
      row i = to_mixer_comp_t B (binary32.mul (binary32.of_int (p i)) (color_scale B p)))
    (i : Nat) (hi : i < B.MIXING_STEPPERS) :
    p i - 1 ≤ vtool_percent B row i ∧ vtool_percent B row i ≤ p i ∧
      0 ≤ vtool_percent B row i := by
  obtain ⟨hmax, k, hk, hMk⟩ := percent_max_spec B p hN1
  have hmem : ∀ x ∈ (List.range B.MIXING_STEPPERS).map p, 0 ≤ x := by
    intro x hx
    obtain ⟨a, ha, rfl⟩ := List.mem_map.mp hx
    exact hp0 a (List.mem_range.mp ha)
  have hle100 : ∀ a, a < B.MIXING_STEPPERS → p a ≤ 100 := by
    intro a ha
    rw [← hsum]
    exact List.single_le_sum hmem _ (List.mem_map.mpr ⟨a, List.mem_range.mpr ha, rfl⟩)
  have hM0 : 0 ≤ percent_max B p := by
    rw [hMk]
    exact hp0 k hk
  have hM100 : percent_max B p ≤ 100 := by
    rw [hMk]
    exact hle100 k hk
  have hN6i : (B.MIXING_STEPPERS : Int) ≤ 6 := by exact_mod_cast hN6
  have hN0i : (0 : Int) ≤ (B.MIXING_STEPPERS : Int) := Int.ofNat_nonneg _
  have hNM : (100 : Int) ≤ (B.MIXING_STEPPERS : Int) * percent_max B p := by
    have h := List.sum_le_card_nsmul ((List.range B.MIXING_STEPPERS).map p) (percent_max B p)
      (by
        intro x hx
        obtain ⟨a, ha, rfl⟩ := List.mem_map.mp hx
        exact hmax a (List.mem_range.mp ha))
    rw [hsum, List.length_map, List.length_range, nsmul_eq_mul] at h
    exact h
  have hM17 : 17 ≤ percent_max B p := by
    have : (B.MIXING_STEPPERS : Int) * percent_max B p ≤ 6 * percent_max B p :=
      mul_le_mul_of_nonneg_right hN6i hM0
    omega
  obtain ⟨Mn, hMn⟩ := Int.eq_ofNat_of_zero_le hM0
  have hcomp : ∀ a, a < B.MIXING_STEPPERS →
      32768 * p a ≤ percent_max B p * ((row a : Int) + 1) ∧
        percent_max B p * (row a : Int) ≤ 32768 * p a + percent_max B p + 1 := by
    intro a ha
    obtain ⟨pn, hpn⟩ := Int.eq_ofNat_of_zero_le (hp0 a ha)
    have hpM := hmax a ha
    rw [hrow a ha]
    unfold color_scale
    rw [hMn] at hM17 hM100 hpM ⊢
    rw [hpn] at hpM ⊢
    have h := @scaled_component B pn Mn hbits (by omega) (by omega)
      (by exact_mod_cast hpM)
    exact_mod_cast h
  obtain ⟨s1, s2⟩ := scaled_sum_bounds p row (percent_max B p) B.MIXING_STEPPERS hcomp
  rw [hsum] at s1 s2
  have hNM1 : (B.MIXING_STEPPERS : Int) * (percent_max B p + 1) ≤ 6 * 101 :=
    mul_le_mul hN6i (by linarith) (by linarith) (by norm_num)
  have hS0 : (0 : Int) ≤ ((((List.range B.MIXING_STEPPERS).map row).sum : Nat) : Int) :=
    Int.ofNat_nonneg _
  have hS18 : ((List.range B.MIXING_STEPPERS).map row).sum < 2 ^ 18 := by
    have h17 : 17 * ((((List.range B.MIXING_STEPPERS).map row).sum : Nat) : Int)
        ≤ percent_max B p * ((((List.range B.MIXING_STEPPERS).map row).sum : Nat) : Int) :=
      mul_le_mul_of_nonneg_right hM17 hS0
    have h : ((((List.range B.MIXING_STEPPERS).map row).sum : Nat) : Int) < 262144 := by
      linarith
    have h3 : ((List.range B.MIXING_STEPPERS).map row).sum < 262144 := Int.ofNat_lt.mp h
    exact lt_of_lt_of_le h3 (by norm_num)
  have hSpos : 0 < ((List.range B.MIXING_STEPPERS).map row).sum := by
    have h100 : percent_max B p
          * (((((List.range B.MIXING_STEPPERS).map row).sum : Nat) : Int)
              + (B.MIXING_STEPPERS : Int))
        ≤ 100 * (((((List.range B.MIXING_STEPPERS).map row).sum : Nat) : Int)
              + (B.MIXING_STEPPERS : Int)) :=
      mul_le_mul_of_nonneg_right hM100 (by linarith)
    have : (0 : Int) < ((((List.range B.MIXING_STEPPERS).map row).sum : Nat) : Int) := by
      linarith
    exact_mod_cast this
  have hc0 : (0 : Int) ≤ (row i : Int) := Int.ofNat_nonneg _
  have hrow24 : 100 * row i < 2 ^ 24 := by
    have h1 : percent_max B p * (row i : Int) ≤ percent_max B p * 32770 := by
      have := (hcomp i hi).2
      have := hmax i hi
      linarith
    have h2 : (row i : Int) ≤ 32770 := le_of_mul_le_mul_left h1 (by linarith)
    have h3 : row i ≤ 32770 := by exact_mod_cast h2
    omega
  have hq := vtool_percent_eq B row i hi hSpos hS18 hrow24
  obtain ⟨a1, a2⟩ := round_trip_arith (by linarith) hM100 (hp0 i hi) (hmax i hi) hN0i hN6i hc0
    hS0 (hcomp i hi).1 (hcomp i hi).2 s1 s2
  have hSposi : (0 : Int) < ((((List.range B.MIXING_STEPPERS).map row).sum : Nat) : Int) := by
    exact_mod_cast hSpos
  rw [hq, Int.natCast_div, Nat.cast_mul, Nat.cast_ofNat]
  refine ⟨?_, ?_, ?_⟩
  · exact (Int.le_ediv_iff_mul_le hSposi).mpr a1
  · exact Int.lt_add_one_iff.mp ((Int.ediv_lt_iff_lt_mul hSposi).mpr a2)
  · exact Int.ediv_nonneg (by linarith) hS0

/-- C17, amended: when the normaliser leaves percentages `p` that are not
negative and sum to 100 (1 to 6 steppers, `uint_fast16_t` of 16 bits or more),
`copy_percentmix_to_color` followed by `update_mix_from_vtool` computes,
before the closing call of the normaliser, percentages that are each `p i` or
`p i - 1`, so within 1 of `p i`, and 0 where `p i` is 0; the percentages left
are what the normaliser makes of these. -/
theorem round_trip_within_one (B : Build) (X : Ext) (j : Nat) (m : Mixer)
    (hN1 : 1 ≤ B.MIXING_STEPPERS) (hN6 : B.MIXING_STEPPERS ≤ 6) (hbits : 16 ≤ B.fast16_bits)
    (hp0 : ∀ i, i < B.MIXING_STEPPERS → 0 ≤ normalize_mixer_percent X m.percentmix i)
    (hsum : ((List.range B.MIXING_STEPPERS).map (normalize_mixer_percent X m.percentmix)).sum
      = 100) :
    (percent_round_trip B X j m).percentmix
        = normalize_mixer_percent X
            (copy_steppers B
              (vtool_percent B (copy_percentmix_to_color B X m (m.color (j : Int))).2)
              (normalize_mixer_percent X m.percentmix)) ∧
      ∀ i, i < B.MIXING_STEPPERS →
        normalize_mixer_percent X m.percentmix i - 1
            ≤ vtool_percent B (copy_percentmix_to_color B X m (m.color (j : Int))).2 i ∧
          vtool_percent B (copy_percentmix_to_color B X m (m.color (j : Int))).2 i
            ≤ normalize_mixer_percent X m.percentmix i ∧
          (normalize_mixer_percent X m.percentmix i = 0 →
            vtool_percent B (copy_percentmix_to_color B X m (m.color (j : Int))).2 i = 0) := by
  constructor
  · unfold percent_round_trip update_mix_from_vtool copy_percentmix_to_collector
      copy_percentmix_to_color
    simp only [Function.update_same]
  · intro i hi
    have hrow : ∀ a, a < B.MIXING_STEPPERS →
        (copy_percentmix_to_color B X m (m.color (j : Int))).2 a
          = to_mixer_comp_t B
              (binary32.mul (binary32.of_int (normalize_mixer_percent X m.percentmix a))
                (color_scale B (normalize_mixer_percent X m.percentmix))) := by
      intro a ha
      unfold copy_percentmix_to_color copy_steppers
      simp only [if_pos ha]
    obtain ⟨h1, h2, h3⟩ := round_trip_component B (normalize_mixer_percent X m.percentmix)
      (copy_percentmix_to_color B X m (m.color (j : Int))).2 hN1 hN6 hbits hp0 hsum hrow i hi
    refine ⟨h1, h2, ?_⟩
    intro h0
    rw [h0] at h2
    exact le_antisymm h2 h3

/-- Witness of C17, amended: six steppers and the percentages
`[95, 1, 1, 1, 1, 1]`, with the normaliser of the spec. -/
theorem round_trip_within_one_witness :
    (∀ i, i < build6.MIXING_STEPPERS →
        0 ≤ normalize_mixer_percent (ext_spec build6) mixer_95.percentmix i) ∧
      ((List.range build6.MIXING_STEPPERS).map
          (normalize_mixer_percent (ext_spec build6) mixer_95.percentmix)).sum = 100 ∧
      ∀ i, i < build6.MIXING_STEPPERS →
        normalize_mixer_percent (ext_spec build6) mixer_95.percentmix i - 1
            ≤ vtool_percent build6
                (copy_percentmix_to_color build6 (ext_spec build6) mixer_95
                  (mixer_95.color ((0 : Nat) : Int))).2 i ∧
          vtool_percent build6
              (copy_percentmix_to_color build6 (ext_spec build6) mixer_95
                (mixer_95.color ((0 : Nat) : Int))).2 i
            ≤ normalize_mixer_percent (ext_spec build6) mixer_95.percentmix i ∧
          (normalize_mixer_percent (ext_spec build6) mixer_95.percentmix i = 0 →
            vtool_percent build6
                (copy_percentmix_to_color build6 (ext_spec build6) mixer_95
                  (mixer_95.color ((0 : Nat) : Int))).2 i = 0) :=
  ⟨by decide, by decide,
    (round_trip_within_one build6 (ext_spec build6) 0 mixer_95 (by decide) (by decide)
      (by decide) (by decide) (by decide)).2⟩

end Mixing
